import Mathlib

/-!
Lattice SIS sigma protocol: a shallow embedding of the protocol engine.

The development follows `src/src/parameters.cpp`, `src/src/utils.cpp` and
`src/src/lattice_proof.cpp`.

Conventions of the embedding.

* `NTL::ZZ` is `Int`.  NTL's `/` and `%` on `ZZ` are the floor division and its
  remainder (`Int.fdiv`, `Int.fmod`).
* `NTL::ZZ_p` is an `Int` kept in canonical form `[0, q)`; the modulus installed by
  `ZZ_p::init` is passed explicitly as `q`.
* `NTL::vec_ZZ` and `NTL::vec_ZZ_p` are `List Int`; `NTL::mat_ZZ_p` is the list of
  its rows.
* In the embedding of the protocol `int`, `long` and `size_t` are `Int` and a `double`
  is an exact rational `ℚ`.  Where a result depends on the width of an integer type or
  on the rounding of a `double`, the section `Machine arithmetic` gives the function
  again under that arithmetic, as `machine.f` for the function `f`, and the two are
  related by lemmas (`norm_bound_double_exact`, `machine_validate_finite`,
  `machine_proof_size_eq`, `machine_sample_uniform_eq`).
* The random source is an explicit stream of raw draws threaded through the calls.
* A call ends in a value or in an `Error`; methods of `LatticeProof` also return
  the session they leave behind.
-/

set_option autoImplicit false

namespace protocol

/-! ## Outcomes -/

/-- The ways a call can end without a value.  `invalid_argument` is the
`std::invalid_argument` thrown by the repository's own code, `ntl_error` is an error
raised inside NTL, and `out_of_range` marks an element access past the end of a
vector, which the source does not check. -/
inductive Error where
  | invalid_argument (what : String)
  | ntl_error (what : String)
  | out_of_range
  deriving DecidableEq, Repr

/-! ## Integers and residues -/

/-- NTL `a % b` on `ZZ`: the remainder of the floor division. -/
def ZZ_rem (a b : Int) : Int := Int.fmod a b

/-- NTL `a / b` on `ZZ`: the floor division. -/
def ZZ_div (a b : Int) : Int := Int.fdiv a b

/-- NTL `SqrRoot(n)`: the floor of the square root. -/
def SqrRoot (n : Int) : Int := (Nat.sqrt n.toNat : Int)

/-- The conversion `NTL::conv<NTL::ZZ_p>(a)`: the canonical residue of `a`. -/
def conv_ZZ_p (q a : Int) : Int := ZZ_rem a q

/-- Addition of `ZZ_p`. -/
def ZZ_p_add (q a b : Int) : Int := ZZ_rem (a + b) q

/-- Multiplication of `ZZ_p`. -/
def ZZ_p_mul (q a b : Int) : Int := ZZ_rem (a * b) q

/-- Checked stand-in for `v[i]`. -/
def vec_get (v : List Int) (i : Nat) : Except Error Int :=
  match v[i]? with
  | some x => .ok x
  | none => .error .out_of_range

/-- Checked stand-in for `M[i][j]`. -/
def mat_get (M : List (List Int)) (i j : Nat) : Except Error Int :=
  match M[i]? with
  | some row => vec_get row j
  | none => .error .out_of_range

/-- Runs the element computations of a loop in order, stopping at the first error. -/
def collect {α : Type} : List (Except Error α) → Except Error (List α)
  | [] => .ok []
  | .error e :: _ => .error e
  | .ok x :: rest =>
    match collect rest with
    | .error e => .error e
    | .ok xs => .ok (x :: xs)

/-! ## Randomness -/

/-- The random source: the raw draws it will produce, in order. -/
structure RandomStream where
  raw : Nat → Nat

/-- The source after one draw. -/
def RandomStream.tail (g : RandomStream) : RandomStream := ⟨fun i => g.raw (i + 1)⟩

/-- NTL `RandomBnd(n)`: a number in `[0, n)`, or `0` when `n <= 0`. -/
def RandomBnd (n : Int) (g : RandomStream) : Int × RandomStream :=
  (if n ≤ 0 then 0 else (g.raw 0 : Int) % n, g.tail)

/-- NTL `random_ZZ_p()`: a residue in `[0, q)`. -/
def random_ZZ_p (q : Int) (g : RandomStream) : Int × RandomStream := RandomBnd q g

/-- The loop `for (i = 0; i < length; i++) result[i] = draw()`. -/
def fill_vec (draw : RandomStream → Int × RandomStream) :
    Nat → RandomStream → List Int × RandomStream
  | 0, g => ([], g)
  | k + 1, g =>
    let r := draw g
    let rest := fill_vec draw k r.2
    (r.1 :: rest.1, rest.2)

/-- The nested loop filling the rows of a matrix. -/
def fill_mat (draw : RandomStream → Int × RandomStream) (cols : Nat) :
    Nat → RandomStream → List (List Int) × RandomStream
  | 0, g => ([], g)
  | k + 1, g =>
    let row := fill_vec draw cols g
    let rest := fill_mat draw cols k row.2
    (row.1 :: rest.1, rest.2)

/-! ## utils.cpp -/

def sample_ternary (length : Int) (g : RandomStream) : List Int × RandomStream :=
  fill_vec (fun g => ((RandomBnd 3 g).1 - 1, (RandomBnd 3 g).2)) length.toNat g

/-- The loop of `sample_uniform` over the integers; `machine.sample_uniform` adds the
range of the `long` value `2 * bound + 1`. -/
def sample_uniform (length : Int) (bound : Int) (g : RandomStream) :
    List Int × RandomStream :=
  fill_vec (fun g => ((RandomBnd (2 * bound + 1) g).1 - bound, (RandomBnd (2 * bound + 1) g).2))
    length.toNat g

def generate_challenge (length : Int) (g : RandomStream) : List Int × RandomStream :=
  fill_vec (fun g => ((RandomBnd 3 g).1 - 1, (RandomBnd 3 g).2)) length.toNat g

/-- One entry of NTL's matrix-vector product over `ZZ_p`. -/
def InnerProduct (q : Int) (a b : List Int) : Int :=
  ZZ_rem (List.zipWith (fun x y => x * y) a b).sum q

/-- NTL `M * b` for a `mat_ZZ_p` and a `vec_ZZ_p`; NTL raises an error when the
number of columns differs from the length of `b`. -/
def mat_vec_mul (q : Int) (M : List (List Int)) (b : List Int) : Except Error (List Int) :=
  if M.all (fun row => row.length == b.length) then
    .ok (M.map (fun row => InnerProduct q row b))
  else .error (.ntl_error "matrix mul: dimension mismatch")

def matrix_vector_mod (q : Int) (M : List (List Int)) (v : List Int) :
    Except Error (List Int) :=
  mat_vec_mul q M (v.map (conv_ZZ_p q))

def compute_norm_squared (v : List Int) (q : Int) : Int :=
  v.foldl (fun norm_sq x =>
    let vi := if x > ZZ_div q 2 then x - q else x
    norm_sq + vi * vi) 0

/-- The expected contribution of `y`, with the `double` arithmetic read over the
rationals; `machine.calculate_expected_y_contribution` rounds. -/
def calculate_expected_y_contribution (m y_range : Int) : ℚ :=
  (m : ℚ) * ((y_range : ℚ) ^ 2 - 1) / 3

def calculate_expected_s_contribution (m s_range : Int) : ℚ :=
  (m : ℚ) * (s_range : ℚ) ^ 2

/-- The norm bound with the `double` arithmetic read over the rationals.
`machine.calculate_norm_bound` is the function under binary64 rounding; the two agree
where no operation rounds (`norm_bound_double_exact`), as on the arguments
`(m, 10, 1, 10.0)` of the presets (`norm_bound_double_preset`). -/
def calculate_norm_bound (m y_range s_range : Int) (safety_factor : ℚ) : Int :=
  let E_y_squared := calculate_expected_y_contribution m y_range
  let E_s_squared := calculate_expected_s_contribution m s_range
  let expected_norm_squared := E_y_squared + E_s_squared
  ⌈safety_factor * expected_norm_squared⌉

/-! ## parameters.cpp -/

/-- The loop `for (i = 3; i <= sqrtn; i += 2)` of `is_prime`, with a bound on the
number of iterations; `none` when the bound is used up before the loop ends. -/
def is_prime_loop (n sqrtn : Int) : Nat → Int → Option Bool
  | 0, i => if i ≤ sqrtn then none else some true
  | fuel + 1, i =>
    if i ≤ sqrtn then
      if ZZ_rem n i = 0 then some false else is_prime_loop n sqrtn fuel (i + 2)
    else some true

def is_prime (n : Int) : Bool :=
  if n ≤ 1 then false
  else if n = 2 then true
  else if ZZ_rem n 2 = 0 then false
  else (is_prime_loop n (SqrRoot n) (SqrRoot n).toNat 3).getD false

structure Parameters where
  n : Int
  m : Int
  q : Int
  y_range : Int
  s_range : Int
  safety_factor : ℚ
  sigma : ℚ

/-- The validation for a finite `safety_factor_` and `sigma_`, read as rationals;
`machine.Parameters.validate` takes every `double`. -/
def Parameters.validate (P : Parameters) : Except Error Bool :=
  if P.n ≤ 0 ∨ P.m ≤ 0 then .error (.invalid_argument "Dimensions must be positive")
  else if P.q ≤ 0 then .error (.invalid_argument "Modulus must be positive")
  else if P.y_range ≤ 0 ∨ P.s_range ≤ 0 then
    .error (.invalid_argument "Ranges must be positive")
  else if P.safety_factor ≤ 0 then
    .error (.invalid_argument "Safety factor must be positive")
  else if P.sigma ≤ 0 then .error (.invalid_argument "Sigma must be positive")
  else if !is_prime P.q then .error (.invalid_argument "Modulus must be prime")
  else .ok true

/-- The constructor `Parameters::Parameters`. -/
def Parameters.ctor (n m q y_range s_range : Int) (safety_factor sigma : ℚ) :
    Except Error Parameters :=
  match Parameters.validate ⟨n, m, q, y_range, s_range, safety_factor, sigma⟩ with
  | .error e => .error e
  | .ok valid =>
    if !valid then .error (.invalid_argument "Invalid parameters")
    else .ok ⟨n, m, q, y_range, s_range, safety_factor, sigma⟩

def Parameters.DefaultParams : Except Error Parameters :=
  Parameters.ctor 4 4 97 10 1 10 (3 / 2)

def Parameters.HighSecurityParams : Except Error Parameters :=
  Parameters.ctor 512 512 4294967291 10 1 10 (3 / 2)

/-! ## lattice_proof.cpp -/

/-- The private state of `LatticeProof`.  A default-constructed `y_` is the empty
vector. -/
structure LatticeProof where
  params_ : Parameters
  A_ : List (List Int)
  s_ : List Int
  y_ : List Int
  t_ : List Int

/-- The constructor `LatticeProof::LatticeProof`. -/
def LatticeProof.ctor (params : Parameters) (g : RandomStream) :
    Except Error (LatticeProof × RandomStream) :=
  let A := fill_mat (random_ZZ_p params.q) params.m.toNat params.n.toNat g
  let s := sample_ternary params.m A.2
  match matrix_vector_mod params.q A.1 s.1 with
  | .error e => .error e
  | .ok t => .ok (⟨params, A.1, s.1, [], t⟩, s.2)

def LatticeProof.commit (S : LatticeProof) (g : RandomStream) :
    Except Error (List Int) × LatticeProof × RandomStream :=
  let y := sample_uniform S.params_.m S.params_.y_range g
  (matrix_vector_mod S.params_.q S.A_ y.1, { S with y_ := y.1 }, y.2)

/-- The body of the loop of `respond` at index `i`. -/
def respond_entry (S : LatticeProof) (challenge : List Int) (i : Nat) : Except Error Int :=
  match vec_get S.y_ i, vec_get challenge i, vec_get S.s_ i with
  | .ok yi, .ok ci, .ok si =>
    .ok (ZZ_rem (ZZ_rem (yi + ci * si) S.params_.q + S.params_.q) S.params_.q)
  | _, _, _ => .error .out_of_range

def LatticeProof.respond (S : LatticeProof) (challenge : List Int) :
    Except Error (List Int) × LatticeProof :=
  if (challenge.length : Int) ≠ S.params_.m then
    (.error (.invalid_argument "Challenge vector has wrong dimension"), S)
  else
    (collect ((List.range S.params_.m.toNat).map (respond_entry S challenge)), S)

/-- One step `ct[i] += conv(challenge[j]) * A_[i][j] * conv(s_[j])`. -/
def ct_step (S : LatticeProof) (challenge : List Int) (i : Nat)
    (acc : Except Error Int) (j : Nat) : Except Error Int :=
  match acc, vec_get challenge j, mat_get S.A_ i j, vec_get S.s_ j with
  | .ok ct, .ok cj, .ok a, .ok sj =>
    .ok (ZZ_p_add S.params_.q ct
      (ZZ_p_mul S.params_.q (ZZ_p_mul S.params_.q (conv_ZZ_p S.params_.q cj) a)
        (conv_ZZ_p S.params_.q sj)))
  | .error e, _, _, _ => .error e
  | _, _, _, _ => .error .out_of_range

/-- The inner loop of `verify` computing `ct[i]`. -/
def ct_entry (S : LatticeProof) (challenge : List Int) (i : Nat) : Except Error Int :=
  (List.range S.params_.m.toNat).foldl (ct_step S challenge i)
    (.ok (conv_ZZ_p S.params_.q 0))

/-- The body of the loop `rhs[i] = u[i] + ct[i]`. -/
def rhs_entry (S : LatticeProof) (u ct : List Int) (i : Nat) : Except Error Int :=
  match vec_get u i, vec_get ct i with
  | .ok ui, .ok cti => .ok (ZZ_p_add S.params_.q ui cti)
  | _, _ => .error .out_of_range

def LatticeProof.verify (S : LatticeProof) (u challenge z : List Int) : Except Error Bool :=
  if (u.length : Int) ≠ S.params_.n then
    .error (.invalid_argument "Commitment vector has wrong dimension")
  else if (challenge.length : Int) ≠ S.params_.m then
    .error (.invalid_argument "Challenge vector has wrong dimension")
  else if (z.length : Int) ≠ S.params_.m then
    .error (.invalid_argument "Response vector has wrong dimension")
  else
    let norm_bound := calculate_norm_bound S.params_.m S.params_.y_range
      S.params_.s_range S.params_.safety_factor
    let norm_sq := compute_norm_squared z S.params_.q
    if norm_sq > norm_bound then .ok false
    else
      match matrix_vector_mod S.params_.q S.A_ z with
      | .error e => .error e
      | .ok Az =>
        match collect ((List.range S.params_.n.toNat).map (ct_entry S challenge)) with
        | .error e => .error e
        | .ok ct =>
          match collect ((List.range S.params_.n.toNat).map (rhs_entry S u ct)) with
          | .error e => .error e
          | .ok rhs => .ok (Az == rhs)

/-! ## Rounds, as the tests drive them -/

/-- One iteration of the loop of `test_multiple_proofs`: `commit`, `respond` to the
given challenge, `verify`.  `g` is the state of the random source when `commit` is
called. -/
def round (S : LatticeProof) (g : RandomStream) (challenge : List Int) :
    Except Error Bool × LatticeProof :=
  let c := S.commit g
  match c.1 with
  | .error e => (.error e, c.2.1)
  | .ok u =>
    let r := c.2.1.respond challenge
    match r.1 with
    | .error e => (.error e, r.2)
    | .ok z => (r.2.verify u challenge z, r.2)

/-- Successive rounds on one session.  Each round comes with the state of the random
source at its `commit` and with its challenge, so whatever draws from the source
between two rounds is covered. -/
def rounds : LatticeProof → List (RandomStream × List Int) → List (Except Error Bool)
  | _, [] => []
  | S, gc :: rest => (round S gc.1 gc.2).1 :: rounds (round S gc.1 gc.2).2 rest

/-! ## Predicates used in the statements -/

/-- Entries in `{-1, 0, 1}`. -/
def Ternary (v : List Int) : Prop := ∀ x ∈ v, x = -1 ∨ x = 0 ∨ x = 1

/-- Entries in `[-b, b]`. -/
def Within (b : Int) (v : List Int) : Prop := ∀ x ∈ v, -b ≤ x ∧ x ≤ b

/-- The data invariant of a session: `A_` is an `n × m` matrix of canonical
residues, `s_` is a ternary vector of length `m`, and `t_` is `matrix_vector_mod(A_, s_)`. -/
structure LatticeProof.Inv (S : LatticeProof) : Prop where
  A_rows : (S.A_.length : Int) = S.params_.n
  A_cols : ∀ row ∈ S.A_, (row.length : Int) = S.params_.m
  A_canon : ∀ row ∈ S.A_, ∀ a ∈ row, 0 ≤ a ∧ a < S.params_.q
  s_len : (S.s_.length : Int) = S.params_.m
  s_ternary : Ternary S.s_
  t_def : matrix_vector_mod S.params_.q S.A_ S.s_ = .ok S.t_

/-- The state `Committed`: `y_` holds a vector that `commit` can have sampled. -/
def LatticeProof.Committed (S : LatticeProof) : Prop :=
  (S.y_.length : Int) = S.params_.m ∧ Within S.params_.y_range S.y_

/-- The state `Fresh`: `y_` is still the default-constructed vector. -/
def LatticeProof.Fresh (S : LatticeProof) : Prop := S.y_ = []

/-- The sessions reachable from the constructor over `P` by `commit` and `respond`. -/
inductive Reachable (P : Parameters) : LatticeProof → Prop where
  | ctor (g g1 : RandomStream) (S : LatticeProof) :
      LatticeProof.ctor P g = .ok (S, g1) → Reachable P S
  | commit (S : LatticeProof) (g : RandomStream) :
      Reachable P S → Reachable P (S.commit g).2.1
  | respond (S : LatticeProof) (challenge : List Int) :
      Reachable P S → Reachable P (S.respond challenge).2

/-- The entry `v[i]` of a vector, `0` past its end. -/
def entry (v : List Int) (i : Nat) : Int := v.getD i 0

/-- The integer `sum_j M[i][j] * v[j]` over the first `m` columns. -/
def row_dot (M : List (List Int)) (v : List Int) (m i : Nat) : Int :=
  ∑ j in Finset.range m, entry (M.getD i []) j * entry v j

/-- The value of `ct[i]` when its loop runs through. -/
def ct_val (S : LatticeProof) (challenge : List Int) (i : Nat) : Int :=
  match ct_entry S challenge i with
  | .ok v => v
  | .error _ => 0


/-- The balanced representative that `compute_norm_squared` squares. -/
def lift (q x : Int) : Int := if x > ZZ_div q 2 then x - q else x

/-! ## Concrete inputs -/

/-- The random source whose raw draws are all `0`. -/
def zeroStream : RandomStream := ⟨fun _ => 0⟩

/-- The parameters of the `default` preset. -/
def P_default : Parameters := ⟨4, 4, 97, 10, 1, 10, 3 / 2⟩

/-- A session over the `default` preset. -/
def S_default : LatticeProof :=
  ⟨P_default, [[1, 2, 3, 4], [5, 6, 7, 8], [9, 10, 11, 12], [96, 0, 50, 1]], [1, 0, -1, 1], [],
    [2, 6, 10, 47]⟩

/-- The parameters of the `high_security` preset. -/
def P_high : Parameters := ⟨512, 512, 4294967291, 10, 1, 10, 3 / 2⟩

/-- The session over `P` with the zero matrix and the zero secret. -/
def zero_session (P : Parameters) : LatticeProof :=
  ⟨P, List.replicate P.n.toNat (List.replicate P.m.toNat 0), List.replicate P.m.toNat 0, [],
    List.replicate P.n.toNat 0⟩

/-- A session over the `high_security` preset. -/
def S_high : LatticeProof := zero_session P_high

/-- The session the constructor builds over the `default` preset from `zeroStream`. -/
def S_fresh : LatticeProof :=
  ⟨P_default, [[0, 0, 0, 0], [0, 0, 0, 0], [0, 0, 0, 0], [0, 0, 0, 0]], [-1, -1, -1, -1], [],
    [0, 0, 0, 0]⟩

/-! ## Further code of the tests -/

/-- The field types of `ProofSize` are `size_t`; the sizes are kept as integers. -/
structure ProofSize where
  commitment_size : Int
  challenge_size : Int
  response_size : Int
  total_size : Int

/-- NTL `NumBits(a)`: the number of bits of `|a|`, and `0` for `a = 0`. -/
def NumBits (a : Int) : Int := (Nat.size a.natAbs : Int)

/-- The function `calculate_proof_size` of `tests/performance_tests.cpp`, over the
integers; `machine.calculate_proof_size` adds the ranges of `int` and `long`. -/
def calculate_proof_size (params : Parameters) (_u _challenge _z : List Int) : ProofSize :=
  let q_bits := NumBits params.q
  let commitment_size := params.n * q_bits
  let challenge_size := params.m * 2
  let response_size := params.m * q_bits
  ⟨commitment_size, challenge_size, response_size,
    commitment_size + challenge_size + response_size⟩

/-- The tampering `z[0] = (z[0] + 1) % params.q()` of the tests. -/
def tamper_response (q : Int) : List Int → List Int
  | [] => []
  | z0 :: rest => ZZ_rem (z0 + 1) q :: rest

/-- The tampering `tampered_u[i] = u[i] + conv<ZZ_p>(1)` of every coordinate. -/
def tamper_commitment (q : Int) (u : List Int) : List Int :=
  u.map (fun x => ZZ_p_add q x (conv_ZZ_p q 1))

/-- The same tampering of the single coordinate `k`. -/
def tamper_commitment_at (q : Int) (u : List Int) (k : Nat) : List Int :=
  u.set k (ZZ_p_add q (entry u k) (conv_ZZ_p q 1))

/-- One iteration of the loop of the commitment-reuse test: `respond` to a challenge
and `verify` against the commitment `u` of an earlier `commit`. -/
def respond_verify (S : LatticeProof) (u challenge : List Int) :
    Except Error Bool × LatticeProof :=
  let r := S.respond challenge
  match r.1 with
  | .error e => (.error e, r.2)
  | .ok z => (r.2.verify u challenge z, r.2)

/-- The loop of the commitment-reuse test over a list of challenges. -/
def reuse_rounds : LatticeProof → List Int → List (List Int) → List (Except Error Bool)
  | _, _, [] => []
  | S, u, c :: cs => (respond_verify S u c).1 :: reuse_rounds (respond_verify S u c).2 u cs

/-- Trial division of `p` by the odd numbers `3 + 2 a, ..., 3 + 2 (a + c - 1)`. -/
def no_odd_divisor (p a c : Nat) : Bool :=
  (List.range c).all (fun j => p % (3 + 2 * (a + j)) != 0)

/-- The argument of the ceiling in `calculate_norm_bound`. -/
def norm_bound_arg (m y_range s_range : Int) (safety_factor : ℚ) : ℚ :=
  safety_factor * ((m : ℚ) * ((y_range : ℚ) ^ 2 - 1) / 3 + (m : ℚ) * (s_range : ℚ) ^ 2)

/-- A valid parameter set with the modulus `q = 2`. -/
def P_two : Parameters := ⟨4, 4, 2, 10, 1, 10, 3 / 2⟩

/-! ## The right-hand side of `verify`, and the form the specification gives for it -/

/-- The vector `rhs` that `verify` builds: the loops computing `ct` and `rhs`. -/
def verify_rhs (S : LatticeProof) (u challenge : List Int) : Except Error (List Int) :=
  match collect ((List.range S.params_.n.toNat).map (ct_entry S challenge)) with
  | .error e => .error e
  | .ok ct => collect ((List.range S.params_.n.toNat).map (rhs_entry S u ct))

/-- The precomputed-syndrome form of the right-hand side, as the specification reads
it: `rhs_i = u_i + c_i * t_i` in `Z_q`, with the stored `t`. -/
def rhs_syndrome_form (S : LatticeProof) (u challenge : List Int) : List Int :=
  (List.range S.params_.n.toNat).map (fun i =>
    ZZ_p_add S.params_.q (entry u i)
      (ZZ_p_mul S.params_.q (conv_ZZ_p S.params_.q (entry challenge i)) (entry S.t_ i)))

/-- The balanced representative of an entry with `q/2 < x < q`; other entries are kept. -/
def balanced (q x : Int) : Int := if ZZ_div q 2 < x ∧ x < q then x - q else x

/-- A valid parameter set whose `y_range` exceeds the modulus. -/
def P_small : Parameters := ⟨2, 3, 3, 10, 1, 10, 3 / 2⟩

/-- The raw draws that make the samplers return `v` when `bound` is subtracted. -/
def stream_for (bound : Int) (v : List Int) : RandomStream :=
  ⟨fun i => (entry v i + bound).toNat⟩

/-! ## Machine arithmetic

The definitions above read `int`, `long` and `size_t` as unbounded integers and a
`double` as an exact rational.  This section gives the arithmetic of the machine types
where a statement depends on it: the range of `int` and `long`, and IEEE binary64
values with rounding to nearest, ties to even.  `machine.f` is the source function `f`
under that arithmetic; it agrees with `f` above where nothing overflows and no
operation rounds. -/

namespace machine

/-- An `int` product; `none` when it leaves the range of `int` (the behaviour of a
signed overflow is undefined). -/
def int_mul (a b : Int) : Option Int :=
  if -2 ^ 31 ≤ a * b ∧ a * b < 2 ^ 31 then some (a * b) else none

/-- A `long` product; `none` when it leaves the range of `long`. -/
def long_mul (a b : Int) : Option Int :=
  if -2 ^ 63 ≤ a * b ∧ a * b < 2 ^ 63 then some (a * b) else none

/-- A `long` sum; `none` when it leaves the range of `long`. -/
def long_add (a b : Int) : Option Int :=
  if -2 ^ 63 ≤ a + b ∧ a + b < 2 ^ 63 then some (a + b) else none

/-- The conversion of an integer to `size_t`. -/
def to_size_t (a : Int) : Int := a % 2 ^ 64

/-- The values of an IEEE binary64 `double`.  A finite one is given by its rational
value, which the operations below keep a multiple of the unit in the last place; the
sign of a zero is not kept (nothing in the source depends on it). -/
inductive Double where
  | finite (x : ℚ)
  | pos_inf
  | neg_inf
  | nan

/-- The nearest integer, a tie going to the even one. -/
def round_half_even (x : ℚ) : Int :=
  if x - ⌊x⌋ < 1 / 2 then ⌊x⌋
  else if 1 / 2 < x - ⌊x⌋ then ⌊x⌋ + 1
  else if ⌊x⌋ % 2 = 0 then ⌊x⌋
  else ⌊x⌋ + 1

/-- The exponent of the unit in the last place for a value of the size of `x`: 52
below the binary exponent of `x`, which is at least `-1022` (subnormal numbers). -/
def ulp_exp (x : ℚ) : Int := max (Int.log 2 |x|) (-1022) - 52

/-- Rounding of an exact result to binary64: to the nearest multiple of the unit in
the last place, ties to even; a result of magnitude `2^1024` or more overflows. -/
def round_to_double (x : ℚ) : Double :=
  let y := (round_half_even (x / (2 : ℚ) ^ ulp_exp x) : ℚ) * (2 : ℚ) ^ ulp_exp x
  if (2 : ℚ) ^ (1024 : Nat) ≤ y then .pos_inf
  else if y ≤ -(2 : ℚ) ^ (1024 : Nat) then .neg_inf
  else .finite y

/-- The conversion of an integer to `double`. -/
def Double.of_int (k : Int) : Double := round_to_double k

def Double.neg : Double → Double
  | .finite x => .finite (-x)
  | .pos_inf => .neg_inf
  | .neg_inf => .pos_inf
  | .nan => .nan

/-- The sign rule for a product or quotient with an infinite result. -/
def Double.signed_inf (positive : Bool) : Double := if positive then .pos_inf else .neg_inf

def Double.add : Double → Double → Double
  | .nan, _ => .nan
  | _, .nan => .nan
  | .finite a, .finite b => round_to_double (a + b)
  | .finite _, .pos_inf => .pos_inf
  | .finite _, .neg_inf => .neg_inf
  | .pos_inf, .finite _ => .pos_inf
  | .neg_inf, .finite _ => .neg_inf
  | .pos_inf, .pos_inf => .pos_inf
  | .neg_inf, .neg_inf => .neg_inf
  | .pos_inf, .neg_inf => .nan
  | .neg_inf, .pos_inf => .nan

def Double.sub (a b : Double) : Double := Double.add a (Double.neg b)

def Double.mul : Double → Double → Double
  | .nan, _ => .nan
  | _, .nan => .nan
  | .finite a, .finite b => round_to_double (a * b)
  | .finite a, .pos_inf => if a = 0 then .nan else Double.signed_inf (decide (0 < a))
  | .finite a, .neg_inf => if a = 0 then .nan else Double.signed_inf (decide (a < 0))
  | .pos_inf, .finite b => if b = 0 then .nan else Double.signed_inf (decide (0 < b))
  | .neg_inf, .finite b => if b = 0 then .nan else Double.signed_inf (decide (b < 0))
  | .pos_inf, .pos_inf => .pos_inf
  | .neg_inf, .neg_inf => .pos_inf
  | .pos_inf, .neg_inf => .neg_inf
  | .neg_inf, .pos_inf => .neg_inf

/-- Division by a finite divisor other than zero; the source divides by `3.0` only,
and for the other divisors, where the sign of a zero would matter, `nan` stands in. -/
def Double.div : Double → Double → Double
  | .finite a, .finite b => if b = 0 then .nan else round_to_double (a / b)
  | .pos_inf, .finite b => if b = 0 then .nan else Double.signed_inf (decide (0 < b))
  | .neg_inf, .finite b => if b = 0 then .nan else Double.signed_inf (decide (b < 0))
  | _, _ => .nan

/-- The function `ceil` of `<cmath>`. -/
def Double.ceil : Double → Double
  | .finite x => .finite (⌈x⌉ : Int)
  | d => d

/-- The conversion `static_cast<long>`: truncation toward zero; `none` when the value
is not finite or the truncated value is not a `long` (the behaviour is undefined). -/
def Double.to_long : Double → Option Int
  | .finite x =>
    if -2 ^ 63 ≤ (if 0 ≤ x then ⌊x⌋ else ⌈x⌉) ∧ (if 0 ≤ x then ⌊x⌋ else ⌈x⌉) < 2 ^ 63 then
      some (if 0 ≤ x then ⌊x⌋ else ⌈x⌉)
    else none
  | _ => none

/-- The test `x <= 0`, false for `nan`. -/
def Double.le_zero : Double → Bool
  | .finite x => decide (x ≤ 0)
  | .neg_inf => true
  | .pos_inf => false
  | .nan => false

/-- The test `x > 0`, false for `nan`. -/
def Double.gt_zero : Double → Bool
  | .finite x => decide (0 < x)
  | .pos_inf => true
  | .neg_inf => false
  | .nan => false

/-- The call `pow(y, 2)` with an `int` argument: the square of `y` as a `double`,
rounded once.  This is the product `y * y` that a compiler emits for the call, and the
value of `pow` itself wherever `y^2` is a `double`, as it is for `|y| <= 94906265`. -/
def pow_two (y : Int) : Double := Double.mul (Double.of_int y) (Double.of_int y)

def calculate_expected_y_contribution (m y_range : Int) : Double :=
  Double.div
    (Double.mul (Double.of_int m) (Double.sub (pow_two y_range) (Double.of_int 1)))
    (.finite 3)

def calculate_expected_s_contribution (m s_range : Int) : Double :=
  Double.mul (Double.of_int m) (pow_two s_range)

def calculate_norm_bound (m y_range s_range : Int) (safety_factor : Double) : Option Int :=
  let E_y_squared := calculate_expected_y_contribution m y_range
  let E_s_squared := calculate_expected_s_contribution m s_range
  let expected_norm_squared := Double.add E_y_squared E_s_squared
  Double.to_long (Double.ceil (Double.mul safety_factor expected_norm_squared))

/-- The members of `Parameters`, with `safety_factor_` and `sigma_` any `double`. -/
structure Parameters where
  n : Int
  m : Int
  q : Int
  y_range : Int
  s_range : Int
  safety_factor : Double
  sigma : Double

def Parameters.validate (P : Parameters) : Except Error Bool :=
  if P.n ≤ 0 ∨ P.m ≤ 0 then .error (.invalid_argument "Dimensions must be positive")
  else if P.q ≤ 0 then .error (.invalid_argument "Modulus must be positive")
  else if P.y_range ≤ 0 ∨ P.s_range ≤ 0 then
    .error (.invalid_argument "Ranges must be positive")
  else if P.safety_factor.le_zero then
    .error (.invalid_argument "Safety factor must be positive")
  else if P.sigma.le_zero then .error (.invalid_argument "Sigma must be positive")
  else if !is_prime P.q then .error (.invalid_argument "Modulus must be prime")
  else .ok true

/-- The constructor `Parameters::Parameters`. -/
def Parameters.ctor (n m q y_range s_range : Int) (safety_factor sigma : Double) :
    Except Error Parameters :=
  match Parameters.validate ⟨n, m, q, y_range, s_range, safety_factor, sigma⟩ with
  | .error e => .error e
  | .ok valid =>
    if !valid then .error (.invalid_argument "Invalid parameters")
    else .ok ⟨n, m, q, y_range, s_range, safety_factor, sigma⟩

/-- The function `sample_uniform(int length, long bound)`: each pass of its loop
computes `2 * bound + 1` in `long`. -/
def sample_uniform (length : Int) (bound : Int) (g : RandomStream) :
    Option (List Int × RandomStream) :=
  if length.toNat = 0 then some ([], g)
  else
    match long_mul 2 bound with
    | none => none
    | some t =>
      match long_add t 1 with
      | none => none
      | some _ => some (protocol.sample_uniform length bound g)

/-- The function `calculate_proof_size`: `params.n() * q_bits` and
`params.m() * q_bits` are `long` products, `params.m() * 2` is an `int` product, and
the sizes are stored as `size_t`. -/
def calculate_proof_size (params : protocol.Parameters) (_u _challenge _z : List Int) :
    Option ProofSize :=
  match long_mul params.n (NumBits params.q), int_mul params.m 2,
      long_mul params.m (NumBits params.q) with
  | some commitment, some challenge, some response =>
    some ⟨to_size_t commitment, to_size_t challenge, to_size_t response,
      to_size_t (to_size_t commitment + to_size_t challenge + to_size_t response)⟩
  | _, _, _ => none

/-- The arguments on which no operation of `calculate_norm_bound` rounds: `int`
arguments, the safety factor `r / 2^j`, the division by `3.0` exact, and every
intermediate value below `2^53` units of `2^-j`. -/
def exact_arguments (m y_range s_range r : Int) (j : Nat) : Prop :=
  0 < m ∧ m < 2 ^ 31 ∧ 0 < y_range ∧ y_range < 2 ^ 31 ∧ 0 < s_range ∧ s_range < 2 ^ 31 ∧
    0 < r ∧ j ≤ 1074 ∧ 3 ∣ m * (y_range ^ 2 - 1) ∧
    r * (m * (y_range ^ 2 + s_range ^ 2)) < 2 ^ 53

end machine

/-! ## Auxiliary lemmas -/


theorem ZZ_rem_of_pos (a : Int) {q : Int} (hq : 0 < q) : ZZ_rem a q = a % q := by
  unfold ZZ_rem
  exact Int.fmod_eq_emod a (le_of_lt hq)

theorem ZZ_div_two (q : Int) : ZZ_div q 2 = q / 2 := by
  unfold ZZ_div
  exact Int.fdiv_eq_ediv q (by decide)

theorem conv_ZZ_p_of_pos (a : Int) {q : Int} (hq : 0 < q) : conv_ZZ_p q a = a % q := by
  unfold conv_ZZ_p
  exact ZZ_rem_of_pos a hq

theorem canonical_twice (x : Int) {q : Int} (hq : 0 < q) :
    ZZ_rem (ZZ_rem x q + q) q = x % q := by
  rw [ZZ_rem_of_pos _ hq, ZZ_rem_of_pos _ hq]
  simp

theorem fill_vec_length (draw : RandomStream → Int × RandomStream) (k : Nat)
    (g : RandomStream) : (fill_vec draw k g).1.length = k := by
  induction k generalizing g with
  | zero => rfl
  | succ k ih => simp [fill_vec, ih]

theorem fill_vec_forall (draw : RandomStream → Int × RandomStream) (p : Int → Prop)
    (hp : ∀ g, p (draw g).1) (k : Nat) (g : RandomStream) :
    ∀ x ∈ (fill_vec draw k g).1, p x := by
  induction k generalizing g with
  | zero => intro x hx; simp [fill_vec] at hx
  | succ k ih =>
    intro x hx
    simp only [fill_vec, List.mem_cons] at hx
    rcases hx with rfl | hx
    · exact hp g
    · exact ih _ x hx

theorem fill_mat_length (draw : RandomStream → Int × RandomStream) (cols k : Nat)
    (g : RandomStream) : (fill_mat draw cols k g).1.length = k := by
  induction k generalizing g with
  | zero => rfl
  | succ k ih => simp [fill_mat, ih]

theorem fill_mat_rows (draw : RandomStream → Int × RandomStream) (p : Int → Prop)
    (hp : ∀ g, p (draw g).1) (cols k : Nat) (g : RandomStream) :
    ∀ row ∈ (fill_mat draw cols k g).1, row.length = cols ∧ ∀ a ∈ row, p a := by
  induction k generalizing g with
  | zero => intro row hrow; simp [fill_mat] at hrow
  | succ k ih =>
    intro row hrow
    simp only [fill_mat, List.mem_cons] at hrow
    rcases hrow with rfl | hrow
    · exact ⟨fill_vec_length draw cols g, fill_vec_forall draw p hp cols g⟩
    · exact ih _ row hrow

theorem RandomBnd_range {n : Int} (hn : 0 < n) (g : RandomStream) :
    0 ≤ (RandomBnd n g).1 ∧ (RandomBnd n g).1 < n := by
  unfold RandomBnd
  simp only [not_le.mpr hn, if_false]
  exact ⟨Int.emod_nonneg _ (ne_of_gt hn), Int.emod_lt_of_pos _ hn⟩

theorem collect_map_ok {α β : Type} (f : α → Except Error β) (h : α → β) (l : List α)
    (hf : ∀ a ∈ l, f a = .ok (h a)) : collect (l.map f) = .ok (l.map h) := by
  induction l with
  | nil => rfl
  | cons a l ih =>
    have ha := hf a (List.mem_cons_self a l)
    have hl := ih (fun b hb => hf b (List.mem_cons_of_mem a hb))
    simp [collect, ha, hl]

theorem collect_error_mem {α : Type} (l : List (Except Error α)) (e : Error)
    (h : collect l = .error e) : Except.error e ∈ l := by
  induction l with
  | nil => simp [collect] at h
  | cons a l ih =>
    cases a with
    | error e1 =>
      simp only [collect] at h
      cases h
      exact List.mem_cons_self _ _
    | ok x =>
      simp only [collect] at h
      cases hc : collect l with
      | error e2 =>
        rw [hc] at h
        simp only at h
        cases h
        exact List.mem_cons_of_mem _ (ih hc)
      | ok xs => rw [hc] at h; simp at h

theorem vec_get_of_lt (v : List Int) (i : Nat) (h : i < v.length) :
    vec_get v i = .ok (entry v i) := by
  unfold vec_get entry
  simp [List.getElem?_eq_getElem h, List.getD_eq_getElem _ _ h]

theorem vec_get_of_le (v : List Int) (i : Nat) (h : v.length ≤ i) :
    vec_get v i = .error .out_of_range := by
  unfold vec_get
  simp [List.getElem?_eq_none h]

theorem mat_get_of_lt (M : List (List Int)) (i j : Nat) (hi : i < M.length)
    (hj : j < (M.getD i []).length) : mat_get M i j = .ok (entry (M.getD i []) j) := by
  unfold mat_get
  have : M.getD i [] = M[i] := List.getD_eq_getElem _ _ hi
  rw [this] at hj ⊢
  simp [List.getElem?_eq_getElem hi, vec_get_of_lt _ _ hj]



theorem length_eq_toNat {α : Type} (l : List α) {m : Int} (h : (l.length : Int) = m) :
    l.length = m.toNat := by
  rw [← h]; simp

theorem entry_map_range (f : Nat → Int) (k i : Nat) (hi : i < k) :
    entry ((List.range k).map f) i = f i := by
  unfold entry
  rw [List.getD_eq_getElem _ _ (by simpa using hi)]
  simp

theorem entry_map_conv (q : Int) (v : List Int) (j : Nat) :
    entry (v.map (conv_ZZ_p q)) j = conv_ZZ_p q (entry v j) := by
  unfold entry
  by_cases h : j < v.length
  · rw [List.getD_eq_getElem _ _ (by simpa using h), List.getD_eq_getElem _ _ h]
    simp
  · rw [List.getD_eq_default _ _ (by simpa using h), List.getD_eq_default _ _ (by simpa using h)]
    simp [conv_ZZ_p, ZZ_rem]

theorem respond_entry_ok (S : LatticeProof) (challenge : List Int) (i : Nat)
    (hq : 0 < S.params_.q) (hy : i < S.y_.length) (hc : i < challenge.length)
    (hs : i < S.s_.length) :
    respond_entry S challenge i =
      .ok ((entry S.y_ i + entry challenge i * entry S.s_ i) % S.params_.q) := by
  unfold respond_entry
  rw [vec_get_of_lt _ _ hy, vec_get_of_lt _ _ hc, vec_get_of_lt _ _ hs]
  simp only
  rw [canonical_twice _ hq]

theorem respond_ok (S : LatticeProof) (challenge : List Int) (hq : 0 < S.params_.q)
    (hc : (challenge.length : Int) = S.params_.m) (hy : (S.y_.length : Int) = S.params_.m)
    (hs : (S.s_.length : Int) = S.params_.m) :
    S.respond challenge =
      (.ok ((List.range S.params_.m.toNat).map
        (fun i => (entry S.y_ i + entry challenge i * entry S.s_ i) % S.params_.q)), S) := by
  unfold LatticeProof.respond
  rw [if_neg (not_not.mpr hc)]
  congr 1
  apply collect_map_ok
  intro i hi
  rw [List.mem_range] at hi
  apply respond_entry_ok S challenge i hq
  · rw [length_eq_toNat _ hy]; exact hi
  · rw [length_eq_toNat _ hc]; exact hi
  · rw [length_eq_toNat _ hs]; exact hi

theorem zipWith_mul_sum (a b : List Int) :
    (List.zipWith (fun x y => x * y) a b).sum =
      ∑ j in Finset.range a.length, entry a j * entry b j := by
  induction a generalizing b with
  | nil => simp
  | cons x a ih =>
    cases b with
    | nil => simp [entry]
    | cons y b =>
      simp only [List.zipWith_cons_cons, List.sum_cons, List.length_cons]
      rw [Finset.sum_range_succ', ih b]
      simp [entry, add_comm]

theorem sum_emod_congr (q : Int) (k : Nat) (f h : Nat → Int)
    (hfh : ∀ j, j < k → f j % q = h j % q) :
    (∑ j in Finset.range k, f j) % q = (∑ j in Finset.range k, h j) % q := by
  rw [Finset.sum_int_mod, Finset.sum_int_mod (Finset.range k) q h]
  congr 1
  apply Finset.sum_congr rfl
  intro j hj
  exact hfh j (Finset.mem_range.mp hj)

theorem InnerProduct_conv (q : Int) (hq : 0 < q) (row v : List Int) :
    InnerProduct q row (v.map (conv_ZZ_p q)) =
      (∑ j in Finset.range row.length, entry row j * entry v j) % q := by
  unfold InnerProduct
  rw [ZZ_rem_of_pos _ hq, zipWith_mul_sum]
  apply sum_emod_congr
  intro j _
  rw [entry_map_conv, conv_ZZ_p, ZZ_rem_of_pos _ hq]
  simp [Int.mul_emod]

theorem ct_fold (S : LatticeProof) (challenge : List Int) (i : Nat)
    (hi : i < S.A_.length) (k : Nat) (hkc : k ≤ challenge.length)
    (hka : k ≤ (S.A_.getD i []).length) (hks : k ≤ S.s_.length) :
    ∃ v, (List.range k).foldl (ct_step S challenge i) (.ok (conv_ZZ_p S.params_.q 0)) = .ok v ∧
      (0 < S.params_.q → v = (∑ j in Finset.range k,
        entry challenge j * entry (S.A_.getD i []) j * entry S.s_ j) % S.params_.q) := by
  induction k with
  | zero =>
    refine ⟨_, rfl, ?_⟩
    intro hq
    simp [conv_ZZ_p, ZZ_rem]
  | succ k ih =>
    obtain ⟨v, hv, hval⟩ := ih (by omega) (by omega) (by omega)
    rw [List.range_succ, List.foldl_append, hv]
    simp only [List.foldl_cons, List.foldl_nil]
    unfold ct_step
    rw [vec_get_of_lt _ _ (by omega), mat_get_of_lt _ _ _ hi (by omega),
      vec_get_of_lt _ _ (by omega)]
    refine ⟨_, rfl, ?_⟩
    intro hq
    rw [hval hq, Finset.sum_range_succ]
    simp only [ZZ_p_add, ZZ_p_mul, conv_ZZ_p, ZZ_rem_of_pos _ hq]
    simp [Int.add_emod, Int.mul_emod]

theorem ct_entry_ok (S : LatticeProof) (challenge : List Int) (i : Nat)
    (hi : i < S.A_.length) (hc : (challenge.length : Int) = S.params_.m)
    (ha : ((S.A_.getD i []).length : Int) = S.params_.m)
    (hs : (S.s_.length : Int) = S.params_.m) :
    ct_entry S challenge i = .ok (ct_val S challenge i) ∧
      (0 < S.params_.q → ct_val S challenge i = (∑ j in Finset.range S.params_.m.toNat,
        entry challenge j * entry (S.A_.getD i []) j * entry S.s_ j) % S.params_.q) := by
  obtain ⟨v, hv, hval⟩ := ct_fold S challenge i hi S.params_.m.toNat
    (le_of_eq (length_eq_toNat _ hc).symm) (le_of_eq (length_eq_toNat _ ha).symm)
    (le_of_eq (length_eq_toNat _ hs).symm)
  have h1 : ct_entry S challenge i = .ok v := hv
  have h2 : ct_val S challenge i = v := by unfold ct_val; rw [h1]
  rw [h2]
  exact ⟨h1, hval⟩

theorem getD_mem {α : Type} (l : List α) (i : Nat) (d : α) (hi : i < l.length) :
    l.getD i d ∈ l := by
  rw [List.getD_eq_getElem _ _ hi]
  exact List.getElem_mem _

theorem entry_mem (v : List Int) (i : Nat) (hi : i < v.length) : entry v i ∈ v :=
  getD_mem v i 0 hi

theorem map_eq_range_map {β : Type} (M : List (List Int)) (f : List Int → β) :
    M.map f = (List.range M.length).map (fun i => f (M.getD i [])) := by
  apply List.ext_getElem
  · simp
  · intro k h1 h2
    have hk : k < M.length := by simpa using h1
    simp [List.getElem?_eq_getElem hk]

theorem mat_vec_mul_ok (q : Int) (M : List (List Int)) (b : List Int)
    (h : ∀ row ∈ M, row.length = b.length) :
    mat_vec_mul q M b = .ok (M.map (fun row => InnerProduct q row b)) := by
  unfold mat_vec_mul
  rw [if_pos]
  simpa using h

theorem matrix_vector_mod_ok (q : Int) (M : List (List Int)) (v : List Int)
    (h : ∀ row ∈ M, row.length = v.length) :
    matrix_vector_mod q M v =
      .ok (M.map (fun row => InnerProduct q row (v.map (conv_ZZ_p q)))) := by
  unfold matrix_vector_mod
  apply mat_vec_mul_ok
  simpa using h

theorem LatticeProof.Inv.row_length {S : LatticeProof} (hS : S.Inv) (v : List Int)
    (hv : (v.length : Int) = S.params_.m) : ∀ row ∈ S.A_, row.length = v.length := by
  intro row hrow
  have := hS.A_cols row hrow
  omega

theorem LatticeProof.Inv.getD_length {S : LatticeProof} (hS : S.Inv) (i : Nat) (hi : i < S.A_.length) :
    ((S.A_.getD i []).length : Int) = S.params_.m :=
  hS.A_cols _ (getD_mem _ _ _ hi)

theorem verify_eq (S : LatticeProof) (hS : S.Inv) (u challenge z : List Int)
    (hu : (u.length : Int) = S.params_.n) (hc : (challenge.length : Int) = S.params_.m)
    (hz : (z.length : Int) = S.params_.m) :
    S.verify u challenge z =
      if compute_norm_squared z S.params_.q >
          calculate_norm_bound S.params_.m S.params_.y_range S.params_.s_range
            S.params_.safety_factor then .ok false
      else .ok ((List.range S.params_.n.toNat).map
          (fun i => InnerProduct S.params_.q (S.A_.getD i []) (z.map (conv_ZZ_p S.params_.q))) ==
        (List.range S.params_.n.toNat).map
          (fun i => ZZ_p_add S.params_.q (entry u i) (ct_val S challenge i))) := by
  have hn : S.A_.length = S.params_.n.toNat := length_eq_toNat _ hS.A_rows
  have hct : collect ((List.range S.params_.n.toNat).map (ct_entry S challenge)) =
      .ok ((List.range S.params_.n.toNat).map (ct_val S challenge)) := by
    apply collect_map_ok
    intro i hi
    rw [List.mem_range, ← hn] at hi
    exact (ct_entry_ok S challenge i hi hc (hS.getD_length i hi) hS.s_len).1
  have hrhs : collect ((List.range S.params_.n.toNat).map
      (rhs_entry S u ((List.range S.params_.n.toNat).map (ct_val S challenge)))) =
      .ok ((List.range S.params_.n.toNat).map
        (fun i => ZZ_p_add S.params_.q (entry u i) (ct_val S challenge i))) := by
    apply collect_map_ok
    intro i hi
    rw [List.mem_range] at hi
    unfold rhs_entry
    rw [vec_get_of_lt _ _ (by rw [length_eq_toNat _ hu]; exact hi),
      vec_get_of_lt _ _ (by simpa using hi), entry_map_range _ _ _ hi]
  unfold LatticeProof.verify
  rw [if_neg (not_not.mpr hu), if_neg (not_not.mpr hc), if_neg (not_not.mpr hz)]
  simp only
  split
  · rfl
  · rw [matrix_vector_mod_ok _ _ _ (hS.row_length z hz)]
    simp only [hct, hrhs]
    rw [map_eq_range_map, hn]

theorem honest_row (q : Int) (hq : 0 < q) (m : Nat) (row y c s : List Int)
    (hrow : row.length = m) :
    InnerProduct q row (((List.range m).map
        (fun i => (entry y i + entry c i * entry s i) % q)).map (conv_ZZ_p q)) =
      ZZ_p_add q (InnerProduct q row (y.map (conv_ZZ_p q)))
        ((∑ j in Finset.range m, entry c j * entry row j * entry s j) % q) := by
  rw [InnerProduct_conv q hq, InnerProduct_conv q hq, ZZ_p_add, ZZ_rem_of_pos _ hq, hrow,
    ← Int.add_emod, ← Finset.sum_add_distrib]
  apply sum_emod_congr
  intro j hj
  rw [entry_map_range _ _ _ hj, Int.mul_emod, Int.emod_emod, ← Int.mul_emod]
  congr 1
  ring
theorem sample_uniform_length (m bound : Int) (g : RandomStream) :
    (sample_uniform m bound g).1.length = m.toNat :=
  fill_vec_length _ _ _

theorem sample_uniform_within (m bound : Int) (hb : 0 ≤ bound) (g : RandomStream) :
    Within bound (sample_uniform m bound g).1 := by
  unfold Within sample_uniform
  apply fill_vec_forall _ (fun x => -bound ≤ x ∧ x ≤ bound)
  intro g1
  have h := RandomBnd_range (n := 2 * bound + 1) (by omega) g1
  simp only
  omega

theorem sample_ternary_length (m : Int) (g : RandomStream) :
    (sample_ternary m g).1.length = m.toNat :=
  fill_vec_length _ _ _

theorem sample_ternary_ternary (m : Int) (g : RandomStream) :
    Ternary (sample_ternary m g).1 := by
  unfold Ternary sample_ternary
  apply fill_vec_forall _ (fun x => x = -1 ∨ x = 0 ∨ x = 1)
  intro g1
  have h := RandomBnd_range (n := 3) (by decide) g1
  simp only
  omega

theorem commit_y (S : LatticeProof) (g : RandomStream) :
    (S.commit g).2.1.y_ = (sample_uniform S.params_.m S.params_.y_range g).1 := rfl

theorem commit_frame (S : LatticeProof) (g : RandomStream) :
    (S.commit g).2.1.params_ = S.params_ ∧ (S.commit g).2.1.A_ = S.A_ ∧
      (S.commit g).2.1.s_ = S.s_ ∧ (S.commit g).2.1.t_ = S.t_ := ⟨rfl, rfl, rfl, rfl⟩

theorem respond_frame (S : LatticeProof) (challenge : List Int) :
    (S.respond challenge).2 = S := by
  unfold LatticeProof.respond
  split <;> rfl

theorem commit_inv (S : LatticeProof) (hS : S.Inv) (g : RandomStream) :
    (S.commit g).2.1.Inv :=
  ⟨hS.A_rows, hS.A_cols, hS.A_canon, hS.s_len, hS.s_ternary, hS.t_def⟩

theorem commit_committed (S : LatticeProof) (hm : 0 ≤ S.params_.m)
    (hy : 0 ≤ S.params_.y_range) (g : RandomStream) : (S.commit g).2.1.Committed := by
  refine ⟨?_, sample_uniform_within _ _ hy g⟩
  rw [commit_y, sample_uniform_length]
  exact Int.toNat_of_nonneg hm

theorem commit_ok (S : LatticeProof) (hS : S.Inv) (hm : 0 ≤ S.params_.m) (g : RandomStream) :
    (S.commit g).1 = .ok (S.A_.map (fun row => InnerProduct S.params_.q row
      ((S.commit g).2.1.y_.map (conv_ZZ_p S.params_.q)))) := by
  have hlen : (((S.commit g).2.1.y_).length : Int) = S.params_.m := by
    rw [commit_y, sample_uniform_length]
    exact Int.toNat_of_nonneg hm
  exact matrix_vector_mod_ok _ _ _ (hS.row_length _ hlen)

/-- An honest proof passes the algebraic check: `verify` decides on the norm alone. -/
theorem verify_honest (S : LatticeProof) (hS : S.Inv) (hq : 0 < S.params_.q)
    (hy : (S.y_.length : Int) = S.params_.m) (challenge : List Int)
    (hc : (challenge.length : Int) = S.params_.m) (u z : List Int)
    (hu : matrix_vector_mod S.params_.q S.A_ S.y_ = .ok u)
    (hz : (S.respond challenge).1 = .ok z) :
    S.verify u challenge z = .ok (decide (compute_norm_squared z S.params_.q ≤
      calculate_norm_bound S.params_.m S.params_.y_range S.params_.s_range
        S.params_.safety_factor)) := by
  have hn : S.A_.length = S.params_.n.toNat := length_eq_toNat _ hS.A_rows
  rw [matrix_vector_mod_ok _ _ _ (hS.row_length _ hy)] at hu
  rw [respond_ok S challenge hq hc hy hS.s_len] at hz
  simp only [Except.ok.injEq] at hu hz
  have hul : (u.length : Int) = S.params_.n := by
    rw [← hu, List.length_map]; exact hS.A_rows
  have hzl : (z.length : Int) = S.params_.m := by
    rw [← hz, List.length_map, List.length_range]
    rw [← hc]; simp
  rw [verify_eq S hS u challenge z hul hc hzl]
  have hlists : (List.range S.params_.n.toNat).map
        (fun i => InnerProduct S.params_.q (S.A_.getD i []) (z.map (conv_ZZ_p S.params_.q))) =
      (List.range S.params_.n.toNat).map
        (fun i => ZZ_p_add S.params_.q (entry u i) (ct_val S challenge i)) := by
    apply List.map_congr_left
    intro i hi
    rw [List.mem_range, ← hn] at hi
    have hrow := length_eq_toNat _ (hS.getD_length i hi)
    have hui : entry u i = InnerProduct S.params_.q (S.A_.getD i [])
        (S.y_.map (conv_ZZ_p S.params_.q)) := by
      rw [← hu, map_eq_range_map, entry_map_range _ _ _ hi]
    rw [← hz, hui, (ct_entry_ok S challenge i hi hc (hS.getD_length i hi) hS.s_len).2 hq]
    exact honest_row S.params_.q hq S.params_.m.toNat _ S.y_ challenge S.s_ hrow
  rw [hlists]
  by_cases hnorm : compute_norm_squared z S.params_.q >
      calculate_norm_bound S.params_.m S.params_.y_range S.params_.s_range
        S.params_.safety_factor
  · rw [if_pos hnorm]
    simp [not_le.mpr hnorm]
  · rw [if_neg hnorm]
    simp [not_lt.mp hnorm]

theorem norm_foldl (q : Int) (v : List Int) (acc : Int) :
    v.foldl (fun norm_sq x =>
      let vi := if x > ZZ_div q 2 then x - q else x
      norm_sq + vi * vi) acc = acc + (v.map (fun x => lift q x * lift q x)).sum := by
  induction v generalizing acc with
  | nil => simp
  | cons x v ih =>
    simp only [List.foldl_cons, List.map_cons, List.sum_cons]
    rw [ih]
    simp only [lift]
    ring

theorem compute_norm_squared_eq (v : List Int) (q : Int) :
    compute_norm_squared v q = (v.map (fun x => lift q x * lift q x)).sum := by
  unfold compute_norm_squared
  rw [norm_foldl]
  simp

theorem range_map_sum (f : Nat → Int) (k : Nat) :
    ((List.range k).map f).sum = ∑ i in Finset.range k, f i := by
  induction k with
  | zero => simp
  | succ k ih => rw [List.range_succ, List.map_append, List.sum_append, ih,
      Finset.sum_range_succ]; simp

theorem lift_emod_sq_le (q : Int) (hq : 0 < q) (x : Int) :
    lift q (x % q) * lift q (x % q) ≤ x * x := by
  have h0 : 0 ≤ x % q := Int.emod_nonneg _ (ne_of_gt hq)
  have h1 : x % q < q := Int.emod_lt_of_pos _ hq
  have hx : x = q * (x / q) + x % q := (Int.ediv_add_emod x q).symm
  have hhalf1 : 2 * (q / 2) ≤ q := by omega
  have hhalf2 : q < 2 * (q / 2) + 2 := by omega
  generalize x % q = r at *
  generalize x / q = t at *
  unfold lift
  rw [ZZ_div_two]
  subst hx
  split
  · rename_i hgt
    have h2 : 0 ≤ q * (t + 1) * (q * (t + 1) + 2 * (r - q)) := by
      rcases le_or_lt 0 t with ht | ht
      · apply mul_nonneg
        · exact mul_nonneg (le_of_lt hq) (by omega)
        · have : q * 1 ≤ q * (t + 1) := Int.mul_le_mul_of_nonneg_left (by omega) (le_of_lt hq)
          omega
      · apply mul_nonneg_of_nonpos_of_nonpos
        · exact mul_nonpos_of_nonneg_of_nonpos (le_of_lt hq) (by omega)
        · have : q * (t + 1) ≤ 0 := mul_nonpos_of_nonneg_of_nonpos (le_of_lt hq) (by omega)
          omega
    nlinarith [h2]
  · rename_i hle
    have h2 : 0 ≤ q * t * (q * t + 2 * r) := by
      rcases le_or_lt 0 t with ht | ht
      · apply mul_nonneg
        · exact mul_nonneg (le_of_lt hq) ht
        · have : 0 ≤ q * t := mul_nonneg (le_of_lt hq) ht
          omega
      · apply mul_nonneg_of_nonpos_of_nonpos
        · exact mul_nonpos_of_nonneg_of_nonpos (le_of_lt hq) (by omega)
        · have : q * t ≤ q * (-1) := Int.mul_le_mul_of_nonneg_left (by omega) (le_of_lt hq)
          omega
    nlinarith [h2]

theorem norm_response_le (q : Int) (hq : 0 < q) (m : Nat) (y c s : List Int) :
    compute_norm_squared ((List.range m).map
        (fun i => (entry y i + entry c i * entry s i) % q)) q ≤
      ∑ i in Finset.range m,
        (entry y i + entry c i * entry s i) * (entry y i + entry c i * entry s i) := by
  rw [compute_norm_squared_eq, List.map_map, range_map_sum]
  apply Finset.sum_le_sum
  intro i _
  exact lift_emod_sq_le q hq _

theorem honest_entry_sq_le (Y : Int) (y c s : List Int) (m : Nat) (hy : y.length = m)
    (hc : c.length = m) (hs : s.length = m) (hyw : Within Y y) (hct : Ternary c)
    (hst : Ternary s) (i : Nat) (hi : i < m) :
    (entry y i + entry c i * entry s i) * (entry y i + entry c i * entry s i) ≤
      (Y + 1) * (Y + 1) := by
  have h1 := hyw _ (entry_mem y i (by omega))
  have h2 := hct _ (entry_mem c i (by omega))
  have h3 := hst _ (entry_mem s i (by omega))
  have h4 : -1 ≤ entry c i * entry s i ∧ entry c i * entry s i ≤ 1 := by
    rcases h2 with h | h | h <;> rcases h3 with h' | h' | h' <;> rw [h, h'] <;> decide
  generalize entry c i * entry s i = p at *
  generalize entry y i = a at *
  have hlo : -(Y + 1) ≤ a + p := by omega
  have hhi : a + p ≤ Y + 1 := by omega
  nlinarith [hlo, hhi]

theorem norm_honest_le (q : Int) (hq : 0 < q) (Y : Int) (y c s : List Int) (m : Nat)
    (hy : y.length = m) (hc : c.length = m) (hs : s.length = m) (hyw : Within Y y)
    (hct : Ternary c) (hst : Ternary s) :
    compute_norm_squared ((List.range m).map
        (fun i => (entry y i + entry c i * entry s i) % q)) q ≤ (m : Int) * ((Y + 1) * (Y + 1)) := by
  refine le_trans (norm_response_le q hq m y c s) ?_
  have : ∑ i in Finset.range m,
      (entry y i + entry c i * entry s i) * (entry y i + entry c i * entry s i) ≤
      ∑ _i in Finset.range m, (Y + 1) * (Y + 1) := by
    apply Finset.sum_le_sum
    intro i hi
    exact honest_entry_sq_le Y y c s m hy hc hs hyw hct hst i (Finset.mem_range.mp hi)
  refine le_trans this ?_
  simp

theorem norm_bound_preset (m : Int) : calculate_norm_bound m 10 1 10 = 340 * m := by
  unfold calculate_norm_bound calculate_expected_y_contribution
    calculate_expected_s_contribution
  simp only
  have : (10 : ℚ) * ((m : ℚ) * ((((10 : Int) : ℚ)) ^ 2 - 1) / 3 + (m : ℚ) * (((1 : Int) : ℚ)) ^ 2) =
      ((340 * m : Int) : ℚ) := by
    push_cast
    ring
  rw [this, Int.ceil_intCast]
theorem validate_ok_iff (P : Parameters) (b : Bool) :
    P.validate = .ok b ↔
      (b = true ∧ 0 < P.n ∧ 0 < P.m ∧ 0 < P.q ∧ 0 < P.y_range ∧ 0 < P.s_range ∧
        0 < P.safety_factor ∧ 0 < P.sigma ∧ is_prime P.q = true) := by
  unfold Parameters.validate
  constructor
  · intro h
    split_ifs at h with h1 h2 h3 h4 h5 h6
    simp only [Except.ok.injEq] at h
    push_neg at h1 h3
    simp only [Bool.not_eq_true', Bool.not_eq_false] at h6
    exact ⟨h.symm, h1.1, h1.2, not_le.mp h2, h3.1, h3.2, not_le.mp h4, not_le.mp h5,
      by simpa using h6⟩
  · rintro ⟨rfl, h1, h2, h3, h4, h5, h6, h7, h8⟩
    rw [if_neg (by push_neg; exact ⟨h1, h2⟩), if_neg (not_le.mpr h3),
      if_neg (by push_neg; exact ⟨h4, h5⟩), if_neg (not_le.mpr h6), if_neg (not_le.mpr h7),
      if_neg (by simp [h8])]

theorem validate_error (P : Parameters) (e : Error) (h : P.validate = .error e) :
    ∃ w, e = .invalid_argument w := by
  unfold Parameters.validate at h
  split_ifs at h <;> exact ⟨_, (Except.error.inj h).symm⟩

theorem round_eq (S : LatticeProof) (g : RandomStream) (challenge u z : List Int)
    (hu : (S.commit g).1 = .ok u) (hz : ((S.commit g).2.1.respond challenge).1 = .ok z) :
    round S g challenge = ((S.commit g).2.1.verify u challenge z, (S.commit g).2.1) := by
  unfold round
  simp only [hu, hz, respond_frame]

/-- A round of honest moves: `commit` and `respond` return, and `verify` answers
whether the norm of the response is within the bound. -/
theorem honest_round (S : LatticeProof) (hS : S.Inv) (hq : 0 < S.params_.q)
    (hm : 0 ≤ S.params_.m) (g : RandomStream) (challenge : List Int)
    (hc : (challenge.length : Int) = S.params_.m) :
    ∃ u z, (S.commit g).1 = .ok u ∧ ((S.commit g).2.1.respond challenge).1 = .ok z ∧
      z = (List.range S.params_.m.toNat).map (fun i =>
        (entry (S.commit g).2.1.y_ i + entry challenge i * entry S.s_ i) % S.params_.q) ∧
      (S.commit g).2.1.verify u challenge z =
        .ok (decide (compute_norm_squared z S.params_.q ≤
          calculate_norm_bound S.params_.m S.params_.y_range S.params_.s_range
            S.params_.safety_factor)) := by
  have hS1 := commit_inv S hS g
  have hy : (((S.commit g).2.1.y_).length : Int) = S.params_.m := by
    rw [commit_y, sample_uniform_length]
    exact Int.toNat_of_nonneg hm
  have hu := commit_ok S hS hm g
  have hz := respond_ok (S.commit g).2.1 challenge hq hc hy hS.s_len
  refine ⟨_, _, hu, congrArg Prod.fst hz, rfl, ?_⟩
  exact verify_honest (S.commit g).2.1 hS1 hq hy challenge hc _ _
    (matrix_vector_mod_ok _ _ _ (hS.row_length _ hy)) (congrArg Prod.fst hz)

/-- When `m (y_range + 1)^2` is within the norm bound, an honest round over a ternary
challenge is accepted. -/
theorem honest_round_accept (S : LatticeProof) (hS : S.Inv) (hq : 0 < S.params_.q)
    (hm : 0 ≤ S.params_.m) (hY : 0 ≤ S.params_.y_range)
    (hB : S.params_.m * ((S.params_.y_range + 1) * (S.params_.y_range + 1)) ≤
      calculate_norm_bound S.params_.m S.params_.y_range S.params_.s_range
        S.params_.safety_factor)
    (g : RandomStream) (challenge : List Int)
    (hc : (challenge.length : Int) = S.params_.m) (hct : Ternary challenge) :
    ∃ u z, (S.commit g).1 = .ok u ∧ ((S.commit g).2.1.respond challenge).1 = .ok z ∧
      (S.commit g).2.1.verify u challenge z = .ok true := by
  obtain ⟨u, z, hu, hz, hzdef, hv⟩ := honest_round S hS hq hm g challenge hc
  refine ⟨u, z, hu, hz, ?_⟩
  rw [hv]
  have hnorm := norm_honest_le S.params_.q hq S.params_.y_range (S.commit g).2.1.y_ challenge
    S.s_ S.params_.m.toNat (sample_uniform_length _ _ g) (length_eq_toNat _ hc)
    (length_eq_toNat _ hS.s_len) (sample_uniform_within _ _ hY g) hct hS.s_ternary
  rw [← hzdef, Int.toNat_of_nonneg hm] at hnorm
  simp [le_trans hnorm hB]

theorem SqrRoot_97 : SqrRoot 97 = 9 := by
  unfold SqrRoot
  have : (9 : Nat) = Nat.sqrt (Int.toNat 97) := Nat.eq_sqrt.mpr (by decide)
  rw [← this]; rfl

theorem is_prime_97 : is_prime 97 = true := by
  unfold is_prime
  rw [SqrRoot_97]
  decide

theorem S_default_inv : S_default.Inv := by
  refine ⟨rfl, ?_, ?_, rfl, ?_, rfl⟩
  · simp [S_default, P_default]
  · simp [S_default, P_default]
  · simp [S_default, Ternary]

theorem entry_replicate_zero (k j : Nat) : entry (List.replicate k 0) j = 0 := by
  unfold entry
  by_cases h : j < k
  · rw [List.getD_eq_getElem _ _ (by simpa using h)]
    simp
  · rw [List.getD_eq_default _ _ (by simpa using h)]

theorem zero_session_inv (P : Parameters) (hn : 0 ≤ P.n) (hm : 0 ≤ P.m) (hq : 0 < P.q) :
    (zero_session P).Inv := by
  refine ⟨?_, ?_, ?_, ?_, ?_, ?_⟩
  · simp [zero_session, Int.toNat_of_nonneg hn]
  · intro row hrow
    rw [List.eq_of_mem_replicate hrow]
    simp [zero_session, Int.toNat_of_nonneg hm]
  · intro row hrow a ha
    rw [List.eq_of_mem_replicate hrow] at ha
    rw [List.eq_of_mem_replicate ha]
    exact ⟨le_refl 0, hq⟩
  · simp [zero_session, Int.toNat_of_nonneg hm]
  · intro x hx
    rw [List.eq_of_mem_replicate hx]
    simp
  · rw [matrix_vector_mod_ok]
    · show Except.ok (List.map _ (List.replicate P.n.toNat (List.replicate P.m.toNat 0))) = _
      rw [List.map_replicate]
      show Except.ok (List.replicate P.n.toNat (InnerProduct P.q (List.replicate P.m.toNat 0)
        (List.map (conv_ZZ_p P.q) (List.replicate P.m.toNat 0)))) = _
      rw [InnerProduct_conv _ hq]
      simp [zero_session, entry_replicate_zero]
    · intro row hrow
      rw [List.eq_of_mem_replicate hrow]
      simp [zero_session]

theorem S_high_inv : S_high.Inv :=
  zero_session_inv P_high (by decide) (by decide) (by decide)


theorem round_accept (S : LatticeProof) (hS : S.Inv) (hq : 0 < S.params_.q)
    (hm : 0 ≤ S.params_.m) (hY : 0 ≤ S.params_.y_range)
    (hB : S.params_.m * ((S.params_.y_range + 1) * (S.params_.y_range + 1)) ≤
      calculate_norm_bound S.params_.m S.params_.y_range S.params_.s_range
        S.params_.safety_factor)
    (g : RandomStream) (challenge : List Int)
    (hc : (challenge.length : Int) = S.params_.m) (hct : Ternary challenge) :
    round S g challenge = (.ok true, (S.commit g).2.1) := by
  obtain ⟨u, z, hu, hz, hv⟩ := honest_round_accept S hS hq hm hY hB g challenge hc hct
  rw [round_eq S g challenge u z hu hz, hv]

theorem rounds_accept (P : Parameters) (hq : 0 < P.q) (hm : 0 ≤ P.m) (hY : 0 ≤ P.y_range)
    (hB : P.m * ((P.y_range + 1) * (P.y_range + 1)) ≤
      calculate_norm_bound P.m P.y_range P.s_range P.safety_factor)
    (gcs : List (RandomStream × List Int))
    (hcs : ∀ gc ∈ gcs, (gc.2.length : Int) = P.m ∧ Ternary gc.2)
    (S : LatticeProof) (hS : S.Inv) (hP : S.params_ = P) :
    rounds S gcs = gcs.map (fun _ => .ok true) := by
  induction gcs generalizing S with
  | nil => rfl
  | cons gc gcs ih =>
    subst hP
    have hc := hcs gc (List.mem_cons_self gc gcs)
    have hr := round_accept S hS hq hm hY hB gc.1 gc.2 hc.1 hc.2
    simp only [rounds, List.map_cons, hr]
    congr 1
    exact ih (fun c1 h1 => hcs c1 (List.mem_cons_of_mem gc h1)) _ (commit_inv S hS gc.1) rfl

theorem ZZ_rem_eq_zero_iff (n i : Int) (hi : 0 < i) : ZZ_rem n i = 0 ↔ i ∣ n := by
  rw [ZZ_rem_of_pos _ hi]
  exact Int.dvd_iff_emod_eq_zero.symm

theorem is_prime_loop_spec (n sqrtn : Int) (fuel : Nat) (i : Int) (hi : 3 ≤ i)
    (hfuel : sqrtn + 2 ≤ i + 2 * fuel) :
    ∃ b, is_prime_loop n sqrtn fuel i = some b ∧
      (b = true ↔ ∀ k : Nat, i + 2 * k ≤ sqrtn → ¬ (i + 2 * k) ∣ n) := by
  induction fuel generalizing i with
  | zero =>
    refine ⟨true, ?_, ?_⟩
    · unfold is_prime_loop
      rw [if_neg (by omega)]
    · simp only [true_iff]
      intro k hk
      omega
  | succ fuel ih =>
    unfold is_prime_loop
    by_cases h1 : i ≤ sqrtn
    · rw [if_pos h1]
      by_cases h2 : ZZ_rem n i = 0
      · rw [if_pos h2]
        refine ⟨false, rfl, ?_⟩
        simp only [Bool.false_eq_true, false_iff, not_forall]
        exact ⟨0, by simpa using h1, by simpa using (ZZ_rem_eq_zero_iff n i (by omega)).mp h2⟩
      · rw [if_neg h2]
        obtain ⟨b, hb, hspec⟩ := ih (i + 2) (by omega) (by push_cast at hfuel ⊢; omega)
        refine ⟨b, hb, ?_⟩
        rw [hspec]
        constructor
        · intro h k hk
          cases k with
          | zero =>
            simpa using fun hd => h2 ((ZZ_rem_eq_zero_iff n i (by omega)).mpr hd)
          | succ k =>
            have := h k (by push_cast at hk ⊢; omega)
            have e : i + 2 * ((k + 1 : Nat) : Int) = i + 2 + 2 * (k : Int) := by
              push_cast; ring
            rw [e]
            exact this
        · intro h k hk
          have := h (k + 1) (by push_cast at hk ⊢; omega)
          have e : i + 2 * ((k + 1 : Nat) : Int) = i + 2 + 2 * (k : Int) := by
            push_cast; ring
          rw [e] at this
          exact this
    · rw [if_neg h1]
      refine ⟨true, rfl, ?_⟩
      simp only [true_iff]
      intro k hk
      omega

theorem is_prime_natCast (p : Nat) : is_prime (p : Int) = true ↔ Nat.Prime p := by
  unfold is_prime
  by_cases h1 : (p : Int) ≤ 1
  · rw [if_pos h1]
    have : p ≤ 1 := by omega
    constructor
    · intro h; cases h
    · intro hp
      have := hp.two_le
      omega
  rw [if_neg h1]
  by_cases h2 : (p : Int) = 2
  · rw [if_pos h2]
    have : p = 2 := by omega
    subst this
    simp [Nat.prime_two]
  rw [if_neg h2]
  have hp2 : p ≠ 2 := by omega
  by_cases h3 : ZZ_rem (p : Int) 2 = 0
  · rw [if_pos h3]
    have hd : (2 : Int) ∣ p := (ZZ_rem_eq_zero_iff _ 2 (by decide)).mp h3
    have hd1 : 2 ∣ p := by exact_mod_cast hd
    constructor
    · intro h; cases h
    · intro hp
      have := (Nat.prime_dvd_prime_iff_eq Nat.prime_two hp).mp hd1
      omega
  rw [if_neg h3]
  have hodd : ¬ 2 ∣ p := by
    intro hd
    apply h3
    apply (ZZ_rem_eq_zero_iff _ 2 (by decide)).mpr
    exact_mod_cast hd
  have hsq : SqrRoot (p : Int) = (Nat.sqrt p : Int) := by
    unfold SqrRoot
    simp
  rw [hsq]
  obtain ⟨b, hb, hspec⟩ := is_prime_loop_spec (p : Int) (Nat.sqrt p : Int)
    ((Nat.sqrt p : Int)).toNat 3 (le_refl 3) (by simp; omega)
  rw [hb]
  simp only [Option.getD_some]
  rw [hspec, Nat.prime_def_le_sqrt]
  constructor
  · intro h
    refine ⟨by omega, ?_⟩
    intro m hm2 hmle hmd
    rcases Nat.even_or_odd m with hev | hod
    · exact hodd (dvd_trans hev.two_dvd hmd)
    · obtain ⟨k, hk⟩ := hod
      have hk1 : 1 ≤ k := by omega
      have := h (k - 1) (by omega)
      apply this
      have e : (3 : Int) + 2 * ((k - 1 : Nat) : Int) = (m : Int) := by omega
      rw [e]
      exact_mod_cast hmd
  · rintro ⟨-, h⟩ k hk hd
    have e : (3 : Int) + 2 * (k : Int) = ((3 + 2 * k : Nat) : Int) := by push_cast; ring
    rw [e] at hd hk
    have hd1 : (3 + 2 * k) ∣ p := by exact_mod_cast hd
    exact h (3 + 2 * k) (by omega) (by exact_mod_cast hk) hd1

theorem is_prime_iff (n : Int) : is_prime n = true ↔ Nat.Prime n.toNat := by
  by_cases hn : 0 ≤ n
  · obtain ⟨p, rfl⟩ := Int.eq_ofNat_of_zero_le hn
    rw [is_prime_natCast]
    simp
  · have h0 : n.toNat = 0 := by omega
    rw [h0]
    unfold is_prime
    rw [if_pos (by omega)]
    simp [Nat.not_prime_zero]

theorem entry_matvec (q : Int) (hq : 0 < q) (M : List (List Int)) (v : List Int) (m i : Nat)
    (hi : i < M.length) (hrow : (M.getD i []).length = m) :
    entry (M.map (fun row => InnerProduct q row (v.map (conv_ZZ_p q)))) i =
      row_dot M v m i % q := by
  rw [map_eq_range_map, entry_map_range _ _ _ hi, InnerProduct_conv q hq, hrow]
  rfl

theorem ctor_ok (P : Parameters) (hn : 0 ≤ P.n) (hm : 0 ≤ P.m) (hq : 0 < P.q)
    (g : RandomStream) :
    ∃ S g1, LatticeProof.ctor P g = .ok (S, g1) ∧ S.Inv ∧ S.params_ = P ∧ S.y_ = [] := by
  have hrows := fill_mat_rows (random_ZZ_p P.q) (fun a => 0 ≤ a ∧ a < P.q)
    (fun g1 => RandomBnd_range hq g1) P.m.toNat P.n.toNat g
  have hlen := sample_ternary_length P.m (fill_mat (random_ZZ_p P.q) P.m.toNat P.n.toNat g).2
  have ht := matrix_vector_mod_ok P.q (fill_mat (random_ZZ_p P.q) P.m.toNat P.n.toNat g).1
    (sample_ternary P.m (fill_mat (random_ZZ_p P.q) P.m.toNat P.n.toNat g).2).1
    (fun row hrow => by rw [(hrows row hrow).1, hlen])
  unfold LatticeProof.ctor
  simp only [ht]
  refine ⟨_, _, rfl, ⟨?_, ?_, ?_, ?_, ?_, ht⟩, rfl, rfl⟩
  · simp only [fill_mat_length]
    exact Int.toNat_of_nonneg hn
  · intro row hrow
    rw [(hrows row hrow).1]
    exact Int.toNat_of_nonneg hm
  · intro row hrow
    exact (hrows row hrow).2
  · simp only [hlen]
    exact Int.toNat_of_nonneg hm
  · exact sample_ternary_ternary _ _

theorem ctor_inv (P : Parameters) (hn : 0 ≤ P.n) (hm : 0 ≤ P.m) (hq : 0 < P.q)
    (g g1 : RandomStream) (S : LatticeProof) (h : LatticeProof.ctor P g = .ok (S, g1)) :
    S.Inv ∧ S.params_ = P ∧ S.y_ = [] := by
  obtain ⟨S1, g2, h1, hinv, hp, hy⟩ := ctor_ok P hn hm hq g
  rw [h1] at h
  simp only [Except.ok.injEq, Prod.mk.injEq] at h
  rw [← h.1]
  exact ⟨hinv, hp, hy⟩

theorem reachable_inv (P : Parameters) (hn : 0 ≤ P.n) (hm : 0 ≤ P.m) (hq : 0 < P.q)
    (S : LatticeProof) (h : Reachable P S) : S.Inv ∧ S.params_ = P := by
  induction h with
  | ctor g g1 S hc => exact ⟨(ctor_inv P hn hm hq g g1 S hc).1, (ctor_inv P hn hm hq g g1 S hc).2.1⟩
  | commit S g _ ih => exact ⟨commit_inv S ih.1 g, ih.2⟩
  | respond S c _ ih => rw [respond_frame]; exact ih

theorem inv_t_entries (S : LatticeProof) (hS : S.Inv) (hq : 0 < S.params_.q) :
    (S.t_.length : Int) = S.params_.n ∧
      ∀ i : Nat, (i : Int) < S.params_.n →
        entry S.t_ i = row_dot S.A_ S.s_ S.params_.m.toNat i % S.params_.q := by
  have ht := hS.t_def
  rw [matrix_vector_mod_ok _ _ _ (hS.row_length _ hS.s_len)] at ht
  simp only [Except.ok.injEq] at ht
  rw [← ht]
  refine ⟨by rw [List.length_map]; exact hS.A_rows, ?_⟩
  intro i hi
  have hi1 : i < S.A_.length := by have := hS.A_rows; omega
  exact entry_matvec _ hq _ _ _ _ hi1 (length_eq_toNat _ (hS.getD_length i hi1))


theorem respond_entry_error (S : LatticeProof) (challenge : List Int) (i : Nat) (e : Error)
    (h : respond_entry S challenge i = .error e) : e = .out_of_range := by
  unfold respond_entry at h
  split at h
  · cases h
  · exact (Except.error.inj h).symm

theorem respond_error_cases (S : LatticeProof) (challenge : List Int) (e : Error)
    (h : (S.respond challenge).1 = .error e) :
    ((challenge.length : Int) ≠ S.params_.m ∧
        e = .invalid_argument "Challenge vector has wrong dimension") ∨
      ((challenge.length : Int) = S.params_.m ∧ e = .out_of_range) := by
  unfold LatticeProof.respond at h
  by_cases hc : (challenge.length : Int) = S.params_.m
  · rw [if_neg (not_not.mpr hc)] at h
    right
    refine ⟨hc, ?_⟩
    have hmem := collect_error_mem _ e h
    rw [List.mem_map] at hmem
    obtain ⟨i, -, hi⟩ := hmem
    exact respond_entry_error S challenge i e hi
  · rw [if_pos hc] at h
    left
    exact ⟨hc, (Except.error.inj h).symm⟩

theorem respond_wrong_length (S : LatticeProof) (challenge : List Int)
    (hc : (challenge.length : Int) ≠ S.params_.m) :
    S.respond challenge =
      (.error (.invalid_argument "Challenge vector has wrong dimension"), S) := by
  unfold LatticeProof.respond
  rw [if_pos hc]

theorem no_odd_divisor_spec (p a c : Nat) (h : no_odd_divisor p a c = true) (j : Nat)
    (h1 : a ≤ j) (h2 : j < a + c) : ¬ (3 + 2 * j) ∣ p := by
  unfold no_odd_divisor at h
  rw [List.all_eq_true] at h
  have := h (j - a) (List.mem_range.mpr (by omega))
  have e : a + (j - a) = j := by omega
  rw [e] at this
  intro hd
  have := Nat.mod_eq_zero_of_dvd hd
  simp_all

theorem no_odd_divisor_chunks (p chunks : Nat)
    (h : ∀ k < chunks, no_odd_divisor p (256 * k) 256 = true) (j : Nat)
    (hj : j < 256 * chunks) : ¬ (3 + 2 * j) ∣ p := by
  have hk : j / 256 < chunks := by omega
  exact no_odd_divisor_spec p (256 * (j / 256)) 256 (h _ hk) j (by omega) (by omega)

set_option maxRecDepth 100000 in
theorem high_security_trial_division :
    ∀ k < 128, no_odd_divisor 4294967291 (256 * k) 256 = true := by decide

theorem prime_4294967291 : Nat.Prime 4294967291 := by
  rw [Nat.prime_def_le_sqrt]
  refine ⟨by decide, ?_⟩
  have hs : Nat.sqrt 4294967291 = 65535 := (Nat.eq_sqrt.mpr (by decide)).symm
  rw [hs]
  intro m hm2 hmle hmd
  rcases Nat.even_or_odd m with hev | hod
  · have h2 : 2 ∣ 4294967291 := dvd_trans hev.two_dvd hmd
    revert h2
    decide
  · obtain ⟨k, hk⟩ := hod
    have hk1 : 1 ≤ k := by omega
    have e : m = 3 + 2 * (k - 1) := by omega
    rw [e] at hmd
    exact no_odd_divisor_chunks 4294967291 128 high_security_trial_division (k - 1)
      (by omega) hmd

theorem is_prime_4294967291 : is_prime 4294967291 = true := by
  rw [is_prime_iff]
  exact prime_4294967291

theorem ctor_of_valid (n m q y_range s_range : Int) (safety_factor sigma : ℚ)
    (h : Parameters.validate ⟨n, m, q, y_range, s_range, safety_factor, sigma⟩ = .ok true) :
    Parameters.ctor n m q y_range s_range safety_factor sigma =
      .ok ⟨n, m, q, y_range, s_range, safety_factor, sigma⟩ := by
  unfold Parameters.ctor
  rw [h]
  rfl

theorem P_default_valid : P_default.validate = .ok true := by
  norm_num [Parameters.validate, P_default, is_prime_97]

theorem P_high_valid : P_high.validate = .ok true := by
  norm_num [Parameters.validate, P_high, is_prime_4294967291]

theorem norm_bound_eq_ceil (m y_range s_range : Int) (safety_factor : ℚ) :
    calculate_norm_bound m y_range s_range safety_factor =
      ⌈norm_bound_arg m y_range s_range safety_factor⌉ := rfl

theorem norm_bound_value (m y s : Int) (a : ℚ) (B : Int)
    (h1 : (B : ℚ) - 1 < norm_bound_arg m y s a) (h2 : norm_bound_arg m y s a ≤ (B : ℚ)) :
    calculate_norm_bound m y s a = B := by
  rw [norm_bound_eq_ceil, Int.ceil_eq_iff]
  exact ⟨h1, h2⟩

theorem lift_emod_eq (q : Int) (hq : 0 < q) (x : Int) (h1 : -q < 2 * x) (h2 : 2 * x ≤ q) :
    lift q (x % q) = x := by
  unfold lift
  rw [ZZ_div_two]
  rcases le_or_lt 0 x with hx | hx
  · have hm : x % q = x := Int.emod_eq_of_lt hx (by omega)
    rw [hm, if_neg (by omega)]
  · have hm : x % q = x + q := by
      have : (x + q) % q = x + q := Int.emod_eq_of_lt (by omega) (by omega)
      rw [← this, Int.add_emod_self]
    rw [hm, if_pos (by omega)]
    omega

theorem honest_rows_eq (S : LatticeProof) (hS : S.Inv) (hq : 0 < S.params_.q)
    (challenge : List Int) (hc : (challenge.length : Int) = S.params_.m) (i : Nat)
    (hi : i < S.A_.length) :
    InnerProduct S.params_.q (S.A_.getD i []) (((List.range S.params_.m.toNat).map
        (fun j => (entry S.y_ j + entry challenge j * entry S.s_ j) % S.params_.q)).map
          (conv_ZZ_p S.params_.q)) =
      ZZ_p_add S.params_.q (InnerProduct S.params_.q (S.A_.getD i [])
        (S.y_.map (conv_ZZ_p S.params_.q))) (ct_val S challenge i) := by
  rw [(ct_entry_ok S challenge i hi hc (hS.getD_length i hi) hS.s_len).2 hq]
  exact honest_row S.params_.q hq S.params_.m.toNat _ S.y_ challenge S.s_
    (length_eq_toNat _ (hS.getD_length i hi))

theorem verify_true_iff (S : LatticeProof) (hS : S.Inv) (u challenge z : List Int)
    (hu : (u.length : Int) = S.params_.n) (hc : (challenge.length : Int) = S.params_.m)
    (hz : (z.length : Int) = S.params_.m) :
    (S.verify u challenge z = .ok true ↔
      (compute_norm_squared z S.params_.q ≤
          calculate_norm_bound S.params_.m S.params_.y_range S.params_.s_range
            S.params_.safety_factor ∧
        ∀ i, i < S.params_.n.toNat →
          InnerProduct S.params_.q (S.A_.getD i []) (z.map (conv_ZZ_p S.params_.q)) =
            ZZ_p_add S.params_.q (entry u i) (ct_val S challenge i))) ∧
    (S.verify u challenge z = .ok false ↔
      ¬ (compute_norm_squared z S.params_.q ≤
          calculate_norm_bound S.params_.m S.params_.y_range S.params_.s_range
            S.params_.safety_factor ∧
        ∀ i, i < S.params_.n.toNat →
          InnerProduct S.params_.q (S.A_.getD i []) (z.map (conv_ZZ_p S.params_.q)) =
            ZZ_p_add S.params_.q (entry u i) (ct_val S challenge i))) := by
  rw [verify_eq S hS u challenge z hu hc hz]
  by_cases hnorm : compute_norm_squared z S.params_.q >
      calculate_norm_bound S.params_.m S.params_.y_range S.params_.s_range
        S.params_.safety_factor
  · rw [if_pos hnorm]
    have : ¬ compute_norm_squared z S.params_.q ≤
        calculate_norm_bound S.params_.m S.params_.y_range S.params_.s_range
          S.params_.safety_factor := not_le.mpr hnorm
    simp [this]
  · rw [if_neg hnorm]
    have hle := not_lt.mp hnorm
    simp only [Except.ok.injEq, beq_iff_eq, beq_eq_false_iff_ne, ne_eq, hle, true_and,
      List.map_inj_left, List.mem_range]

theorem entry_tamper_zero (q : Int) (z : List Int) (hz : z ≠ []) :
    entry (tamper_response q z) 0 = ZZ_rem (entry z 0 + 1) q := by
  cases z with
  | nil => exact absurd rfl hz
  | cons z0 rest => rfl

theorem entry_tamper_succ (q : Int) (z : List Int) (j : Nat) :
    entry (tamper_response q z) (j + 1) = entry z (j + 1) := by
  cases z with
  | nil => rfl
  | cons z0 rest => rfl

theorem tamper_response_length (q : Int) (z : List Int) :
    (tamper_response q z).length = z.length := by
  cases z with
  | nil => rfl
  | cons z0 rest => rfl

theorem InnerProduct_tamper (q : Int) (hq : 0 < q) (row z : List Int) (hrow : 0 < row.length)
    (hz : z ≠ []) :
    InnerProduct q row ((tamper_response q z).map (conv_ZZ_p q)) =
      ((∑ j in Finset.range row.length, entry row j * entry z j) + entry row 0) % q := by
  rw [InnerProduct_conv q hq]
  obtain ⟨k, hk⟩ : ∃ k, row.length = k + 1 := ⟨row.length - 1, by omega⟩
  rw [hk, Finset.sum_range_succ', Finset.sum_range_succ']
  simp only [entry_tamper_succ, entry_tamper_zero q z hz, ZZ_rem_of_pos _ hq]
  rw [add_assoc, Int.add_emod, Int.add_emod (∑ j in Finset.range k, _)]
  congr 2
  rw [Int.mul_emod, Int.emod_emod, ← Int.mul_emod]
  congr 1
  ring

theorem emod_add_eq_iff (q : Int) (a b : Int) (hb : 0 ≤ b ∧ b < q) :
    (a + b) % q = a % q ↔ b = 0 := by
  rw [Int.emod_eq_emod_iff_emod_sub_eq_zero]
  have e : a + b - a = b := by ring
  rw [e]
  constructor
  · intro h
    rw [Int.emod_eq_of_lt hb.1 hb.2] at h
    exact h
  · rintro rfl
    simp

theorem tampered_rows_iff (S : LatticeProof) (hS : S.Inv) (hq : 0 < S.params_.q)
    (hm : 0 < S.params_.m) (challenge : List Int)
    (hc : (challenge.length : Int) = S.params_.m) (i : Nat) (hi : i < S.A_.length) :
    InnerProduct S.params_.q (S.A_.getD i [])
        ((tamper_response S.params_.q ((List.range S.params_.m.toNat).map
          (fun j => (entry S.y_ j + entry challenge j * entry S.s_ j) % S.params_.q))).map
            (conv_ZZ_p S.params_.q)) =
      ZZ_p_add S.params_.q (InnerProduct S.params_.q (S.A_.getD i [])
        (S.y_.map (conv_ZZ_p S.params_.q))) (ct_val S challenge i) ↔
    entry (S.A_.getD i []) 0 = 0 := by
  have hrow : (S.A_.getD i []).length = S.params_.m.toNat :=
    length_eq_toNat _ (hS.getD_length i hi)
  have hpos : 0 < (S.A_.getD i []).length := by omega
  have hne : (List.range S.params_.m.toNat).map
      (fun j => (entry S.y_ j + entry challenge j * entry S.s_ j) % S.params_.q) ≠ [] := by
    intro h
    have := congrArg List.length h
    simp at this
    omega
  rw [← honest_rows_eq S hS hq challenge hc i hi, InnerProduct_tamper _ hq _ _ hpos hne,
    InnerProduct_conv _ hq]
  apply emod_add_eq_iff
  exact hS.A_canon _ (getD_mem _ _ _ hi) _ (entry_mem _ 0 hpos)

theorem verify_tampered_iff (S : LatticeProof) (hS : S.Inv) (hq : 0 < S.params_.q)
    (hm : 0 < S.params_.m) (hy : (S.y_.length : Int) = S.params_.m) (challenge : List Int)
    (hc : (challenge.length : Int) = S.params_.m) (u z : List Int)
    (hu : matrix_vector_mod S.params_.q S.A_ S.y_ = .ok u)
    (hz : (S.respond challenge).1 = .ok z) :
    (S.verify u challenge (tamper_response S.params_.q z) = .ok true ↔
      (compute_norm_squared (tamper_response S.params_.q z) S.params_.q ≤
          calculate_norm_bound S.params_.m S.params_.y_range S.params_.s_range
            S.params_.safety_factor ∧
        ∀ i, i < S.params_.n.toNat → entry (S.A_.getD i []) 0 = 0)) ∧
    (S.verify u challenge (tamper_response S.params_.q z) = .ok false ↔
      ¬ (compute_norm_squared (tamper_response S.params_.q z) S.params_.q ≤
          calculate_norm_bound S.params_.m S.params_.y_range S.params_.s_range
            S.params_.safety_factor ∧
        ∀ i, i < S.params_.n.toNat → entry (S.A_.getD i []) 0 = 0)) := by
  have hn : S.A_.length = S.params_.n.toNat := length_eq_toNat _ hS.A_rows
  rw [matrix_vector_mod_ok _ _ _ (hS.row_length _ hy)] at hu
  rw [respond_ok S challenge hq hc hy hS.s_len] at hz
  simp only [Except.ok.injEq] at hu hz
  have hul : (u.length : Int) = S.params_.n := by
    rw [← hu, List.length_map]; exact hS.A_rows
  have hzl : ((tamper_response S.params_.q z).length : Int) = S.params_.m := by
    rw [tamper_response_length, ← hz, List.length_map, List.length_range]
    exact Int.toNat_of_nonneg (le_of_lt hm)
  have hrows : (∀ i, i < S.params_.n.toNat →
      InnerProduct S.params_.q (S.A_.getD i [])
          ((tamper_response S.params_.q z).map (conv_ZZ_p S.params_.q)) =
        ZZ_p_add S.params_.q (entry u i) (ct_val S challenge i)) ↔
      ∀ i, i < S.params_.n.toNat → entry (S.A_.getD i []) 0 = 0 := by
    apply forall_congr'
    intro i
    apply imp_congr_right
    intro hi
    rw [← hn] at hi
    have hui : entry u i = InnerProduct S.params_.q (S.A_.getD i [])
        (S.y_.map (conv_ZZ_p S.params_.q)) := by
      rw [← hu, map_eq_range_map, entry_map_range _ _ _ hi]
    rw [hui, ← hz]
    exact tampered_rows_iff S hS hq hm challenge hc i hi
  have h := verify_true_iff S hS u challenge (tamper_response S.params_.q z) hul hc hzl
  rw [hrows] at h
  exact h

theorem is_prime_two_le (q : Int) (h : is_prime q = true) : 2 ≤ q := by
  unfold is_prime at h
  by_contra hlt
  rw [if_pos (by omega)] at h
  cases h

theorem ZZ_p_add_one_ne (q : Int) (hq : 2 ≤ q) (a b c : Int)
    (hb : b = ZZ_p_add q a (conv_ZZ_p q 1)) : ZZ_p_add q b c ≠ ZZ_p_add q a c := by
  have hq0 : 0 < q := by omega
  rw [hb]
  simp only [ZZ_p_add, conv_ZZ_p, ZZ_rem_of_pos _ hq0]
  intro h
  rw [Int.emod_eq_emod_iff_emod_sub_eq_zero] at h
  have h1 : ((a + 1 % q) % q + c - (a + c)) % q = 1 % q := by
    rw [Int.sub_emod, Int.add_emod, Int.emod_emod, ← Int.add_emod, ← Int.sub_emod]
    have e : a + 1 % q + c - (a + c) = 1 % q := by ring
    rw [e, Int.emod_emod]
  rw [h1, Int.emod_eq_of_lt (by decide) (by omega)] at h
  exact absurd h (by decide)

theorem verify_dims_of_ok (S : LatticeProof) (u challenge z : List Int) (b : Bool)
    (h : S.verify u challenge z = .ok b) :
    (u.length : Int) = S.params_.n ∧ (challenge.length : Int) = S.params_.m ∧
      (z.length : Int) = S.params_.m := by
  unfold LatticeProof.verify at h
  by_cases hu : (u.length : Int) = S.params_.n
  · by_cases hc : (challenge.length : Int) = S.params_.m
    · by_cases hz : (z.length : Int) = S.params_.m
      · exact ⟨hu, hc, hz⟩
      · rw [if_neg (not_not.mpr hu), if_neg (not_not.mpr hc), if_pos hz] at h
        cases h
    · rw [if_neg (not_not.mpr hu), if_pos hc] at h
      cases h
  · rw [if_pos hu] at h
    cases h

theorem verify_tampered_commitment (S : LatticeProof) (hS : S.Inv) (hq : 2 ≤ S.params_.q)
    (u u1 challenge z : List Int) (hv : S.verify u challenge z = .ok true)
    (hlen : u1.length = u.length) (k : Nat) (hk : k < u.length)
    (hk1 : entry u1 k = ZZ_p_add S.params_.q (entry u k) (conv_ZZ_p S.params_.q 1)) :
    S.verify u1 challenge z = .ok false := by
  obtain ⟨hu, hc, hz⟩ := verify_dims_of_ok S u challenge z true hv
  have hu1 : (u1.length : Int) = S.params_.n := by rw [hlen]; exact hu
  have h := (verify_true_iff S hS u challenge z hu hc hz).1.mp hv
  apply (verify_true_iff S hS u1 challenge z hu1 hc hz).2.mpr
  rintro ⟨-, hall⟩
  have hkn : k < S.params_.n.toNat := by omega
  have e1 := h.2 k hkn
  have e2 := hall k hkn
  rw [e1] at e2
  exact ZZ_p_add_one_ne S.params_.q hq _ _ _ hk1 e2.symm

theorem entry_tamper_commitment (q : Int) (u : List Int) (k : Nat) (hk : k < u.length) :
    entry (tamper_commitment q u) k = ZZ_p_add q (entry u k) (conv_ZZ_p q 1) := by
  unfold tamper_commitment entry
  rw [List.getD_eq_getElem _ _ (by simpa using hk), List.getD_eq_getElem _ _ hk]
  simp

theorem entry_tamper_commitment_at (q : Int) (u : List Int) (k : Nat) (hk : k < u.length) :
    entry (tamper_commitment_at q u k) k = ZZ_p_add q (entry u k) (conv_ZZ_p q 1) := by
  unfold tamper_commitment_at
  generalize ZZ_p_add q (entry u k) (conv_ZZ_p q 1) = v
  unfold entry
  rw [List.getD_eq_getElem _ _ (by simpa using hk)]
  simp

theorem committed_accept (S : LatticeProof) (hS : S.Inv) (hq : 0 < S.params_.q)
    (hC : S.Committed)
    (hB : S.params_.m * ((S.params_.y_range + 1) * (S.params_.y_range + 1)) ≤
      calculate_norm_bound S.params_.m S.params_.y_range S.params_.s_range
        S.params_.safety_factor)
    (u : List Int) (hu : matrix_vector_mod S.params_.q S.A_ S.y_ = .ok u)
    (challenge : List Int) (hc : (challenge.length : Int) = S.params_.m)
    (hct : Ternary challenge) :
    respond_verify S u challenge = (.ok true, S) := by
  have hz := respond_ok S challenge hq hc hC.1 hS.s_len
  have hv := verify_honest S hS hq hC.1 challenge hc u _ hu (congrArg Prod.fst hz)
  have hm : 0 ≤ S.params_.m := by rw [← hc]; exact Int.natCast_nonneg _
  have hnorm := norm_honest_le S.params_.q hq S.params_.y_range S.y_ challenge
    S.s_ S.params_.m.toNat (length_eq_toNat _ hC.1) (length_eq_toNat _ hc)
    (length_eq_toNat _ hS.s_len) hC.2 hct hS.s_ternary
  rw [Int.toNat_of_nonneg hm] at hnorm
  unfold respond_verify
  simp only [hz, hv]
  simp [le_trans hnorm hB]

theorem reuse_rounds_accept (S : LatticeProof) (hS : S.Inv) (hq : 0 < S.params_.q)
    (hC : S.Committed)
    (hB : S.params_.m * ((S.params_.y_range + 1) * (S.params_.y_range + 1)) ≤
      calculate_norm_bound S.params_.m S.params_.y_range S.params_.s_range
        S.params_.safety_factor)
    (u : List Int) (hu : matrix_vector_mod S.params_.q S.A_ S.y_ = .ok u)
    (cs : List (List Int))
    (hcs : ∀ c ∈ cs, (c.length : Int) = S.params_.m ∧ Ternary c) :
    reuse_rounds S u cs = cs.map (fun _ => .ok true) := by
  induction cs with
  | nil => rfl
  | cons c cs ih =>
    have hc := hcs c (List.mem_cons_self c cs)
    have hr := committed_accept S hS hq hC hB u hu c hc.1 hc.2
    simp only [reuse_rounds, List.map_cons, hr]
    congr 1
    exact ih (fun c1 h1 => hcs c1 (List.mem_cons_of_mem c h1))

theorem size_eq_of_bounds (n k : Nat) (h1 : 2 ^ k ≤ n) (h2 : n < 2 ^ (k + 1)) :
    Nat.size n = k + 1 := by
  have ha : k < Nat.size n := Nat.lt_size.mpr h1
  have hb : Nat.size n ≤ k + 1 := Nat.size_le.mpr h2
  omega

theorem size_eq_log_succ (n : Nat) (hn : n ≠ 0) : Nat.size n = Nat.log 2 n + 1 :=
  size_eq_of_bounds n (Nat.log 2 n) (Nat.pow_log_le_self 2 hn)
    (Nat.lt_pow_succ_log_self (by decide) n)

theorem clog_eq_of_bounds (n k : Nat) (h1 : 2 ^ k < n) (h2 : n ≤ 2 ^ (k + 1)) :
    Nat.clog 2 n = k + 1 := by
  have ha : Nat.clog 2 n ≤ k + 1 := (Nat.le_pow_iff_clog_le (by decide)).mp h2
  have hb : ¬ Nat.clog 2 n ≤ k := by
    intro h
    have := (Nat.le_pow_iff_clog_le (by decide)).mpr h
    omega
  omega

theorem clog_eq_log_succ_of_odd (n : Nat) (hn : 3 ≤ n) (hodd : n % 2 = 1) :
    Nat.clog 2 n = Nat.log 2 n + 1 := by
  have h1 : 2 ^ Nat.log 2 n ≤ n := Nat.pow_log_le_self 2 (by omega)
  have h2 : n < 2 ^ (Nat.log 2 n + 1) := Nat.lt_pow_succ_log_self (by decide) n
  apply clog_eq_of_bounds n _ _ (le_of_lt h2)
  rcases Nat.eq_zero_or_pos (Nat.log 2 n) with h0 | h0
  · rw [h0]
    omega
  · have hev : 2 ^ Nat.log 2 n % 2 = 0 := by
      obtain ⟨k, hk⟩ : ∃ k, Nat.log 2 n = k + 1 := ⟨Nat.log 2 n - 1, by omega⟩
      rw [hk, pow_succ]
      omega
    omega

theorem NumBits_of_pos (q : Int) (hq : 0 < q) :
    NumBits q = ((Nat.log 2 q.toNat + 1 : Nat) : Int) := by
  unfold NumBits
  obtain ⟨p, rfl⟩ := Int.eq_ofNat_of_zero_le (le_of_lt hq)
  have hp : p ≠ 0 := by omega
  simp [size_eq_log_succ p hp]

theorem P_two_valid : P_two.validate = .ok true := by
  have h2 : is_prime 2 = true := by decide
  norm_num [Parameters.validate, P_two, h2]

theorem fill_vec_eq_map (f : Nat → Int) (k : Nat) (g : RandomStream) :
    (fill_vec (fun g => (f (g.raw 0), g.tail)) k g).1 =
      (List.range k).map (fun i => f (g.raw i)) := by
  induction k generalizing g with
  | zero => rfl
  | succ k ih =>
    rw [List.range_succ_eq_map]
    simp only [fill_vec, List.map_cons, List.map_map]
    rw [ih]
    rfl

theorem sample_uniform_eq_map (len bound : Int) (g : RandomStream) :
    (sample_uniform len bound g).1 = (List.range len.toNat).map
      (fun i => (if 2 * bound + 1 ≤ 0 then 0 else (g.raw i : Int) % (2 * bound + 1)) - bound) :=
  fill_vec_eq_map
    (fun r => (if 2 * bound + 1 ≤ 0 then 0 else (r : Int) % (2 * bound + 1)) - bound) _ g

theorem sample_ternary_eq_uniform (len : Int) (g : RandomStream) :
    (sample_ternary len g).1 = (sample_uniform len 1 g).1 := rfl

theorem generate_challenge_eq_ternary (len : Int) (g : RandomStream) :
    generate_challenge len g = sample_ternary len g := rfl

theorem sample_uniform_attains (len bound : Int) (hb : 0 ≤ bound) (v : List Int)
    (hlen : (v.length : Int) = len) (hv : Within bound v) :
    (sample_uniform len bound (stream_for bound v)).1 = v := by
  rw [sample_uniform_eq_map, ← length_eq_toNat v hlen]
  apply List.ext_getElem
  · simp
  · intro i h1 h2
    have hi := hv _ (List.getElem_mem h2)
    simp only [List.getElem_map, List.getElem_range, stream_for, entry,
      List.getD_eq_getElem _ _ h2]
    rw [if_neg (by omega), Int.toNat_of_nonneg (by omega),
      Int.emod_eq_of_lt (by omega) (by omega)]
    omega

theorem ternary_iff_within (v : List Int) : Ternary v ↔ Within 1 v := by
  unfold Ternary Within
  constructor
  · intro h x hx
    have := h x hx
    omega
  · intro h x hx
    have := h x hx
    omega

theorem row_dot_eq (M : List (List Int)) (v : List Int) (m i : Nat) :
    row_dot M v m i = ∑ j in Finset.range m, entry (M.getD i []) j * entry v j := rfl

theorem verify_congr (P : Parameters) (A : List (List Int)) (s y1 t1 y2 t2 u challenge z : List Int) :
    LatticeProof.verify ⟨P, A, s, y1, t1⟩ u challenge z =
      LatticeProof.verify ⟨P, A, s, y2, t2⟩ u challenge z := rfl

theorem verify_rhs_ok (S : LatticeProof) (hS : S.Inv) (u challenge : List Int)
    (hu : (u.length : Int) = S.params_.n) (hc : (challenge.length : Int) = S.params_.m) :
    verify_rhs S u challenge = .ok ((List.range S.params_.n.toNat).map
      (fun i => ZZ_p_add S.params_.q (entry u i) (ct_val S challenge i))) := by
  have hn : S.A_.length = S.params_.n.toNat := length_eq_toNat _ hS.A_rows
  have hct : collect ((List.range S.params_.n.toNat).map (ct_entry S challenge)) =
      .ok ((List.range S.params_.n.toNat).map (ct_val S challenge)) := by
    apply collect_map_ok
    intro i hi
    rw [List.mem_range, ← hn] at hi
    exact (ct_entry_ok S challenge i hi hc (hS.getD_length i hi) hS.s_len).1
  unfold verify_rhs
  simp only [hct]
  apply collect_map_ok
  intro i hi
  rw [List.mem_range] at hi
  unfold rhs_entry
  rw [vec_get_of_lt _ _ (by rw [length_eq_toNat _ hu]; exact hi),
    vec_get_of_lt _ _ (by simpa using hi), entry_map_range _ _ _ hi]

theorem verify_uses_rhs (S : LatticeProof) (u challenge z : List Int)
    (hu : (u.length : Int) = S.params_.n) (hc : (challenge.length : Int) = S.params_.m)
    (hz : (z.length : Int) = S.params_.m) :
    S.verify u challenge z =
      if compute_norm_squared z S.params_.q >
          calculate_norm_bound S.params_.m S.params_.y_range S.params_.s_range
            S.params_.safety_factor then .ok false
      else
        match matrix_vector_mod S.params_.q S.A_ z with
        | .error e => .error e
        | .ok Az =>
          match verify_rhs S u challenge with
          | .error e => .error e
          | .ok rhs => .ok (Az == rhs) := by
  unfold LatticeProof.verify verify_rhs
  rw [if_neg (not_not.mpr hu), if_neg (not_not.mpr hc), if_neg (not_not.mpr hz)]
  simp only
  split
  · rfl
  · cases matrix_vector_mod S.params_.q S.A_ z with
    | error e => rfl
    | ok Az =>
      cases collect ((List.range S.params_.n.toNat).map (ct_entry S challenge)) with
      | error e => rfl
      | ok ct => rfl

theorem entry_replicate (k : Int) (m j : Nat) (hj : j < m) :
    entry (List.replicate m k) j = k := by
  unfold entry
  rw [List.getD_eq_getElem _ _ (by simpa using hj)]
  simp

theorem is_prime_loop_total (n : Int) :
    ∃ b, is_prime_loop n (SqrRoot n) (SqrRoot n).toNat 3 = some b := by
  have h0 : 0 ≤ SqrRoot n := by unfold SqrRoot; exact Int.natCast_nonneg _
  obtain ⟨b, hb, -⟩ := is_prime_loop_spec n (SqrRoot n) (SqrRoot n).toNat 3 (le_refl 3)
    (by rw [Int.toNat_of_nonneg h0]; omega)
  exact ⟨b, hb⟩

theorem prime_sq_not_prime (p : Nat) (hp : 2 ≤ p) : ¬ Nat.Prime (p * p) := by
  intro h
  have := (Nat.prime_mul_iff.mp h)
  rcases this with ⟨-, h1⟩ | ⟨-, h1⟩ <;> omega

theorem entry_zipWith_add (v w : List Int) (hvw : v.length = w.length) (j : Nat) :
    entry (List.zipWith (fun a b => a + b) v w) j = entry v j + entry w j := by
  unfold entry
  by_cases h : j < v.length
  · have hw : j < w.length := by omega
    rw [List.getD_eq_getElem _ _ (by simp; omega), List.getD_eq_getElem _ _ h,
      List.getD_eq_getElem _ _ hw]
    simp
  · rw [List.getD_eq_default _ _ (by simp; omega), List.getD_eq_default _ _ (by omega),
      List.getD_eq_default _ _ (by omega)]
    rfl

theorem norm_map_emod_le (q : Int) (hq : 0 < q) (f : Nat → Int) (m : Nat) :
    compute_norm_squared ((List.range m).map (fun i => f i % q)) q ≤
      ∑ i in Finset.range m, f i * f i := by
  rw [compute_norm_squared_eq, List.map_map, range_map_sum]
  apply Finset.sum_le_sum
  intro i _
  exact lift_emod_sq_le q hq _

theorem norm_map_emod_eq (q : Int) (hq : 0 < q) (f : Nat → Int) (m : Nat)
    (h : ∀ i, i < m → -q < 2 * f i ∧ 2 * f i ≤ q) :
    compute_norm_squared ((List.range m).map (fun i => f i % q)) q =
      ∑ i in Finset.range m, f i * f i := by
  rw [compute_norm_squared_eq, List.map_map, range_map_sum]
  apply Finset.sum_congr rfl
  intro i hi
  have hi1 := h i (Finset.mem_range.mp hi)
  simp only [Function.comp_apply]
  rw [lift_emod_eq q hq (f i) hi1.1 hi1.2]

theorem tamper_response_map (q : Int) (hq : 0 < q) (f : Nat → Int) (k : Nat) :
    tamper_response q ((List.range (k + 1)).map (fun i => f i % q)) =
      (List.range (k + 1)).map (fun i => (f i + if i = 0 then 1 else 0) % q) := by
  rw [List.range_succ_eq_map]
  simp only [List.map_cons, List.map_map, tamper_response, ZZ_rem_of_pos _ hq]
  congr 1
  · simp
  · apply List.map_congr_left
    intro i _
    simp

theorem sq_le_of_sq_le (x : Int) (h : x * x ≤ 121) : (x + 1) * (x + 1) ≤ 144 := by
  have h1 : x ≤ 11 := by nlinarith
  have h2 : -11 ≤ x := by nlinarith
  nlinarith

theorem tampered_norm_default (y c s : List Int) (hy : y.length = 4) (hc : c.length = 4)
    (hs : s.length = 4) (hyw : Within 10 y) (hct : Ternary c) (hst : Ternary s) :
    compute_norm_squared (tamper_response 97 ((List.range 4).map
      (fun i => (entry y i + entry c i * entry s i) % 97))) 97 ≤ 1360 := by
  rw [tamper_response_map 97 (by decide) _ 3]
  refine le_trans (norm_map_emod_le 97 (by decide) _ 4) ?_
  have hsum : ∑ i in Finset.range 4,
      (entry y i + entry c i * entry s i + if i = 0 then 1 else 0) *
        (entry y i + entry c i * entry s i + if i = 0 then 1 else 0) ≤
      ∑ _i in Finset.range 4, (144 : Int) := by
    apply Finset.sum_le_sum
    intro i hi
    have hb := honest_entry_sq_le 10 y c s 4 hy hc hs hyw hct hst i (Finset.mem_range.mp hi)
    have hb1 : (entry y i + entry c i * entry s i) * (entry y i + entry c i * entry s i) ≤
        121 := hb
    by_cases h0 : i = 0
    · rw [if_pos h0]
      exact sq_le_of_sq_le _ hb1
    · rw [if_neg h0, add_zero]
      omega
  refine le_trans hsum ?_
  simp

theorem lift_balanced (q x : Int) : lift q (balanced q x) * lift q (balanced q x) =
    lift q x * lift q x := by
  unfold lift balanced
  have h2 := ZZ_div_two q
  by_cases h : ZZ_div q 2 < x ∧ x < q
  · rw [if_pos h, if_pos h.1, if_neg (by omega)]
  · rw [if_neg h]

theorem conv_balanced (q x : Int) : conv_ZZ_p q (balanced q x) = conv_ZZ_p q x := by
  unfold balanced
  by_cases h : ZZ_div q 2 < x ∧ x < q
  · rw [if_pos h]
    have h2 := ZZ_div_two q
    have hq : 0 < q := by omega
    rw [conv_ZZ_p_of_pos _ hq, conv_ZZ_p_of_pos _ hq, Int.sub_emod, Int.emod_self,
      Int.sub_zero, Int.emod_emod]
  · rw [if_neg h]

theorem verify_of_same_image (S : LatticeProof) (u challenge z z1 : List Int)
    (hlen : z1.length = z.length)
    (hnorm : z1.map (fun x => lift S.params_.q x * lift S.params_.q x) =
      z.map (fun x => lift S.params_.q x * lift S.params_.q x))
    (hconv : z1.map (conv_ZZ_p S.params_.q) = z.map (conv_ZZ_p S.params_.q)) :
    S.verify u challenge z1 = S.verify u challenge z := by
  unfold LatticeProof.verify matrix_vector_mod
  rw [compute_norm_squared_eq, compute_norm_squared_eq, hnorm, hconv, hlen]

theorem map_set_same {β : Type} (f : Int → β) (z : List Int) (i : Nat) (v : Int)
    (hi : i < z.length) (hv : f v = f (entry z i)) : (z.set i v).map f = z.map f := by
  apply List.ext_getElem
  · simp
  · intro k h1 h2
    simp only [List.getElem_map, List.getElem_set]
    by_cases hk : i = k
    · subst hk
      rw [if_pos rfl, hv]
      unfold entry
      rw [List.getD_eq_getElem _ _ hi]
    · rw [if_neg hk]

/-- For a finite `safety_factor` and `sigma`, read as rationals, the constructor
succeeds, with the fields as given, exactly when `n > 0`, `m > 0`, `q > 0`, `q` is
prime, `y_range > 0`, `s_range > 0`, `safety_factor > 0` and `sigma > 0`, and raises an
invalid-argument error otherwise. -/
theorem parameters_ctor_finite (n m q y_range s_range : Int) (safety_factor sigma : ℚ) :
    (Parameters.ctor n m q y_range s_range safety_factor sigma =
        .ok ⟨n, m, q, y_range, s_range, safety_factor, sigma⟩ ↔
      (0 < n ∧ 0 < m ∧ 0 < q ∧ Nat.Prime q.toNat ∧ 0 < y_range ∧ 0 < s_range ∧
        0 < safety_factor ∧ 0 < sigma)) ∧
    ((∃ P, Parameters.ctor n m q y_range s_range safety_factor sigma = .ok P) ∨
      ∃ w, Parameters.ctor n m q y_range s_range safety_factor sigma =
        .error (.invalid_argument w)) ∧
    (∀ P, Parameters.ctor n m q y_range s_range safety_factor sigma = .ok P →
      P = ⟨n, m, q, y_range, s_range, safety_factor, sigma⟩) ∧
    Parameters.ctor 0 4 97 10 1 10 (3 / 2) =
      .error (.invalid_argument "Dimensions must be positive") ∧
    Parameters.ctor 4 4 100 10 1 10 (3 / 2) =
      .error (.invalid_argument "Modulus must be prime") := by
  have kerr : ∀ e, Parameters.validate
      ⟨n, m, q, y_range, s_range, safety_factor, sigma⟩ = .error e →
      Parameters.ctor n m q y_range s_range safety_factor sigma = .error e := by
    intro e he
    unfold Parameters.ctor
    rw [he]
  have kok : Parameters.validate ⟨n, m, q, y_range, s_range, safety_factor, sigma⟩ = .ok true →
      Parameters.ctor n m q y_range s_range safety_factor sigma =
        .ok ⟨n, m, q, y_range, s_range, safety_factor, sigma⟩ := by
    intro he
    unfold Parameters.ctor
    rw [he]
    rfl
  refine ⟨?_, ?_, ?_, ?_, ?_⟩
  · cases hv : Parameters.validate ⟨n, m, q, y_range, s_range, safety_factor, sigma⟩ with
    | error e =>
      rw [kerr _ hv]
      constructor
      · intro h; cases h
      · rintro ⟨h1, h2, h3, h4, h5, h6, h7, h8⟩
        have := (validate_ok_iff ⟨n, m, q, y_range, s_range, safety_factor, sigma⟩ true).mpr
          ⟨rfl, h1, h2, h3, h5, h6, h7, h8, (is_prime_iff q).mpr h4⟩
        rw [this] at hv
        cases hv
    | ok b =>
      obtain ⟨rfl, h1, h2, h3, h5, h6, h7, h8, h4⟩ := (validate_ok_iff _ _).mp hv
      rw [kok hv]
      simp only [true_iff]
      exact ⟨h1, h2, h3, (is_prime_iff q).mp h4, h5, h6, h7, h8⟩
  · cases hv : Parameters.validate ⟨n, m, q, y_range, s_range, safety_factor, sigma⟩ with
    | error e =>
      right
      obtain ⟨w, rfl⟩ := validate_error _ e hv
      exact ⟨w, kerr _ hv⟩
    | ok b =>
      left
      obtain ⟨rfl, -⟩ := (validate_ok_iff _ _).mp hv
      exact ⟨_, kok hv⟩
  · intro P hPo
    cases hv : Parameters.validate ⟨n, m, q, y_range, s_range, safety_factor, sigma⟩ with
    | error e =>
      rw [kerr _ hv] at hPo
      cases hPo
    | ok b =>
      obtain ⟨rfl, -⟩ := (validate_ok_iff _ _).mp hv
      rw [kok hv] at hPo
      simp only [Except.ok.injEq] at hPo
      exact hPo.symm
  · rfl
  · have h100 : is_prime 100 = false := by
      unfold is_prime
      decide
    norm_num [Parameters.ctor, Parameters.validate, h100]

/-! ## The unset `y_`, and the machine integers -/

theorem respond_fresh_error (S : LatticeProof) (hF : S.Fresh) (challenge : List Int)
    (hc : (challenge.length : Int) = S.params_.m) (hm : 0 < S.params_.m) :
    (S.respond challenge).1 = .error .out_of_range := by
  unfold LatticeProof.respond
  rw [if_neg (not_not.mpr hc)]
  obtain ⟨k, hk⟩ : ∃ k, S.params_.m.toNat = k + 1 := ⟨S.params_.m.toNat - 1, by omega⟩
  have hy : S.y_ = [] := hF
  have h0 : respond_entry S challenge 0 = .error .out_of_range := by
    unfold respond_entry
    rw [hy]
    rfl
  show collect ((List.range S.params_.m.toNat).map (respond_entry S challenge)) = _
  rw [hk, List.range_succ_eq_map, List.map_cons, h0]
  rfl

theorem to_size_t_of_range (a : Int) (h0 : 0 ≤ a) (h1 : a < 2 ^ 64) :
    machine.to_size_t a = a :=
  Int.emod_eq_of_lt h0 h1

theorem long_mul_of_range (a b : Int) (h0 : 0 ≤ a * b) (h1 : a * b < 2 ^ 63) :
    machine.long_mul a b = some (a * b) := by
  unfold machine.long_mul
  rw [if_pos ⟨by omega, h1⟩]

theorem int_mul_of_range (a b : Int) (h0 : 0 ≤ a * b) (h1 : a * b < 2 ^ 31) :
    machine.int_mul a b = some (a * b) := by
  unfold machine.int_mul
  rw [if_pos ⟨by omega, h1⟩]

theorem long_add_of_range (a b : Int) (h0 : 0 ≤ a + b) (h1 : a + b < 2 ^ 63) :
    machine.long_add a b = some (a + b) := by
  unfold machine.long_add
  rw [if_pos ⟨by omega, h1⟩]

/-- Where no product overflows, `calculate_proof_size` returns the sizes computed over
the integers. -/
theorem machine_proof_size_eq (P : Parameters) (hn : 0 ≤ P.n) (hm : 0 ≤ P.m)
    (hc : P.n * NumBits P.q < 2 ^ 63) (hr : P.m * NumBits P.q < 2 ^ 63)
    (h2 : P.m * 2 < 2 ^ 31)
    (ht : P.n * NumBits P.q + P.m * 2 + P.m * NumBits P.q < 2 ^ 64)
    (u challenge z : List Int) :
    machine.calculate_proof_size P u challenge z = some (calculate_proof_size P u challenge z) := by
  have hb : 0 ≤ NumBits P.q := Int.natCast_nonneg _
  have h1 : 0 ≤ P.n * NumBits P.q := Int.mul_nonneg hn hb
  have h3 : 0 ≤ P.m * NumBits P.q := Int.mul_nonneg hm hb
  have h4 : 0 ≤ P.m * 2 := by omega
  unfold machine.calculate_proof_size calculate_proof_size
  rw [long_mul_of_range _ _ h1 hc, int_mul_of_range _ _ h4 h2, long_mul_of_range _ _ h3 hr]
  simp only
  rw [to_size_t_of_range _ h1 (by omega), to_size_t_of_range _ h4 (by omega),
    to_size_t_of_range _ h3 (by omega), to_size_t_of_range _ (by omega) ht]

/-- For a `bound` below `2^62` the `long` value `2 * bound + 1` does not overflow. -/
theorem machine_sample_uniform_eq (length bound : Int) (h0 : 0 ≤ bound) (h1 : bound < 2 ^ 62)
    (g : RandomStream) :
    machine.sample_uniform length bound g = some (sample_uniform length bound g) := by
  unfold machine.sample_uniform
  split
  · rename_i h
    unfold sample_uniform
    rw [h]
    rfl
  · rw [long_mul_of_range 2 bound (by omega) (by omega)]
    simp only
    rw [long_add_of_range _ 1 (by omega) (by omega)]

theorem machine_sample_uniform_overflow (length bound : Int) (hl : 0 < length)
    (h1 : 2 ^ 62 ≤ bound) (g : RandomStream) :
    machine.sample_uniform length bound g = none := by
  unfold machine.sample_uniform
  rw [if_neg (by omega)]
  by_cases h : 2 * bound < 2 ^ 63
  · omega
  · unfold machine.long_mul
    rw [if_neg (by omega)]

/-- On finite `double` values `validate` is the validation over exact rationals. -/
theorem machine_validate_finite (n m q y_range s_range : Int) (a s : ℚ) :
    machine.Parameters.validate ⟨n, m, q, y_range, s_range, .finite a, .finite s⟩ =
      Parameters.validate ⟨n, m, q, y_range, s_range, a, s⟩ := by
  simp [machine.Parameters.validate, Parameters.validate, machine.Double.le_zero]

theorem machine_validate_ok_iff (P : machine.Parameters) (b : Bool) :
    P.validate = .ok b ↔
      b = true ∧ 0 < P.n ∧ 0 < P.m ∧ 0 < P.q ∧ 0 < P.y_range ∧ 0 < P.s_range ∧
        P.safety_factor.le_zero = false ∧ P.sigma.le_zero = false ∧ is_prime P.q = true := by
  unfold machine.Parameters.validate
  constructor
  · intro h
    split_ifs at h with h1 h2 h3 h4 h5 h6
    simp only [Except.ok.injEq] at h
    simp only [Bool.not_eq_true, Bool.not_eq_true'] at h4 h5 h6
    simp only [Bool.not_eq_false] at h6
    exact ⟨h.symm, by omega, by omega, by omega, by omega, by omega, h4, h5, h6⟩
  · rintro ⟨rfl, hn, hm, hq, hy, hs, ha, hsg, hp⟩
    rw [if_neg (by omega), if_neg (by omega), if_neg (by omega), ha, hsg, hp]
    rfl

theorem machine_validate_error (P : machine.Parameters) (e : Error) (h : P.validate = .error e) :
    ∃ w, e = .invalid_argument w := by
  unfold machine.Parameters.validate at h
  split_ifs at h <;> simp only [Except.error.injEq] at h <;> exact ⟨_, h.symm⟩

theorem machine_ctor_of_valid (n m q y_range s_range : Int) (a s : machine.Double)
    (h : machine.Parameters.validate ⟨n, m, q, y_range, s_range, a, s⟩ = .ok true) :
    machine.Parameters.ctor n m q y_range s_range a s = .ok ⟨n, m, q, y_range, s_range, a, s⟩ := by
  unfold machine.Parameters.ctor
  rw [h]
  rfl

theorem machine_ctor_of_error (n m q y_range s_range : Int) (a s : machine.Double) (e : Error)
    (h : machine.Parameters.validate ⟨n, m, q, y_range, s_range, a, s⟩ = .error e) :
    machine.Parameters.ctor n m q y_range s_range a s = .error e := by
  unfold machine.Parameters.ctor
  rw [h]

/-! ## Rounding to binary64 -/

theorem log_eq_of_bounds (x : ℚ) (e : ℤ) (h1 : (2 : ℚ) ^ e ≤ x) (h2 : x < (2 : ℚ) ^ (e + 1)) :
    Int.log 2 x = e := by
  have hx : 0 < x := lt_of_lt_of_le (zpow_pos (by norm_num) e) h1
  have a : e ≤ Int.log 2 x :=
    (Int.zpow_le_iff_le_log (by norm_num : 1 < 2) hx).mp (by exact_mod_cast h1)
  have b : Int.log 2 x < e + 1 :=
    (Int.lt_zpow_iff_log_lt (by norm_num : 1 < 2) hx).mp (by exact_mod_cast h2)
  omega

theorem ulp_exp_of_bounds (x : ℚ) (e : ℤ) (he : -1022 ≤ e) (h1 : (2 : ℚ) ^ e ≤ |x|)
    (h2 : |x| < (2 : ℚ) ^ (e + 1)) : machine.ulp_exp x = e - 52 := by
  unfold machine.ulp_exp
  rw [log_eq_of_bounds _ e h1 h2, max_eq_left he]

theorem round_half_even_intCast (k : ℤ) : machine.round_half_even (k : ℚ) = k := by
  unfold machine.round_half_even
  simp

theorem round_half_even_up (x : ℚ) (k : ℤ) (h1 : (k : ℚ) - 1 / 2 < x) (h2 : x < k) :
    machine.round_half_even x = k := by
  have hf : ⌊x⌋ = k - 1 := Int.floor_eq_iff.mpr ⟨by push_cast; linarith, by push_cast; linarith⟩
  unfold machine.round_half_even
  rw [hf, if_neg (by push_cast; linarith), if_pos (by push_cast; linarith)]
  ring

theorem round_half_even_tie (x : ℚ) (k : ℤ) (h : x = k + 1 / 2) :
    machine.round_half_even x = if k % 2 = 0 then k else k + 1 := by
  have hf : ⌊x⌋ = k := Int.floor_eq_iff.mpr ⟨by linarith, by linarith⟩
  unfold machine.round_half_even
  rw [hf, if_neg (by linarith), if_neg (by linarith)]

/-- The result of a rounding, from the binary exponent `e` of `x` and the rounded
multiple `r` of the unit in the last place. -/
theorem round_to_double_eq (x : ℚ) (e r : ℤ) (he : -1022 ≤ e) (h1 : (2 : ℚ) ^ e ≤ |x|)
    (h2 : |x| < (2 : ℚ) ^ (e + 1))
    (hr : machine.round_half_even (x / (2 : ℚ) ^ (e - 52)) = r)
    (hfin : |(r : ℚ) * (2 : ℚ) ^ (e - 52)| < (2 : ℚ) ^ (1024 : ℕ)) :
    machine.round_to_double x = .finite ((r : ℚ) * (2 : ℚ) ^ (e - 52)) := by
  unfold machine.round_to_double
  simp only
  rw [ulp_exp_of_bounds x e he h1 h2, hr]
  rw [abs_lt] at hfin
  rw [if_neg (by linarith), if_neg (by linarith)]

theorem round_to_double_zero : machine.round_to_double 0 = .finite 0 := by
  unfold machine.round_to_double
  simp only [zero_div]
  have h : machine.round_half_even 0 = 0 := by
    have := round_half_even_intCast 0
    simpa using this
  rw [h]
  norm_num

/-- A value `r * 2^e` with `|r| < 2^53` and `e` not below the least exponent is a
`double`: rounding returns it. -/
theorem round_to_double_exact (x : ℚ) (r e : ℤ) (hx : x = (r : ℚ) * (2 : ℚ) ^ e)
    (hr : |r| < 2 ^ 53) (he : -1074 ≤ e) (hfin : |x| < (2 : ℚ) ^ (1024 : ℕ)) :
    machine.round_to_double x = .finite x := by
  by_cases h0 : x = 0
  · rw [h0]
    exact round_to_double_zero
  have hpos : 0 < |x| := abs_pos.mpr h0
  have hu : machine.ulp_exp x ≤ e := by
    unfold machine.ulp_exp
    have hlt : |x| < ((2 : ℕ) : ℚ) ^ (e + 53) := by
      rw [hx, abs_mul, abs_of_pos (zpow_pos (by norm_num : (0 : ℚ) < 2) e),
        zpow_add₀ (by norm_num : ((2 : ℕ) : ℚ) ≠ 0), mul_comm]
      push_cast
      apply mul_lt_mul_of_pos_left _ (zpow_pos (by norm_num : (0 : ℚ) < 2) e)
      have : ((|r| : ℤ) : ℚ) < ((2 ^ 53 : ℤ) : ℚ) := by exact_mod_cast hr
      rw [Int.cast_abs] at this
      calc |(r : ℚ)| < ((2 ^ 53 : ℤ) : ℚ) := this
        _ = (2 : ℚ) ^ (53 : ℤ) := by norm_num
    have hl := (Int.lt_zpow_iff_log_lt (by norm_num : 1 < 2) hpos).mp hlt
    rcases max_cases (Int.log 2 |x|) (-1022) with ⟨h, -⟩ | ⟨h, -⟩ <;> rw [h] <;> omega
  unfold machine.round_to_double
  simp only
  generalize machine.ulp_exp x = u at hu
  obtain ⟨n, hn⟩ : ∃ n : ℕ, e - u = n := ⟨(e - u).toNat, by omega⟩
  have he2 : e = u + n := by omega
  have hdiv : x / (2 : ℚ) ^ u = ((r * 2 ^ n : ℤ) : ℚ) := by
    rw [hx, he2, zpow_add₀ (by norm_num : (2 : ℚ) ≠ 0)]
    push_cast
    field_simp
    ring
  have hval : ((machine.round_half_even (x / (2 : ℚ) ^ u) : ℤ) : ℚ) * (2 : ℚ) ^ u = x := by
    rw [hdiv, round_half_even_intCast, ← hdiv]
    field_simp
  rw [hval]
  rw [abs_lt] at hfin
  rw [if_neg (by linarith), if_neg (by linarith)]

theorem round_to_double_int (k : ℤ) (hk : |k| < 2 ^ 53) :
    machine.round_to_double (k : ℚ) = .finite (k : ℚ) := by
  apply round_to_double_exact (k : ℚ) k 0 (by simp) hk (by decide)
  have h1 : ((|k| : ℤ) : ℚ) < ((2 ^ 53 : ℤ) : ℚ) := by exact_mod_cast hk
  rw [Int.cast_abs] at h1
  calc |(k : ℚ)| < ((2 ^ 53 : ℤ) : ℚ) := h1
    _ < (2 : ℚ) ^ (1024 : ℕ) := by norm_num

theorem double_of_int (k : ℤ) (hk : |k| < 2 ^ 53) :
    machine.Double.of_int k = .finite (k : ℚ) :=
  round_to_double_int k hk

theorem double_mul_int (a b : ℤ) (h : |a * b| < 2 ^ 53) :
    machine.Double.mul (.finite (a : ℚ)) (.finite (b : ℚ)) = .finite ((a * b : ℤ) : ℚ) := by
  show machine.round_to_double ((a : ℚ) * (b : ℚ)) = _
  rw [← Int.cast_mul]
  exact round_to_double_int _ h

theorem double_add_int (a b : ℤ) (h : |a + b| < 2 ^ 53) :
    machine.Double.add (.finite (a : ℚ)) (.finite (b : ℚ)) = .finite ((a + b : ℤ) : ℚ) := by
  show machine.round_to_double ((a : ℚ) + (b : ℚ)) = _
  rw [← Int.cast_add]
  exact round_to_double_int _ h

theorem double_sub_int (a b : ℤ) (h : |a - b| < 2 ^ 53) :
    machine.Double.sub (.finite (a : ℚ)) (.finite (b : ℚ)) = .finite ((a - b : ℤ) : ℚ) := by
  show machine.round_to_double ((a : ℚ) + -(b : ℚ)) = _
  rw [← sub_eq_add_neg, ← Int.cast_sub]
  exact round_to_double_int _ h

theorem double_div_three (a : ℤ) (h3 : 3 ∣ a) (h : |a / 3| < 2 ^ 53) :
    machine.Double.div (.finite (a : ℚ)) (.finite 3) = .finite ((a / 3 : ℤ) : ℚ) := by
  show (if (3 : ℚ) = 0 then machine.Double.nan else machine.round_to_double ((a : ℚ) / 3)) = _
  rw [if_neg (by norm_num)]
  have hc : ((a / 3 : ℤ) : ℚ) = (a : ℚ) / 3 := by
    rw [Int.cast_div h3 (by norm_num)]
    norm_num
  rw [← hc]
  exact round_to_double_int _ h

theorem double_to_long_int (k : ℤ) (h0 : 0 ≤ k) (h1 : k < 2 ^ 63) :
    machine.Double.to_long (.finite (k : ℚ)) = some k := by
  unfold machine.Double.to_long
  have hk : (0 : ℚ) ≤ (k : ℚ) := by exact_mod_cast h0
  simp only [if_pos hk, Int.floor_intCast]
  rw [if_pos ⟨by omega, h1⟩]

/-- The expected contributions on exact arguments: no operation rounds. -/
theorem expected_contributions_exact (m y s : ℤ) (hm : 0 < m) (hy : 0 < y) (hs : 0 < s)
    (h3 : 3 ∣ m * (y ^ 2 - 1)) (hb : m * (y ^ 2 + s ^ 2) < 2 ^ 53) :
    machine.calculate_expected_y_contribution m y =
        .finite ((m * (y ^ 2 - 1) / 3 : ℤ) : ℚ) ∧
      machine.calculate_expected_s_contribution m s = .finite ((m * s ^ 2 : ℤ) : ℚ) ∧
      machine.Double.add (machine.calculate_expected_y_contribution m y)
          (machine.calculate_expected_s_contribution m s) =
        .finite ((m * (y ^ 2 - 1) / 3 + m * s ^ 2 : ℤ) : ℚ) ∧
      0 < m * (y ^ 2 - 1) / 3 + m * s ^ 2 ∧
      m * (y ^ 2 - 1) / 3 + m * s ^ 2 ≤ m * (y ^ 2 + s ^ 2) := by
  have hy2 : 1 ≤ y ^ 2 := by nlinarith
  have hs2 : 1 ≤ s ^ 2 := by nlinarith
  have hmy : y ^ 2 ≤ m * y ^ 2 := by nlinarith
  have hms : s ^ 2 ≤ m * s ^ 2 := by nlinarith
  have hmm : m ≤ m * s ^ 2 := by nlinarith
  have hsum : m * (y ^ 2 + s ^ 2) = m * y ^ 2 + m * s ^ 2 := by ring
  have ha0 : 0 ≤ m * (y ^ 2 - 1) := Int.mul_nonneg (le_of_lt hm) (by omega)
  have ha1 : m * (y ^ 2 - 1) ≤ m * y ^ 2 := by nlinarith
  have hd0 : 0 ≤ m * (y ^ 2 - 1) / 3 := Int.ediv_nonneg ha0 (by decide)
  have hd1 : m * (y ^ 2 - 1) / 3 ≤ m * (y ^ 2 - 1) :=
    Int.ediv_le_self _ ha0
  have em : machine.Double.of_int m = .finite (m : ℚ) :=
    double_of_int m (by rw [abs_of_pos hm]; omega)
  have ey : machine.Double.of_int y = .finite (y : ℚ) :=
    double_of_int y (by rw [abs_of_pos hy]; nlinarith)
  have es : machine.Double.of_int s = .finite (s : ℚ) :=
    double_of_int s (by rw [abs_of_pos hs]; nlinarith)
  have e1 : machine.Double.of_int 1 = .finite ((1 : ℤ) : ℚ) := double_of_int 1 (by decide)
  have py : machine.pow_two y = .finite ((y ^ 2 : ℤ) : ℚ) := by
    unfold machine.pow_two
    rw [ey, double_mul_int y y (by rw [abs_of_nonneg (by nlinarith)]; nlinarith), sq]
  have ps : machine.pow_two s = .finite ((s ^ 2 : ℤ) : ℚ) := by
    unfold machine.pow_two
    rw [es, double_mul_int s s (by rw [abs_of_nonneg (by nlinarith)]; nlinarith), sq]
  have hEy : machine.calculate_expected_y_contribution m y =
      .finite ((m * (y ^ 2 - 1) / 3 : ℤ) : ℚ) := by
    unfold machine.calculate_expected_y_contribution
    rw [em, py, e1, double_sub_int _ _ (by rw [abs_of_nonneg (by omega)]; omega),
      double_mul_int _ _ (by rw [abs_of_nonneg ha0]; omega),
      double_div_three _ h3 (by rw [abs_of_nonneg hd0]; omega)]
  have hEs : machine.calculate_expected_s_contribution m s = .finite ((m * s ^ 2 : ℤ) : ℚ) := by
    unfold machine.calculate_expected_s_contribution
    rw [em, ps, double_mul_int _ _ (by rw [abs_of_nonneg (by omega)]; omega)]
  refine ⟨hEy, hEs, ?_, by omega, by omega⟩
  rw [hEy, hEs, double_add_int _ _ (by rw [abs_of_nonneg (by omega)]; omega)]

/-- The product of the safety factor `r / 2^j` and an integer `E`, where `r * E` is
below `2^53`: the product does not round, and its ceiling is a `long`. -/
theorem scaled_ceil_exact (r E : ℤ) (j : ℕ) (hr : 0 < r) (hE : 0 < E) (hj : j ≤ 1074)
    (hb : r * E < 2 ^ 53) :
    machine.Double.to_long (machine.Double.ceil
        (machine.Double.mul (.finite ((r : ℚ) / (2 : ℚ) ^ j)) (.finite (E : ℚ)))) =
      some ⌈(r : ℚ) / (2 : ℚ) ^ j * (E : ℚ)⌉ := by
  have hrE0 : 0 < r * E := Int.mul_pos hr hE
  have hpow : (0 : ℚ) < (2 : ℚ) ^ j := pow_pos (by norm_num) j
  have hx : (r : ℚ) / (2 : ℚ) ^ j * (E : ℚ) = ((r * E : ℤ) : ℚ) * (2 : ℚ) ^ (-(j : ℤ)) := by
    rw [zpow_neg, zpow_natCast]
    push_cast
    field_simp
  have hx0 : (0 : ℚ) < (r : ℚ) / (2 : ℚ) ^ j * (E : ℚ) := by
    apply mul_pos (div_pos (by exact_mod_cast hr) hpow)
    exact_mod_cast hE
  have hx1 : (r : ℚ) / (2 : ℚ) ^ j * (E : ℚ) ≤ ((r * E : ℤ) : ℚ) := by
    have h1 : (1 : ℚ) ≤ (2 : ℚ) ^ j := one_le_pow₀ (by norm_num)
    have h2 : (0 : ℚ) ≤ ((r * E : ℤ) : ℚ) := by exact_mod_cast le_of_lt hrE0
    rw [div_mul_eq_mul_div, div_le_iff₀ hpow]
    push_cast at h2 ⊢
    nlinarith
  have hlt : ((r * E : ℤ) : ℚ) < (2 : ℚ) ^ (1024 : ℕ) := by
    have : ((r * E : ℤ) : ℚ) < ((2 ^ 53 : ℤ) : ℚ) := by exact_mod_cast hb
    calc _ < ((2 ^ 53 : ℤ) : ℚ) := this
      _ < (2 : ℚ) ^ (1024 : ℕ) := by norm_num
  have hmul : machine.Double.mul (.finite ((r : ℚ) / (2 : ℚ) ^ j)) (.finite (E : ℚ)) =
      .finite ((r : ℚ) / (2 : ℚ) ^ j * (E : ℚ)) :=
    round_to_double_exact _ _ (-(j : ℤ)) hx (by rw [abs_of_pos hrE0]; exact hb) (by omega)
      (by rw [abs_of_pos hx0]; exact lt_of_le_of_lt hx1 hlt)
  have hceil0 : 0 ≤ ⌈(r : ℚ) / (2 : ℚ) ^ j * (E : ℚ)⌉ := Int.ceil_nonneg (le_of_lt hx0)
  have hceil1 : ⌈(r : ℚ) / (2 : ℚ) ^ j * (E : ℚ)⌉ ≤ r * E := Int.ceil_le.mpr hx1
  rw [hmul]
  show machine.Double.to_long (.finite ((⌈_⌉ : ℤ) : ℚ)) = _
  rw [double_to_long_int _ hceil0 (by omega)]

/-- On exact arguments the `double` computation of `calculate_norm_bound` returns the
ceiling computed over the rationals. -/
theorem norm_bound_double_exact (m y s r : ℤ) (j : ℕ) (h : machine.exact_arguments m y s r j) :
    machine.calculate_norm_bound m y s (.finite ((r : ℚ) / (2 : ℚ) ^ j)) =
      some (calculate_norm_bound m y s ((r : ℚ) / (2 : ℚ) ^ j)) := by
  obtain ⟨hm, -, hy, -, hs, -, hr, hj, h3, hb⟩ := h
  have hT : 0 ≤ m * (y ^ 2 + s ^ 2) := Int.mul_nonneg (le_of_lt hm) (by nlinarith)
  have hbT : m * (y ^ 2 + s ^ 2) < 2 ^ 53 := by nlinarith
  obtain ⟨-, -, hsum, hE0, hE1⟩ := expected_contributions_exact m y s hm hy hs h3 hbT
  have hrE : r * (m * (y ^ 2 - 1) / 3 + m * s ^ 2) < 2 ^ 53 := by nlinarith
  have hcast : ((m * (y ^ 2 - 1) / 3 + m * s ^ 2 : ℤ) : ℚ) =
      (m : ℚ) * ((y : ℚ) ^ 2 - 1) / 3 + (m : ℚ) * (s : ℚ) ^ 2 := by
    rw [Int.cast_add, Int.cast_div h3 (by norm_num)]
    push_cast
    ring
  unfold machine.calculate_norm_bound
  simp only
  rw [hsum, scaled_ceil_exact r _ j hr hE0 hj hrE, hcast]
  rfl

/-- The rounding of a positive value, from its binary exponent `e` and the rounded
multiple `r` of the unit in the last place. -/
theorem round_to_double_val (x v : ℚ) (e r : ℤ) (he : -1022 ≤ e) (h1 : (2 : ℚ) ^ e ≤ x)
    (h2 : x < (2 : ℚ) ^ (e + 1)) (hr : machine.round_half_even (x / (2 : ℚ) ^ (e - 52)) = r)
    (hv : v = (r : ℚ) * (2 : ℚ) ^ (e - 52)) (hv0 : 0 ≤ v) (hfin : v < (2 : ℚ) ^ (1024 : ℕ)) :
    machine.round_to_double x = .finite v := by
  have hx : 0 < x := lt_of_lt_of_le (zpow_pos (by norm_num) e) h1
  rw [hv]
  apply round_to_double_eq x e r he (by rw [abs_of_pos hx]; exact h1)
    (by rw [abs_of_pos hx]; exact h2) hr
  rw [← hv, abs_of_nonneg hv0]
  exact hfin

/-- The rounding of a value that is a `double`. -/
theorem round_to_double_exact_val (x v : ℚ) (r e : ℤ) (hx : x = (r : ℚ) * (2 : ℚ) ^ e)
    (hv : v = x) (hr : |r| < 2 ^ 53) (he : -1074 ≤ e) (hfin : |x| < (2 : ℚ) ^ (1024 : ℕ)) :
    machine.round_to_double x = .finite v := by
  rw [hv]
  exact round_to_double_exact x r e hx hr he hfin

theorem double_to_long_val (x : ℚ) (k : ℤ) (hx : x = k) (h0 : 0 ≤ k) (h1 : k < 2 ^ 63) :
    machine.Double.to_long (.finite x) = some k := by
  rw [hx]
  exact double_to_long_int k h0 h1

/-- The computation of `calculate_norm_bound(5, 3, 1, 3.0)`: the quotient `40 / 3.0`
rounds up, the sum with `5` is a tie that rounds to even, and the product with `3.0` is
`55 + 2^-47`. -/
theorem norm_bound_double_5_3_1 :
    machine.calculate_norm_bound 5 3 1 (.finite 3) = some 56 := by
  have i5 : machine.Double.of_int 5 = .finite 5 :=
    round_to_double_exact_val _ _ 5 0 (by norm_num) (by norm_num) (by decide) (by decide)
      (by norm_num [abs_of_pos])
  have i3 : machine.Double.of_int 3 = .finite 3 :=
    round_to_double_exact_val _ _ 3 0 (by norm_num) (by norm_num) (by decide) (by decide)
      (by norm_num [abs_of_pos])
  have i1 : machine.Double.of_int 1 = .finite 1 :=
    round_to_double_exact_val _ _ 1 0 (by norm_num) (by norm_num) (by decide) (by decide)
      (by norm_num [abs_of_pos])
  have p3 : machine.pow_two 3 = .finite 9 := by
    unfold machine.pow_two
    rw [i3]
    exact round_to_double_exact_val _ _ 9 0 (by norm_num) (by norm_num) (by decide) (by decide)
      (by norm_num [abs_of_pos])
  have p1 : machine.pow_two 1 = .finite 1 := by
    unfold machine.pow_two
    rw [i1]
    exact round_to_double_exact_val _ _ 1 0 (by norm_num) (by norm_num) (by decide) (by decide)
      (by norm_num [abs_of_pos])
  have s8 : machine.Double.sub (.finite 9) (.finite 1) = .finite 8 :=
    round_to_double_exact_val _ _ 8 0 (by norm_num) (by norm_num) (by decide) (by decide)
      (by norm_num [abs_of_pos])
  have m40 : machine.Double.mul (.finite 5) (.finite 8) = .finite 40 :=
    round_to_double_exact_val _ _ 40 0 (by norm_num) (by norm_num) (by decide) (by decide)
      (by norm_num [abs_of_pos])
  have d : machine.Double.div (.finite 40) (.finite 3) =
      .finite (7505999378950827 / 562949953421312) := by
    show (if (3 : ℚ) = 0 then machine.Double.nan else machine.round_to_double (40 / 3)) = _
    rw [if_neg (by norm_num)]
    exact round_to_double_val _ _ 3 7505999378950827 (by decide) (by norm_num) (by norm_num)
      (round_half_even_up _ _ (by norm_num) (by norm_num)) (by norm_num) (by norm_num)
      (by norm_num)
  have m5 : machine.Double.mul (.finite 5) (.finite 1) = .finite 5 :=
    round_to_double_exact_val _ _ 5 0 (by norm_num) (by norm_num) (by decide) (by decide)
      (by norm_num [abs_of_pos])
  have a : machine.Double.add (.finite (7505999378950827 / 562949953421312)) (.finite 5) =
      .finite (5160374573028694 / 281474976710656) := by
    refine round_to_double_val _ _ 4 5160374573028694 (by decide) (by norm_num) (by norm_num)
      ?_ (by norm_num) (by norm_num) (by norm_num)
    rw [round_half_even_tie _ 5160374573028693 (by norm_num)]
    decide
  have m : machine.Double.mul (.finite 3) (.finite (5160374573028694 / 281474976710656)) =
      .finite (7740561859543041 / 140737488355328) :=
    round_to_double_exact_val _ _ 7740561859543041 (-47) (by norm_num) (by norm_num)
      (by decide) (by decide) (by norm_num [abs_of_pos])
  have c : machine.Double.ceil (.finite (7740561859543041 / 140737488355328)) = .finite 56 := by
    show machine.Double.finite ((⌈(7740561859543041 / 140737488355328 : ℚ)⌉ : ℤ) : ℚ) = _
    have h : ⌈(7740561859543041 / 140737488355328 : ℚ)⌉ = 56 := by
      rw [Int.ceil_eq_iff]
      norm_num
    rw [h]
    norm_num
  unfold machine.calculate_norm_bound machine.calculate_expected_y_contribution
    machine.calculate_expected_s_contribution
  simp only
  rw [i5, p3, p1, i1, s8, m40, d, m5, a, m, c]
  exact double_to_long_val _ 56 (by norm_num) (by decide) (by decide)

/-- On the presets' norm arguments `(m, 10, 1, 10.0)` with `m` an `int`, the `double`
computation returns `340 * m`, the value over the rationals. -/
theorem norm_bound_double_preset (m : ℤ) (hm : 0 < m) (hm1 : m < 2 ^ 31) :
    machine.calculate_norm_bound m 10 1 (.finite 10) = some (340 * m) := by
  have h := norm_bound_double_exact m 10 1 10 0
    ⟨hm, hm1, by decide, by decide, by decide, by decide, by decide, by decide,
      Dvd.intro_left (m * 33) (by ring), by omega⟩
  have e : ((10 : ℤ) : ℚ) / (2 : ℚ) ^ 0 = 10 := by norm_num
  rw [e, norm_bound_preset] at h
  exact h

/-- The sizes of the `high_security` preset under the machine integers. -/
theorem machine_proof_size_high (u challenge z : List Int) :
    machine.calculate_proof_size P_high u challenge z = some ⟨16384, 1024, 16384, 33792⟩ := by
  have hb : NumBits P_high.q = 32 := by
    rw [NumBits_of_pos _ (by decide)]
    have : Nat.log 2 P_high.q.toNat = 31 :=
      Nat.log_eq_of_pow_le_of_lt_pow (by decide) (by decide)
    rw [this]
    rfl
  have hn : P_high.n = 512 := rfl
  have hm : P_high.m = 512 := rfl
  rw [machine_proof_size_eq P_high (by decide) (by decide) (by rw [hb, hn]; decide)
    (by rw [hb, hm]; decide) (by decide) (by rw [hb, hn, hm]; decide)]
  unfold calculate_proof_size
  rw [hb]
  rfl

/-! ## The claims -/

/-- C2: over the parameters `(n, m, 97, 10, 1, 10.0)` with `m > 0` (every session has
`n > 0`), for any session (any `A`, any ternary `s`), any number of successive rounds,
any state of the random source at each `commit` and any ternary challenge of length `m`
in each round, every round `commit`, `respond`, `verify` on the session returns true. -/
theorem preset_rounds_verify (n m : Int) (sigma : ℚ) (hm : 0 < m)
    (S : LatticeProof) (hS : S.Inv) (hP : S.params_ = ⟨n, m, 97, 10, 1, 10, sigma⟩)
    (gcs : List (RandomStream × List Int))
    (hcs : ∀ gc ∈ gcs, (gc.2.length : Int) = m ∧ Ternary gc.2) :
    rounds S gcs = gcs.map (fun _ => .ok true) := by
  apply rounds_accept ⟨n, m, 97, 10, 1, 10, sigma⟩ (show (0 : Int) < 97 by decide)
    (le_of_lt hm) (show (0 : Int) ≤ 10 by decide) _ gcs hcs S hS hP
  show m * ((10 + 1) * (10 + 1)) ≤ calculate_norm_bound m 10 1 10
  rw [norm_bound_preset]
  omega

theorem preset_rounds_verify_witness :
    rounds S_default [(zeroStream, [1, 1, 1, 1]), (⟨fun i => 3 * i + 20⟩, [-1, -1, -1, -1]),
        (⟨fun i => i⟩, [0, 1, -1, 0])] =
      [.ok true, .ok true, .ok true] :=
  preset_rounds_verify 4 4 (3 / 2) (by decide) S_default S_default_inv rfl
    [(zeroStream, [1, 1, 1, 1]), (⟨fun i => 3 * i + 20⟩, [-1, -1, -1, -1]),
      (⟨fun i => i⟩, [0, 1, -1, 0])] (by simp [Ternary])

/-- C3: under the `high_security` preset every honest round verifies: for any `A`,
any ternary `s`, any `y` that `commit` samples and any ternary challenge `c` of length
512, `commit` returns `u`, `respond(c)` returns `z` and `verify(u, c, z)` returns true. -/
theorem high_security_round_verifies (S : LatticeProof) (hS : S.Inv)
    (hP : S.params_ = ⟨512, 512, 4294967291, 10, 1, 10, 3 / 2⟩) (g : RandomStream)
    (challenge : List Int) (hc : challenge.length = 512) (hct : Ternary challenge) :
    ∃ u z, (S.commit g).1 = .ok u ∧ Within 10 (S.commit g).2.1.y_ ∧
      ((S.commit g).2.1.respond challenge).1 = .ok z ∧
      (S.commit g).2.1.verify u challenge z = .ok true := by
  have hq : 0 < S.params_.q := by rw [hP]; decide
  have hm : 0 ≤ S.params_.m := by rw [hP]; decide
  have hY : 0 ≤ S.params_.y_range := by rw [hP]; decide
  have hB : S.params_.m * ((S.params_.y_range + 1) * (S.params_.y_range + 1)) ≤
      calculate_norm_bound S.params_.m S.params_.y_range S.params_.s_range
        S.params_.safety_factor := by
    rw [hP]
    show (512 : Int) * ((10 + 1) * (10 + 1)) ≤ calculate_norm_bound 512 10 1 10
    rw [norm_bound_preset]
    decide
  have hc1 : (challenge.length : Int) = S.params_.m := by rw [hP, hc]; rfl
  obtain ⟨u, z, hu, hz, hv⟩ := honest_round_accept S hS hq hm hY hB g challenge hc1 hct
  have hw : Within S.params_.y_range (S.commit g).2.1.y_ :=
    sample_uniform_within S.params_.m S.params_.y_range hY g
  have h10 : S.params_.y_range = 10 := by rw [hP]
  rw [h10] at hw
  exact ⟨u, z, hu, hw, hz, hv⟩

theorem high_security_round_verifies_witness :
    ∃ u z, (S_high.commit zeroStream).1 = .ok u ∧
      Within 10 (S_high.commit zeroStream).2.1.y_ ∧
      ((S_high.commit zeroStream).2.1.respond (List.replicate 512 1)).1 = .ok z ∧
      (S_high.commit zeroStream).2.1.verify u (List.replicate 512 1) z = .ok true :=
  high_security_round_verifies S_high S_high_inv rfl zeroStream (List.replicate 512 1)
    (List.length_replicate 512 1)
    (fun _ hx => Or.inr (Or.inr (List.eq_of_mem_replicate hx)))

/-- C4: in the Committed state (`y_` of length `m`), for a challenge `c` of length `m`
with any integer entries, `respond(c)` returns a vector `z` of length `m`, and for every
`i < m` the entry `z_i` lies in `[0, q)` and is the residue of `y_i + c_i * s_i`
modulo `q`. -/
theorem respond_canonical (S : LatticeProof) (hS : S.Inv) (hq : 0 < S.params_.q)
    (hy : (S.y_.length : Int) = S.params_.m) (challenge : List Int)
    (hc : (challenge.length : Int) = S.params_.m) :
    ∃ z, (S.respond challenge).1 = .ok z ∧ (z.length : Int) = S.params_.m ∧
      ∀ i : Nat, (i : Int) < S.params_.m →
        0 ≤ entry z i ∧ entry z i < S.params_.q ∧
        entry z i = (entry S.y_ i + entry challenge i * entry S.s_ i) % S.params_.q ∧
        (entry z i - (entry S.y_ i + entry challenge i * entry S.s_ i)) % S.params_.q = 0 := by
  refine ⟨_, congrArg Prod.fst (respond_ok S challenge hq hc hy hS.s_len), ?_, ?_⟩
  · rw [List.length_map, List.length_range, ← hc]; simp
  · intro i hi
    have hi1 : i < S.params_.m.toNat := by omega
    rw [entry_map_range _ _ _ hi1]
    refine ⟨Int.emod_nonneg _ (ne_of_gt hq), Int.emod_lt_of_pos _ hq, rfl, ?_⟩
    rw [Int.sub_emod, Int.emod_emod, Int.sub_self, Int.zero_emod]

theorem respond_canonical_witness :
    ∃ z, ((S_default.commit zeroStream).2.1.respond [1, -1, 5, -7]).1 = .ok z ∧
      (z.length : Int) = 4 ∧
      ∀ i : Nat, (i : Int) < 4 →
        0 ≤ entry z i ∧ entry z i < 97 ∧
        entry z i = (entry (S_default.commit zeroStream).2.1.y_ i +
          entry [1, -1, 5, -7] i * entry S_default.s_ i) % 97 ∧
        (entry z i - (entry (S_default.commit zeroStream).2.1.y_ i +
          entry [1, -1, 5, -7] i * entry S_default.s_ i)) % 97 = 0 :=
  respond_canonical (S_default.commit zeroStream).2.1 (commit_inv _ S_default_inv _)
    (by decide) rfl [1, -1, 5, -7] rfl

/-- C5: `commit()` overwrites the stored `y` by the sampled vector, of length `m` with
all entries in `[-y_range, y_range]` whatever the random source draws, leaves `A`, `s`,
`t` and the parameters alone, and returns `u` of length `n` with `u_i` the canonical
residue modulo `q` of `sum_j A[i][j] * y_j` for the new `y`. -/
theorem commit_spec (S : LatticeProof) (hS : S.Inv) (hP : S.params_.validate = .ok true)
    (g : RandomStream) :
    (S.commit g).2.1.y_ = (sample_uniform S.params_.m S.params_.y_range g).1 ∧
      (((S.commit g).2.1.y_).length : Int) = S.params_.m ∧
      Within S.params_.y_range (S.commit g).2.1.y_ ∧
      (S.commit g).2.1.params_ = S.params_ ∧ (S.commit g).2.1.A_ = S.A_ ∧
      (S.commit g).2.1.s_ = S.s_ ∧ (S.commit g).2.1.t_ = S.t_ ∧
      ∃ u, (S.commit g).1 = .ok u ∧ (u.length : Int) = S.params_.n ∧
        ∀ i : Nat, (i : Int) < S.params_.n →
          0 ≤ entry u i ∧ entry u i < S.params_.q ∧
          entry u i =
            row_dot S.A_ (S.commit g).2.1.y_ S.params_.m.toNat i % S.params_.q := by
  obtain ⟨-, -, hm, hq, hY, -⟩ := (validate_ok_iff _ _).mp hP
  have hc := commit_committed S (le_of_lt hm) (le_of_lt hY) g
  refine ⟨rfl, hc.1, hc.2, rfl, rfl, rfl, rfl, _, commit_ok S hS (le_of_lt hm) g, ?_, ?_⟩
  · rw [List.length_map]; exact hS.A_rows
  · intro i hi
    have hi1 : i < S.A_.length := by have := hS.A_rows; omega
    rw [entry_matvec _ hq _ _ _ _ hi1 (length_eq_toNat _ (hS.getD_length i hi1))]
    exact ⟨Int.emod_nonneg _ (ne_of_gt hq), Int.emod_lt_of_pos _ hq, rfl⟩

theorem commit_spec_witness :
    (S_default.commit zeroStream).2.1.y_ =
        (sample_uniform S_default.params_.m S_default.params_.y_range zeroStream).1 ∧
      (((S_default.commit zeroStream).2.1.y_).length : Int) = S_default.params_.m ∧
      Within S_default.params_.y_range (S_default.commit zeroStream).2.1.y_ ∧
      (S_default.commit zeroStream).2.1.params_ = S_default.params_ ∧
      (S_default.commit zeroStream).2.1.A_ = S_default.A_ ∧
      (S_default.commit zeroStream).2.1.s_ = S_default.s_ ∧
      (S_default.commit zeroStream).2.1.t_ = S_default.t_ ∧
      ∃ u, (S_default.commit zeroStream).1 = .ok u ∧ (u.length : Int) = S_default.params_.n ∧
        ∀ i : Nat, (i : Int) < S_default.params_.n →
          0 ≤ entry u i ∧ entry u i < S_default.params_.q ∧
          entry u i = row_dot S_default.A_ (S_default.commit zeroStream).2.1.y_
            S_default.params_.m.toNat i % S_default.params_.q :=
  commit_spec S_default S_default_inv
    (by norm_num [Parameters.validate, S_default, P_default, is_prime_97]) zeroStream

/-- C6: over valid parameters the constructor returns a session, and in every state
reachable from it by `commit` and `respond` calls `A` is `n x m`, `s` is ternary of
length `m`, `t` has length `n` with `t_i` the residue of `sum_j A[i][j] * s_j` modulo
`q`; `commit` and `respond` leave `A`, `s` and `t` as they are. -/
theorem session_invariant (P : Parameters) (hP : P.validate = .ok true) :
    (∀ g, ∃ S g1, LatticeProof.ctor P g = .ok (S, g1)) ∧
    ∀ S, Reachable P S →
      S.params_ = P ∧ (S.A_.length : Int) = P.n ∧ (∀ row ∈ S.A_, (row.length : Int) = P.m) ∧
      (S.s_.length : Int) = P.m ∧ Ternary S.s_ ∧ (S.t_.length : Int) = P.n ∧
      (∀ i : Nat, (i : Int) < P.n →
        entry S.t_ i = row_dot S.A_ S.s_ P.m.toNat i % P.q ∧
        (entry S.t_ i - row_dot S.A_ S.s_ P.m.toNat i) % P.q = 0) ∧
      (∀ g, (S.commit g).2.1.A_ = S.A_ ∧ (S.commit g).2.1.s_ = S.s_ ∧
        (S.commit g).2.1.t_ = S.t_) ∧
      (∀ c, (S.respond c).2.A_ = S.A_ ∧ (S.respond c).2.s_ = S.s_ ∧
        (S.respond c).2.t_ = S.t_) := by
  obtain ⟨-, hn, hm, hq, -⟩ := (validate_ok_iff _ _).mp hP
  constructor
  · intro g
    obtain ⟨S, g1, h, -⟩ := ctor_ok P (le_of_lt hn) (le_of_lt hm) hq g
    exact ⟨S, g1, h⟩
  · intro S hS
    obtain ⟨hinv, hp⟩ := reachable_inv P (le_of_lt hn) (le_of_lt hm) hq S hS
    subst hp
    have ht := inv_t_entries S hinv hq
    refine ⟨rfl, hinv.A_rows, hinv.A_cols, hinv.s_len, hinv.s_ternary, ht.1, ?_,
      fun g => ⟨rfl, rfl, rfl⟩, fun c => by rw [respond_frame]; exact ⟨rfl, rfl, rfl⟩⟩
    intro i hi
    refine ⟨ht.2 i hi, ?_⟩
    rw [ht.2 i hi, Int.sub_emod, Int.emod_emod, Int.sub_self, Int.zero_emod]

theorem session_invariant_witness :
    (∀ g, ∃ S g1, LatticeProof.ctor P_default g = .ok (S, g1)) ∧
    ∀ S, Reachable P_default S →
      S.params_ = P_default ∧ (S.A_.length : Int) = P_default.n ∧
      (∀ row ∈ S.A_, (row.length : Int) = P_default.m) ∧
      (S.s_.length : Int) = P_default.m ∧ Ternary S.s_ ∧ (S.t_.length : Int) = P_default.n ∧
      (∀ i : Nat, (i : Int) < P_default.n →
        entry S.t_ i = row_dot S.A_ S.s_ P_default.m.toNat i % P_default.q ∧
        (entry S.t_ i - row_dot S.A_ S.s_ P_default.m.toNat i) % P_default.q = 0) ∧
      (∀ g, (S.commit g).2.1.A_ = S.A_ ∧ (S.commit g).2.1.s_ = S.s_ ∧
        (S.commit g).2.1.t_ = S.t_) ∧
      (∀ c, (S.respond c).2.A_ = S.A_ ∧ (S.respond c).2.s_ = S.s_ ∧
        (S.respond c).2.t_ = S.t_) :=
  session_invariant P_default (by norm_num [Parameters.validate, P_default, is_prime_97])

/-- C7: `respond(c)` raises an error exactly when the length of `c` differs from `m`;
the error is the invalid-argument "Challenge vector has wrong dimension", and the
session is then left unchanged. -/
theorem respond_dimension_error (S : LatticeProof) (challenge : List Int) :
    ((∃ w, (S.respond challenge).1 = .error (.invalid_argument w)) ↔
        (challenge.length : Int) ≠ S.params_.m) ∧
      ((challenge.length : Int) ≠ S.params_.m →
        (S.respond challenge).1 =
          .error (.invalid_argument "Challenge vector has wrong dimension") ∧
        (S.respond challenge).2 = S) := by
  constructor
  · constructor
    · rintro ⟨w, hw⟩
      rcases respond_error_cases S challenge _ hw with h | h
      · exact h.1
      · cases h.2
    · intro hc
      exact ⟨_, congrArg Prod.fst (respond_wrong_length S challenge hc)⟩
  · intro hc
    rw [respond_wrong_length S challenge hc]
    exact ⟨rfl, rfl⟩

theorem respond_dimension_error_witness :
    ((S_default.commit zeroStream).2.1.respond [1, 0, -1, 0, 1]).1 =
        .error (.invalid_argument "Challenge vector has wrong dimension") ∧
      ((S_default.commit zeroStream).2.1.respond [1, 0, -1, 0, 1]).2 =
        (S_default.commit zeroStream).2.1 :=
  (respond_dimension_error (S_default.commit zeroStream).2.1 [1, 0, -1, 0, 1]).2 (by decide)

/-- C9: the code makes no order check.  For parameters with `m > 0` the session the
constructor builds is Fresh (`y_` is empty), and `respond` on it with `|c| = m` passes
the one check the function makes, raises no `ProtocolOrder` (invalid-argument) error,
and reads `y_[0]` of the empty vector: an access outside the vector, `out_of_range`
here. -/
theorem respond_fresh_unchecked_read (P : Parameters) (hn : 0 ≤ P.n) (hm : 0 < P.m)
    (hq : 0 < P.q) (g : RandomStream) (challenge : List Int)
    (hc : (challenge.length : Int) = P.m) :
    ∃ S g1, LatticeProof.ctor P g = .ok (S, g1) ∧ S.Fresh ∧
      (S.respond challenge).1 = .error .out_of_range ∧
      ¬ ∃ w, (S.respond challenge).1 = .error (.invalid_argument w) := by
  obtain ⟨S, g1, hctor, -, hp, hy⟩ := ctor_ok P hn (le_of_lt hm) hq g
  have hr := respond_fresh_error S hy challenge (by rw [hp]; exact hc) (by rw [hp]; exact hm)
  refine ⟨S, g1, hctor, hy, hr, ?_⟩
  rintro ⟨w, hw⟩
  rw [hr] at hw
  cases hw

theorem respond_fresh_unchecked_read_witness :
    ∃ S g1, LatticeProof.ctor P_default zeroStream = .ok (S, g1) ∧ S.Fresh ∧
      (S.respond [1, 0, -1, 1]).1 = .error .out_of_range ∧
      ¬ ∃ w, (S.respond [1, 0, -1, 1]).1 = .error (.invalid_argument w) :=
  respond_fresh_unchecked_read P_default (by decide) (by decide) (by decide) zeroStream
    [1, 0, -1, 1] rfl

/-- C10: the constructor tests `safety_factor_ <= 0` and `sigma_ <= 0`, and both tests
are false for a NaN: `Parameters(4, 4, 97, 10, 1, NaN, 1.5)` constructs although
`safety_factor > 0` does not hold.  The constructor succeeds exactly when `n > 0`,
`m > 0`, `q > 0`, `q` is prime, `y_range > 0`, `s_range > 0` and neither
`safety_factor <= 0` nor `sigma <= 0` holds, and it raises an invalid-argument error
otherwise; for a value other than NaN, `x <= 0` is false exactly when `x > 0`.  `n = 0`
with `q = 97` and `q = 100` with `n = m = 4` both raise. -/
theorem parameters_ctor_nan :
    machine.Parameters.ctor 4 4 97 10 1 .nan (.finite (3 / 2)) =
        .ok ⟨4, 4, 97, 10, 1, .nan, .finite (3 / 2)⟩ ∧
      machine.Double.gt_zero .nan = false ∧
      (∀ (n m q y_range s_range : Int) (safety_factor sigma : machine.Double),
        (machine.Parameters.ctor n m q y_range s_range safety_factor sigma =
            .ok ⟨n, m, q, y_range, s_range, safety_factor, sigma⟩ ↔
          (0 < n ∧ 0 < m ∧ 0 < q ∧ Nat.Prime q.toNat ∧ 0 < y_range ∧ 0 < s_range ∧
            safety_factor.le_zero = false ∧ sigma.le_zero = false)) ∧
        ((∃ P, machine.Parameters.ctor n m q y_range s_range safety_factor sigma = .ok P) ∨
          ∃ w, machine.Parameters.ctor n m q y_range s_range safety_factor sigma =
            .error (.invalid_argument w)) ∧
        (∀ P, machine.Parameters.ctor n m q y_range s_range safety_factor sigma = .ok P →
          P = ⟨n, m, q, y_range, s_range, safety_factor, sigma⟩)) ∧
      (∀ x : ℚ, (machine.Double.finite x).le_zero = false ↔
        (machine.Double.finite x).gt_zero = true) ∧
      (machine.Double.pos_inf.le_zero = false ∧ machine.Double.pos_inf.gt_zero = true) ∧
      (machine.Double.neg_inf.le_zero = true ∧ machine.Double.neg_inf.gt_zero = false) ∧
      machine.Parameters.ctor 0 4 97 10 1 (.finite 10) (.finite (3 / 2)) =
        .error (.invalid_argument "Dimensions must be positive") ∧
      machine.Parameters.ctor 4 4 100 10 1 (.finite 10) (.finite (3 / 2)) =
        .error (.invalid_argument "Modulus must be prime") := by
  refine ⟨?_, rfl, ?_, ?_, ⟨rfl, rfl⟩, ⟨rfl, rfl⟩, ?_, ?_⟩
  · apply machine_ctor_of_valid
    rw [machine_validate_ok_iff]
    exact ⟨rfl, by decide, by decide, by decide, by decide, by decide, rfl,
      by simp [machine.Double.le_zero], is_prime_97⟩
  · intro n m q y_range s_range safety_factor sigma
    refine ⟨?_, ?_, ?_⟩
    · constructor
      · intro h
        cases hv : machine.Parameters.validate
            ⟨n, m, q, y_range, s_range, safety_factor, sigma⟩ with
        | error e =>
          rw [machine_ctor_of_error _ _ _ _ _ _ _ e hv] at h
          cases h
        | ok b =>
          obtain ⟨-, hn, hm, hq, hy, hs, ha, hsg, hp⟩ := (machine_validate_ok_iff _ b).mp hv
          exact ⟨hn, hm, hq, (is_prime_iff q).mp hp, hy, hs, ha, hsg⟩
      · rintro ⟨hn, hm, hq, hp, hy, hs, ha, hsg⟩
        apply machine_ctor_of_valid
        rw [machine_validate_ok_iff]
        exact ⟨rfl, hn, hm, hq, hy, hs, ha, hsg, (is_prime_iff q).mpr hp⟩
    · cases hv : machine.Parameters.validate
          ⟨n, m, q, y_range, s_range, safety_factor, sigma⟩ with
      | error e =>
        right
        obtain ⟨w, rfl⟩ := machine_validate_error _ e hv
        exact ⟨w, machine_ctor_of_error _ _ _ _ _ _ _ _ hv⟩
      | ok b =>
        left
        obtain ⟨rfl, -⟩ := (machine_validate_ok_iff _ b).mp hv
        exact ⟨_, machine_ctor_of_valid _ _ _ _ _ _ _ hv⟩
    · intro P hPo
      cases hv : machine.Parameters.validate
          ⟨n, m, q, y_range, s_range, safety_factor, sigma⟩ with
      | error e =>
        rw [machine_ctor_of_error _ _ _ _ _ _ _ e hv] at hPo
        cases hPo
      | ok b =>
        obtain ⟨rfl, -⟩ := (machine_validate_ok_iff _ b).mp hv
        rw [machine_ctor_of_valid _ _ _ _ _ _ _ hv] at hPo
        simp only [Except.ok.injEq] at hPo
        exact hPo.symm
  · intro x
    simp [machine.Double.le_zero, machine.Double.gt_zero]
  · apply machine_ctor_of_error
    rfl
  · apply machine_ctor_of_error
    have h100 : is_prime 100 = false := by
      unfold is_prime
      decide
    norm_num [machine.Parameters.validate, machine.Double.le_zero, h100]

/-- C11: both presets construct without error and carry the documented values, and
`is_prime(97)` and `is_prime(4294967291)` return true. -/
theorem presets_construct :
    Parameters.DefaultParams = .ok ⟨4, 4, 97, 10, 1, 10, 3 / 2⟩ ∧
      Parameters.HighSecurityParams = .ok ⟨512, 512, 4294967291, 10, 1, 10, 3 / 2⟩ ∧
      is_prime 97 = true ∧ is_prime 4294967291 = true :=
  ⟨ctor_of_valid 4 4 97 10 1 10 (3 / 2) P_default_valid,
    ctor_of_valid 512 512 4294967291 10 1 10 (3 / 2) P_high_valid,
    is_prime_97, is_prime_4294967291⟩

/-- C12, as stated, fails: the code computes in `double`, and
`calculate_norm_bound(5, 3, 1, 3.0)` returns `56` (the quotient `40 / 3.0` and the sum
with `5` round, and the product with `3.0` is `55 + 2^-47`), while the ceiling of
`3 * (5 * (3^2 - 1) / 3 + 5 * 1^2) = 55` is `55`. -/
theorem norm_bound_rounding_counterexample :
    machine.calculate_norm_bound 5 3 1 (.finite 3) = some 56 ∧
      ⌈(3 : ℚ) * ((5 : ℚ) * ((3 : ℚ) ^ 2 - 1) / 3 + (5 : ℚ) * (1 : ℚ) ^ 2)⌉ = 55 ∧
      calculate_norm_bound 5 3 1 3 = 55 := by
  refine ⟨norm_bound_double_5_3_1, ?_, ?_⟩
  · rw [Int.ceil_eq_iff]
    norm_num
  · apply norm_bound_value <;> norm_num [norm_bound_arg]

/-- C12 (amended): for positive `int` arguments `m`, `y_range`, `s_range` and a safety
factor `alpha = r / 2^j` such that `3` divides `m * (y_range^2 - 1)` and
`r * m * (y_range^2 + s_range^2) < 2^53`, no operation of the `double` computation
rounds and `calculate_norm_bound(m, y_range, s_range, alpha)` returns the ceiling of
`alpha * (m * (y_range^2 - 1) / 3 + m * s_range^2)`, the least integer not below it; in
particular `calculate_norm_bound(4, 10, 1, 10.0) = 1360`. -/
theorem norm_bound_formula_exact (m y_range s_range r : Int) (j : Nat)
    (h : machine.exact_arguments m y_range s_range r j) :
    machine.calculate_norm_bound m y_range s_range (.finite ((r : ℚ) / (2 : ℚ) ^ j)) =
        some ⌈(r : ℚ) / (2 : ℚ) ^ j *
          ((m : ℚ) * ((y_range : ℚ) ^ 2 - 1) / 3 + (m : ℚ) * (s_range : ℚ) ^ 2)⌉ ∧
      (∀ B : Int,
        machine.calculate_norm_bound m y_range s_range (.finite ((r : ℚ) / (2 : ℚ) ^ j)) =
            some B →
          (r : ℚ) / (2 : ℚ) ^ j *
              ((m : ℚ) * ((y_range : ℚ) ^ 2 - 1) / 3 + (m : ℚ) * (s_range : ℚ) ^ 2) ≤ (B : ℚ) ∧
            ∀ B1 : Int,
              (r : ℚ) / (2 : ℚ) ^ j *
                  ((m : ℚ) * ((y_range : ℚ) ^ 2 - 1) / 3 + (m : ℚ) * (s_range : ℚ) ^ 2) ≤
                (B1 : ℚ) →
              B ≤ B1) ∧
      machine.calculate_norm_bound 4 10 1 (.finite 10) = some 1360 := by
  have hb := norm_bound_double_exact m y_range s_range r j h
  refine ⟨hb, ?_, ?_⟩
  · intro B hB
    rw [hb] at hB
    have hB1 : calculate_norm_bound m y_range s_range ((r : ℚ) / (2 : ℚ) ^ j) = B :=
      Option.some.inj hB
    rw [← hB1]
    exact ⟨Int.le_ceil _, fun B1 h1 => Int.ceil_le.mpr h1⟩
  · exact norm_bound_double_preset 4 (by decide) (by decide)

theorem norm_bound_formula_exact_witness :
    machine.calculate_norm_bound 4 10 1 (.finite (((3 : Int) : ℚ) / (2 : ℚ) ^ 1)) =
        some ⌈((3 : Int) : ℚ) / (2 : ℚ) ^ 1 *
          (((4 : Int) : ℚ) * ((((10 : Int) : ℚ)) ^ 2 - 1) / 3 +
            ((4 : Int) : ℚ) * (((1 : Int) : ℚ)) ^ 2)⌉ ∧
      (∀ B : Int,
        machine.calculate_norm_bound 4 10 1 (.finite (((3 : Int) : ℚ) / (2 : ℚ) ^ 1)) =
            some B →
          ((3 : Int) : ℚ) / (2 : ℚ) ^ 1 *
              (((4 : Int) : ℚ) * ((((10 : Int) : ℚ)) ^ 2 - 1) / 3 +
                ((4 : Int) : ℚ) * (((1 : Int) : ℚ)) ^ 2) ≤ (B : ℚ) ∧
            ∀ B1 : Int,
              ((3 : Int) : ℚ) / (2 : ℚ) ^ 1 *
                  (((4 : Int) : ℚ) * ((((10 : Int) : ℚ)) ^ 2 - 1) / 3 +
                    ((4 : Int) : ℚ) * (((1 : Int) : ℚ)) ^ 2) ≤
                (B1 : ℚ) →
              B ≤ B1) ∧
      machine.calculate_norm_bound 4 10 1 (.finite 10) = some 1360 :=
  norm_bound_formula_exact 4 10 1 3 1 (by unfold machine.exact_arguments; decide)

/-- C14: for `q > 0` and an integer vector `v` with `-q/2 < v_i <= q/2` for every
entry, `compute_norm_squared` of the vector of canonical residues of `v` and `q`
returns `sum_i v_i^2`, for odd and for even `q`. -/
theorem norm_round_trip (q : Int) (hq : 0 < q) (v : List Int)
    (hv : ∀ x ∈ v, -q < 2 * x ∧ 2 * x ≤ q) :
    compute_norm_squared (v.map (conv_ZZ_p q)) q = (v.map (fun x => x * x)).sum ∧
      (∀ x ∈ v.map (conv_ZZ_p q), 0 ≤ x ∧ x < q) := by
  constructor
  · rw [compute_norm_squared_eq, List.map_map]
    congr 1
    apply List.map_congr_left
    intro x hx
    simp only [Function.comp_apply]
    rw [conv_ZZ_p_of_pos _ hq, lift_emod_eq q hq x (hv x hx).1 (hv x hx).2]
  · intro x hx
    rw [List.mem_map] at hx
    obtain ⟨a, -, rfl⟩ := hx
    rw [conv_ZZ_p_of_pos _ hq]
    exact ⟨Int.emod_nonneg _ (ne_of_gt hq), Int.emod_lt_of_pos _ hq⟩

theorem norm_round_trip_witness :
    (compute_norm_squared ([-3, 4, 0, -1, 2].map (conv_ZZ_p 8)) 8 =
        ([-3, 4, 0, -1, 2].map (fun x => x * x)).sum ∧
      (∀ x ∈ [-3, 4, 0, -1, 2].map (conv_ZZ_p 8), 0 ≤ x ∧ x < 8)) ∧
    (compute_norm_squared ([-48, 48, 0, -1, 7].map (conv_ZZ_p 97)) 97 =
        ([-48, 48, 0, -1, 7].map (fun x => x * x)).sum ∧
      (∀ x ∈ [-48, 48, 0, -1, 7].map (conv_ZZ_p 97), 0 ≤ x ∧ x < 97)) :=
  ⟨norm_round_trip 8 (by decide) [-3, 4, 0, -1, 2] (by decide),
    norm_round_trip 97 (by decide) [-48, 48, 0, -1, 7] (by decide)⟩

/-- C16, as stated, fails: on the session the constructor builds over the `default`
preset from the all-zero random source (`A = 0`, `s = (-1,-1,-1,-1)`), the honest round
with `y = (-10,-10,-10,-10)` and `c = (1,0,-1,1)` gives `u = 0` and
`z = (86,87,88,86)`; with `z_0` replaced by `87`, `verify` still returns true. -/
theorem tampered_response_counterexample :
    LatticeProof.ctor P_default zeroStream = .ok (S_fresh, zeroStream) ∧
      Ternary [1, 0, -1, 1] ∧ (S_fresh.commit zeroStream).1 = .ok [0, 0, 0, 0] ∧
      ((S_fresh.commit zeroStream).2.1.respond [1, 0, -1, 1]).1 = .ok [86, 87, 88, 86] ∧
      tamper_response 97 [86, 87, 88, 86] = [87, 87, 88, 86] ∧
      (S_fresh.commit zeroStream).2.1.verify [0, 0, 0, 0] [1, 0, -1, 1] [87, 87, 88, 86] =
        .ok true := by
  refine ⟨rfl, by simp [Ternary], rfl, rfl, rfl, ?_⟩
  apply (verify_true_iff (S_fresh.commit zeroStream).2.1
    (commit_inv S_fresh (ctor_inv P_default (by decide) (by decide) (by decide) zeroStream
      zeroStream S_fresh rfl).1 zeroStream) [0, 0, 0, 0] [1, 0, -1, 1] [87, 87, 88, 86]
    rfl rfl rfl).1.mpr
  constructor
  · show compute_norm_squared [87, 87, 88, 86] 97 ≤ calculate_norm_bound 4 10 1 10
    rw [norm_bound_preset]
    decide
  · decide

/-- C16 (amended): for every session over the `default` preset whose matrix `A` has an
entry of column 0 that is not `0` in `Z_97`, and every honest round (`u = commit()`, a
challenge `c` of length 4, `z = respond(c)`), replacing `z_0` by `(z_0 + 1) mod 97`
makes `verify(u, c, z')` return false. -/
theorem tampered_response_rejected (S : LatticeProof) (hS : S.Inv)
    (hP : S.params_ = ⟨4, 4, 97, 10, 1, 10, 3 / 2⟩)
    (hcol : ∃ i, i < 4 ∧ entry (S.A_.getD i []) 0 ≠ 0) (g : RandomStream)
    (challenge : List Int) (hc : challenge.length = 4) :
    ∃ u z, (S.commit g).1 = .ok u ∧ ((S.commit g).2.1.respond challenge).1 = .ok z ∧
      (S.commit g).2.1.verify u challenge (tamper_response 97 z) = .ok false := by
  have hq : 0 < S.params_.q := by rw [hP]; decide
  have hm : 0 < S.params_.m := by rw [hP]; decide
  have hq97 : S.params_.q = 97 := by rw [hP]
  have hn4 : S.params_.n.toNat = 4 := by rw [hP]; rfl
  have hc1 : (challenge.length : Int) = S.params_.m := by rw [hP, hc]; rfl
  obtain ⟨u, z, hu, hz, -, -⟩ := honest_round S hS hq (le_of_lt hm) g challenge hc1
  refine ⟨u, z, hu, hz, ?_⟩
  have hy : (((S.commit g).2.1.y_).length : Int) = S.params_.m :=
    (commit_committed S (le_of_lt hm) (by rw [hP]; decide) g).1
  have h := (verify_tampered_iff (S.commit g).2.1 (commit_inv S hS g) hq hm hy challenge hc1
    u z hu hz).2
  have h97 : (S.commit g).2.1.params_.q = 97 := hq97
  rw [h97] at h
  apply h.mpr
  rintro ⟨-, hall⟩
  obtain ⟨i, hi, hne⟩ := hcol
  exact hne (hall i (by rw [show (S.commit g).2.1.params_.n.toNat = 4 from hn4]; exact hi))

theorem tampered_response_rejected_witness :
    ∃ u z, (S_default.commit zeroStream).1 = .ok u ∧
      ((S_default.commit zeroStream).2.1.respond [1, 0, -1, 1]).1 = .ok z ∧
      (S_default.commit zeroStream).2.1.verify u [1, 0, -1, 1] (tamper_response 97 z) =
        .ok false :=
  tampered_response_rejected S_default S_default_inv rfl ⟨0, by decide, by decide⟩ zeroStream
    [1, 0, -1, 1] rfl

/-- C17: for every valid parameter set, every session and every `(u, c, z)` that
`verify` accepts, `verify(u', c, z)` returns false for every `u'` obtained from `u` by
adding `1` in `Z_q` to a single coordinate, and for the `u'` obtained by adding `1` to
every coordinate. -/
theorem tampered_commitment_rejected (S : LatticeProof) (hS : S.Inv)
    (hP : S.params_.validate = .ok true) (u challenge z : List Int)
    (hv : S.verify u challenge z = .ok true) :
    (∀ k : Nat, (k : Int) < S.params_.n →
        S.verify (tamper_commitment_at S.params_.q u k) challenge z = .ok false) ∧
      S.verify (tamper_commitment S.params_.q u) challenge z = .ok false := by
  obtain ⟨-, hn, -, -, -, -, -, -, hprime⟩ := (validate_ok_iff _ _).mp hP
  have hq := is_prime_two_le _ hprime
  obtain ⟨hu, -, -⟩ := verify_dims_of_ok S u challenge z true hv
  constructor
  · intro k hk
    have hk1 : k < u.length := by omega
    exact verify_tampered_commitment S hS hq u _ challenge z hv
      (by simp [tamper_commitment_at]) k hk1 (entry_tamper_commitment_at _ u k hk1)
  · have hk1 : 0 < u.length := by omega
    exact verify_tampered_commitment S hS hq u _ challenge z hv
      (by simp [tamper_commitment]) 0 hk1 (entry_tamper_commitment _ u 0 hk1)

/-- C18: `respond` leaves the whole session state (`A`, `s`, `t`, `y` and the
parameters) as it is, so a Committed session is Committed after `respond`; and under
the `default` preset, after one `commit()` returning `u`, for every sequence of ternary
challenges of length 4 answered in turn on the session, each `z_k = respond(c_k)` has
`verify(u, c_k, z_k) = true`. -/
theorem respond_keeps_commitment (S : LatticeProof) (hS : S.Inv)
    (hP : S.params_ = ⟨4, 4, 97, 10, 1, 10, 3 / 2⟩) (g : RandomStream)
    (cs : List (List Int)) (hcs : ∀ c ∈ cs, c.length = 4 ∧ Ternary c) :
    (∀ (T : LatticeProof) (c : List Int), (T.respond c).2 = T) ∧
      (∀ (T : LatticeProof) (c : List Int), T.Committed → (T.respond c).2.Committed) ∧
      ∃ u, (S.commit g).1 = .ok u ∧ (S.commit g).2.1.Committed ∧
        reuse_rounds (S.commit g).2.1 u cs = cs.map (fun _ => .ok true) := by
  refine ⟨respond_frame, fun T c hT => by rw [respond_frame]; exact hT, ?_⟩
  have hq : 0 < S.params_.q := by rw [hP]; decide
  have hm : 0 ≤ S.params_.m := by rw [hP]; decide
  have hY : 0 ≤ S.params_.y_range := by rw [hP]; decide
  have hB : S.params_.m * ((S.params_.y_range + 1) * (S.params_.y_range + 1)) ≤
      calculate_norm_bound S.params_.m S.params_.y_range S.params_.s_range
        S.params_.safety_factor := by
    rw [hP]
    show (4 : Int) * ((10 + 1) * (10 + 1)) ≤ calculate_norm_bound 4 10 1 10
    rw [norm_bound_preset]
    decide
  have hC := commit_committed S hm hY g
  refine ⟨_, commit_ok S hS hm g, hC, ?_⟩
  apply reuse_rounds_accept (S.commit g).2.1 (commit_inv S hS g) hq hC hB _
    (matrix_vector_mod_ok _ _ _ (hS.row_length _ hC.1)) cs
  intro c hc
  refine ⟨?_, (hcs c hc).2⟩
  show (c.length : Int) = S.params_.m
  rw [hP, (hcs c hc).1]
  rfl

theorem tampered_commitment_rejected_witness :
    (∀ k : Nat, (k : Int) < (S_fresh.commit zeroStream).2.1.params_.n →
        (S_fresh.commit zeroStream).2.1.verify
          (tamper_commitment_at (S_fresh.commit zeroStream).2.1.params_.q [0, 0, 0, 0] k)
          [1, 0, -1, 1] [86, 87, 88, 86] = .ok false) ∧
      (S_fresh.commit zeroStream).2.1.verify
        (tamper_commitment (S_fresh.commit zeroStream).2.1.params_.q [0, 0, 0, 0])
        [1, 0, -1, 1] [86, 87, 88, 86] = .ok false :=
  tampered_commitment_rejected (S_fresh.commit zeroStream).2.1
    (commit_inv S_fresh (ctor_inv P_default (by decide) (by decide) (by decide) zeroStream
      zeroStream S_fresh rfl).1 zeroStream) P_default_valid [0, 0, 0, 0] [1, 0, -1, 1]
    [86, 87, 88, 86]
    (by
      apply (verify_true_iff (S_fresh.commit zeroStream).2.1
        (commit_inv S_fresh (ctor_inv P_default (by decide) (by decide) (by decide)
          zeroStream zeroStream S_fresh rfl).1 zeroStream) [0, 0, 0, 0] [1, 0, -1, 1]
        [86, 87, 88, 86] rfl rfl rfl).1.mpr
      constructor
      · show compute_norm_squared [86, 87, 88, 86] 97 ≤ calculate_norm_bound 4 10 1 10
        rw [norm_bound_preset]
        decide
      · decide)

theorem respond_keeps_commitment_witness :
    (∀ (T : LatticeProof) (c : List Int), (T.respond c).2 = T) ∧
      (∀ (T : LatticeProof) (c : List Int), T.Committed → (T.respond c).2.Committed) ∧
      ∃ u, (S_default.commit zeroStream).1 = .ok u ∧
        (S_default.commit zeroStream).2.1.Committed ∧
        reuse_rounds (S_default.commit zeroStream).2.1 u
            [[1, 0, -1, 1], [1, 1, 1, 1], [-1, -1, -1, -1], [0, 0, 0, 0], [0, 1, 0, -1]] =
          [[1, 0, -1, 1], [1, 1, 1, 1], [-1, -1, -1, -1], [0, 0, 0, 0], [0, 1, 0, -1]].map
            (fun _ => .ok true) :=
  respond_keeps_commitment S_default S_default_inv rfl zeroStream
    [[1, 0, -1, 1], [1, 1, 1, 1], [-1, -1, -1, -1], [0, 0, 0, 0], [0, 1, 0, -1]]
    (by simp [Ternary])

/-- C19, as stated, fails: for the valid parameters `(4, 4, 2, 10, 1, 10.0, 1.5)`
`calculate_proof_size` returns `commitment_size = response_size = 8`, since
`NumBits(2) = 2`, while `n * ceil(log2 q) = m * ceil(log2 q) = 4`; and for the valid
parameters `(1, 2^30, 97, 10, 1, 10.0, 1.5)` the `int` product `m * 2` overflows. -/
theorem proof_size_machine_counterexample :
    P_two.validate = .ok true ∧ Nat.clog 2 P_two.q.toNat = 1 ∧
      machine.calculate_proof_size P_two [] [] [] = some ⟨8, 8, 8, 24⟩ ∧
      P_two.n * (Nat.clog 2 P_two.q.toNat : Int) = 4 ∧
      P_two.m * (Nat.clog 2 P_two.q.toNat : Int) = 4 ∧
      Parameters.validate ⟨1, 2 ^ 30, 97, 10, 1, 10, 3 / 2⟩ = .ok true ∧
      machine.calculate_proof_size ⟨1, 2 ^ 30, 97, 10, 1, 10, 3 / 2⟩ [] [] [] = none := by
  have hc : Nat.clog 2 P_two.q.toNat = 1 :=
    clog_eq_of_bounds 2 0 (by decide) (by decide)
  have hb : NumBits P_two.q = 2 := by
    rw [NumBits_of_pos _ (by decide)]
    have : Nat.log 2 P_two.q.toNat = 1 :=
      Nat.log_eq_of_pow_le_of_lt_pow (by decide) (by decide)
    rw [this]
    rfl
  refine ⟨P_two_valid, hc, ?_, ?_, ?_, ?_, ?_⟩
  · unfold machine.calculate_proof_size
    rw [hb]
    rfl
  · rw [hc]; rfl
  · rw [hc]; rfl
  · norm_num [Parameters.validate, is_prime_97]
  · unfold machine.calculate_proof_size
    have h : machine.int_mul (2 ^ 30) 2 = none := by decide
    simp only [h]
    split <;> simp_all

/-- C19 (amended): for every valid parameter set with `n < 2^31`, `m < 2^30` and
`NumBits(q) < 2^31`, so that no product of the function overflows,
`calculate_proof_size` returns `commitment_size = n * NumBits(q)`,
`challenge_size = 2 * m`, `response_size = m * NumBits(q)` and their sum as
`total_size`, whatever `u`, `c` and `z` hold, where `NumBits(q) = floor(log2 q) + 1` is
the bit length of `q`; this is `ceil(log2 q)` for every prime `q` other than `2`. -/
theorem proof_size_in_range (P : Parameters) (hP : P.validate = .ok true)
    (hn : P.n < 2 ^ 31) (hm : P.m < 2 ^ 30) (hb : NumBits P.q < 2 ^ 31)
    (u challenge z u1 challenge1 z1 : List Int) :
    ∃ size, machine.calculate_proof_size P u challenge z = some size ∧
      size.commitment_size = P.n * ((Nat.log 2 P.q.toNat + 1 : Nat) : Int) ∧
      size.challenge_size = 2 * P.m ∧
      size.response_size = P.m * ((Nat.log 2 P.q.toNat + 1 : Nat) : Int) ∧
      size.total_size = size.commitment_size + size.challenge_size + size.response_size ∧
      machine.calculate_proof_size P u1 challenge1 z1 = some size ∧
      (P.q ≠ 2 → Nat.log 2 P.q.toNat + 1 = Nat.clog 2 P.q.toNat) := by
  obtain ⟨-, hn0, hm0, hq, -, -, -, -, hprime⟩ := (validate_ok_iff _ _).mp hP
  have hbq := NumBits_of_pos P.q hq
  have hb0 : 0 ≤ NumBits P.q := Int.natCast_nonneg _
  have h1 : P.n * NumBits P.q < 2 ^ 62 := by nlinarith
  have h2 : P.m * NumBits P.q < 2 ^ 61 := by nlinarith
  have hbr := machine_proof_size_eq P (le_of_lt hn0) (le_of_lt hm0) (by omega) (by omega)
    (by omega) (by omega)
  refine ⟨calculate_proof_size P u challenge z, hbr u challenge z, ?_, ?_, ?_, rfl,
    hbr u1 challenge1 z1, ?_⟩
  · show P.n * NumBits P.q = _
    rw [hbq]
  · show P.m * 2 = 2 * P.m
    ring
  · show P.m * NumBits P.q = _
    rw [hbq]
  · intro hne
    have hpr := (is_prime_iff P.q).mp hprime
    have h2 : P.q.toNat ≠ 2 := by omega
    rcases hpr.eq_two_or_odd with h | h
    · exact absurd h h2
    · have := hpr.two_le
      exact (clog_eq_log_succ_of_odd P.q.toNat (by omega) h).symm

theorem proof_size_in_range_witness :
    ∃ size, machine.calculate_proof_size P_default [1, 2, 3, 4] [1, 0, -1, 0] [5, 6, 7, 8] =
        some size ∧
      size.commitment_size = P_default.n * ((Nat.log 2 P_default.q.toNat + 1 : Nat) : Int) ∧
      size.challenge_size = 2 * P_default.m ∧
      size.response_size = P_default.m * ((Nat.log 2 P_default.q.toNat + 1 : Nat) : Int) ∧
      size.total_size = size.commitment_size + size.challenge_size + size.response_size ∧
      machine.calculate_proof_size P_default [] [] [] = some size ∧
      (P_default.q ≠ 2 → Nat.log 2 P_default.q.toNat + 1 = Nat.clog 2 P_default.q.toNat) :=
  proof_size_in_range P_default P_default_valid (by decide) (by decide)
    (by
      rw [NumBits_of_pos _ (by decide)]
      have h : Nat.log 2 P_default.q.toNat = 6 :=
        Nat.log_eq_of_pow_le_of_lt_pow (by decide) (by decide)
      rw [h]
      decide)
    [1, 2, 3, 4] [1, 0, -1, 0] [5, 6, 7, 8] [] [] []

/-- C20: for the `high_security` preset `calculate_proof_size` returns
`commitment_size = 16384`, `challenge_size = 1024`, `response_size = 16384` and
`total_size = 33792` bits, whatever `u`, `c` and `z` hold. -/
theorem high_security_proof_size (u challenge z : List Int) :
    Parameters.HighSecurityParams = .ok P_high ∧
      (calculate_proof_size P_high u challenge z).commitment_size = 16384 ∧
      (calculate_proof_size P_high u challenge z).challenge_size = 1024 ∧
      (calculate_proof_size P_high u challenge z).response_size = 16384 ∧
      (calculate_proof_size P_high u challenge z).total_size = 33792 ∧
      (512 * 32 : Int) = 16384 ∧ (512 * 2 : Int) = 1024 := by
  have hb : NumBits P_high.q = 32 := by
    rw [NumBits_of_pos _ (by decide)]
    have : Nat.log 2 P_high.q.toNat = 31 :=
      Nat.log_eq_of_pow_le_of_lt_pow (by decide) (by decide)
    rw [this]
    rfl
  refine ⟨ctor_of_valid 512 512 4294967291 10 1 10 (3 / 2) P_high_valid, ?_, rfl, ?_, ?_,
    by decide, by decide⟩
  · show P_high.n * NumBits P_high.q = 16384
    rw [hb]; rfl
  · show P_high.m * NumBits P_high.q = 16384
    rw [hb]; rfl
  · show P_high.n * NumBits P_high.q + P_high.m * 2 + P_high.m * NumBits P_high.q = 33792
    rw [hb]; rfl

/-- C21, as stated, fails: for the bound `B = 2^62` the `long` value `2 * bound + 1`
that `sample_uniform` passes to `RandomBnd` overflows, so the call has no defined
result, while `2^62` is a `long`. -/
theorem sampler_overflow_counterexample :
    (0 : Int) < 2 ^ 62 ∧ (2 : Int) ^ 62 < 2 ^ 63 ∧
      machine.sample_uniform 1 (2 ^ 62) zeroStream = none ∧
      machine.long_mul 2 (2 ^ 62) = none :=
  ⟨by decide, by decide, machine_sample_uniform_overflow 1 (2 ^ 62) (by decide) (le_refl _) _,
    by decide⟩

/-- C21 (amended): for every length `len >= 0` and bound `0 < B < 2^62`,
whatever the random source draws, `sample_ternary(len)` and `generate_challenge(len)`
return a vector of length `len` with entries in `{-1, 0, 1}` and
`sample_uniform(len, B)` returns a vector of length `len` with entries in `[-B, B]`;
and every vector of length `len` over those ranges is returned for some draws of the
source. -/
theorem sampler_ranges_in_range (len B : Int) (hlen : 0 ≤ len) (hB : 0 < B)
    (hB1 : B < 2 ^ 62) :
    (∀ g, ((sample_ternary len g).1.length : Int) = len ∧ Ternary (sample_ternary len g).1) ∧
      (∀ g, ((generate_challenge len g).1.length : Int) = len ∧
        Ternary (generate_challenge len g).1) ∧
      (∀ g, ∃ v g1, machine.sample_uniform len B g = some (v, g1) ∧
        (v.length : Int) = len ∧ Within B v) ∧
      (∀ v : List Int, (v.length : Int) = len → Ternary v →
        (∃ g, (sample_ternary len g).1 = v) ∧ ∃ g, (generate_challenge len g).1 = v) ∧
      (∀ v : List Int, (v.length : Int) = len → Within B v →
        ∃ g g1, machine.sample_uniform len B g = some (v, g1)) := by
  refine ⟨?_, ?_, ?_, ?_, ?_⟩
  · intro g
    rw [sample_ternary_length]
    exact ⟨Int.toNat_of_nonneg hlen, sample_ternary_ternary len g⟩
  · intro g
    rw [generate_challenge_eq_ternary, sample_ternary_length]
    exact ⟨Int.toNat_of_nonneg hlen, sample_ternary_ternary len g⟩
  · intro g
    refine ⟨(sample_uniform len B g).1, (sample_uniform len B g).2,
      machine_sample_uniform_eq len B (le_of_lt hB) hB1 g, ?_, ?_⟩
    · rw [sample_uniform_length]
      exact Int.toNat_of_nonneg hlen
    · exact sample_uniform_within len B (le_of_lt hB) g
  · intro v hv ht
    have h := sample_uniform_attains len 1 (by decide) v hv ((ternary_iff_within v).mp ht)
    exact ⟨⟨_, h⟩, ⟨_, h⟩⟩
  · intro v hv hw
    have h := sample_uniform_attains len B (le_of_lt hB) v hv hw
    refine ⟨stream_for B v, (sample_uniform len B (stream_for B v)).2, ?_⟩
    rw [machine_sample_uniform_eq len B (le_of_lt hB) hB1]
    exact congrArg some (Prod.ext h rfl)

theorem sampler_ranges_in_range_witness :
    (∀ g, ((sample_ternary 4 g).1.length : Int) = 4 ∧ Ternary (sample_ternary 4 g).1) ∧
      (∀ g, ((generate_challenge 4 g).1.length : Int) = 4 ∧
        Ternary (generate_challenge 4 g).1) ∧
      (∀ g, ∃ v g1, machine.sample_uniform 4 10 g = some (v, g1) ∧
        (v.length : Int) = 4 ∧ Within 10 v) ∧
      (∀ v : List Int, (v.length : Int) = 4 → Ternary v →
        (∃ g, (sample_ternary 4 g).1 = v) ∧ ∃ g, (generate_challenge 4 g).1 = v) ∧
      (∀ v : List Int, (v.length : Int) = 4 → Within 10 v →
        ∃ g g1, machine.sample_uniform 4 10 g = some (v, g1)) :=
  sampler_ranges_in_range 4 10 (by decide) (by decide) (by decide)

/-- C24: `verify` uses only the parameters, `A` and `s` of the session: two session
states that agree on them, whatever their `y` (set or not) and `t`, give the same
result or the same error for every `(u, c, z)`.  `verify` returns no session: it has
nothing to write. -/
theorem verify_stateless (S1 S2 : LatticeProof) (hP : S1.params_ = S2.params_)
    (hA : S1.A_ = S2.A_) (hs : S1.s_ = S2.s_) (u challenge z : List Int) :
    S1.verify u challenge z = S2.verify u challenge z := by
  cases S1
  cases S2
  simp only at hP hA hs
  subst hP hA hs
  exact verify_congr _ _ _ _ _ _ _ _ _ _

theorem verify_stateless_witness :
    S_default.verify [2, 6, 10, 47] [1, 0, -1, 1] [1, 0, 96, 1] =
      (S_default.commit zeroStream).2.1.verify [2, 6, 10, 47] [1, 0, -1, 1] [1, 0, 96, 1] :=
  verify_stateless S_default (S_default.commit zeroStream).2.1 rfl rfl rfl
    [2, 6, 10, 47] [1, 0, -1, 1] [1, 0, 96, 1]

/-- C23, as stated, fails: on a session over the `default` preset with
`t = A s mod 97 = (2, 6, 10, 47)`, for `u = 0` and the ternary challenge
`c = (1, 0, 0, 0)` the right-hand side that `verify` computes is `(1, 5, 9, 96)`, while
`u_i + c_i * t_i` gives `(2, 0, 0, 0)`. -/
theorem rhs_forms_counterexample :
    S_default.Inv ∧ S_default.params_.n = S_default.params_.m ∧ Ternary [1, 0, 0, 0] ∧
      S_default.t_ = [2, 6, 10, 47] ∧
      verify_rhs S_default [0, 0, 0, 0] [1, 0, 0, 0] = .ok [1, 5, 9, 96] ∧
      rhs_syndrome_form S_default [0, 0, 0, 0] [1, 0, 0, 0] = [2, 0, 0, 0] :=
  ⟨S_default_inv, rfl, by simp [Ternary], rfl, rfl, rfl⟩

/-- C23 (amended): the right-hand side that `verify` computes is
`rhs_i = (u_i + sum_j c_j * A[i][j] * s_j) mod q` for every challenge `c` of length `m`;
it is the precomputed-syndrome form `rhs_i = u_i + c_i * t_i` (for `n = m`) when all
entries of `c` are equal, as for the challenges `(0,...,0)`, `(1,...,1)` and
`(-1,...,-1)`. -/
theorem rhs_forms (S : LatticeProof) (hS : S.Inv) (hq : 0 < S.params_.q)
    (u : List Int) (hu : (u.length : Int) = S.params_.n) :
    (∀ challenge z : List Int, (challenge.length : Int) = S.params_.m →
      (z.length : Int) = S.params_.m →
      S.verify u challenge z =
        if compute_norm_squared z S.params_.q >
            calculate_norm_bound S.params_.m S.params_.y_range S.params_.s_range
              S.params_.safety_factor then .ok false
        else
          match matrix_vector_mod S.params_.q S.A_ z with
          | .error e => .error e
          | .ok Az =>
            match verify_rhs S u challenge with
            | .error e => .error e
            | .ok rhs => .ok (Az == rhs)) ∧
    (∀ challenge : List Int, (challenge.length : Int) = S.params_.m →
      verify_rhs S u challenge = .ok ((List.range S.params_.n.toNat).map (fun i =>
        (entry u i + ∑ j in Finset.range S.params_.m.toNat,
          entry challenge j * entry (S.A_.getD i []) j * entry S.s_ j) % S.params_.q))) ∧
    (S.params_.n = S.params_.m → ∀ k : Int,
      verify_rhs S u (List.replicate S.params_.m.toNat k) =
        .ok (rhs_syndrome_form S u (List.replicate S.params_.m.toNat k))) := by
  have hn : S.A_.length = S.params_.n.toNat := length_eq_toNat _ hS.A_rows
  have hm : 0 ≤ S.params_.m := by rw [← hS.s_len]; exact Int.natCast_nonneg _
  have hgen : ∀ challenge : List Int, (challenge.length : Int) = S.params_.m →
      verify_rhs S u challenge = .ok ((List.range S.params_.n.toNat).map (fun i =>
        (entry u i + ∑ j in Finset.range S.params_.m.toNat,
          entry challenge j * entry (S.A_.getD i []) j * entry S.s_ j) % S.params_.q)) := by
    intro challenge hc
    rw [verify_rhs_ok S hS u challenge hu hc]
    congr 1
    apply List.map_congr_left
    intro i hi
    rw [List.mem_range, ← hn] at hi
    rw [(ct_entry_ok S challenge i hi hc (hS.getD_length i hi) hS.s_len).2 hq, ZZ_p_add,
      ZZ_rem_of_pos _ hq, Int.add_emod, Int.emod_emod, ← Int.add_emod]
  refine ⟨fun challenge z hc hz => verify_uses_rhs S u challenge z hu hc hz, hgen, ?_⟩
  intro hnm k
  have hc : (((List.replicate S.params_.m.toNat k).length : Nat) : Int) = S.params_.m := by
    rw [List.length_replicate]
    exact Int.toNat_of_nonneg hm
  rw [hgen _ hc]
  congr 1
  unfold rhs_syndrome_form
  apply List.map_congr_left
  intro i hi
  rw [List.mem_range] at hi
  have hin : (i : Int) < S.params_.n := by omega
  have hi1 : i < S.params_.m.toNat := by omega
  rw [(inv_t_entries S hS hq).2 i hin, entry_replicate k _ i hi1, ZZ_p_add, ZZ_p_mul,
    conv_ZZ_p, ZZ_rem_of_pos _ hq, ZZ_rem_of_pos _ hq, ZZ_rem_of_pos _ hq, row_dot_eq,
    Int.add_emod (entry u i), Int.add_emod (entry u i), Int.emod_emod]
  congr 2
  rw [Int.mul_emod, Int.emod_emod, Int.emod_emod, ← Int.mul_emod, Finset.mul_sum]
  congr 1
  apply Finset.sum_congr rfl
  intro j hj
  rw [entry_replicate k _ j (Finset.mem_range.mp hj)]
  ring

theorem rhs_forms_witness :
    verify_rhs S_default [3, 1, 4, 1] [1, 0, -1, 1] = .ok ((List.range S_default.params_.n.toNat).map
        (fun i => (entry [3, 1, 4, 1] i + ∑ j in Finset.range S_default.params_.m.toNat,
          entry [1, 0, -1, 1] j * entry (S_default.A_.getD i []) j * entry S_default.s_ j) %
            S_default.params_.q)) ∧
      verify_rhs S_default [3, 1, 4, 1] (List.replicate S_default.params_.m.toNat (-1)) =
        .ok (rhs_syndrome_form S_default [3, 1, 4, 1]
          (List.replicate S_default.params_.m.toNat (-1))) :=
  ⟨(rhs_forms S_default S_default_inv (by decide) [3, 1, 4, 1] rfl).2.1 [1, 0, -1, 1] rfl,
    (rhs_forms S_default S_default_inv (by decide) [3, 1, 4, 1] rfl).2.2 rfl (-1)⟩

/-- C25: `is_prime` is a correct and terminating primality test: its loop ends within
`SqrRoot(n)` iterations for every integer `n`, and `is_prime(n)` returns true exactly
when `n` is a prime number; it returns false for `n <= 1`, true for `2`, false for the
other even `n` and false for the square of a prime. -/
theorem is_prime_correct (n : Int) :
    (∃ b, is_prime_loop n (SqrRoot n) (SqrRoot n).toNat 3 = some b) ∧
      (is_prime n = true ↔ Nat.Prime n.toNat) ∧
      (is_prime n = false ↔ ¬ Nat.Prime n.toNat) ∧
      (n ≤ 1 → is_prime n = false) ∧ is_prime 2 = true ∧
      (2 < n → n % 2 = 0 → is_prime n = false) ∧
      (∀ p : Nat, Nat.Prime p → is_prime ((p : Int) * p) = false) := by
  have hiff := is_prime_iff
  have hfalse : ∀ k : Int, is_prime k = false ↔ ¬ Nat.Prime k.toNat := by
    intro k
    rw [← hiff k]
    simp
  refine ⟨is_prime_loop_total n, hiff n, hfalse n, ?_, ?_, ?_, ?_⟩
  · intro h
    rw [hfalse]
    intro hp
    have := hp.two_le
    omega
  · exact (hiff 2).mpr Nat.prime_two
  · intro h2 hev
    rw [hfalse]
    intro hp
    have hd : 2 ∣ n.toNat := by omega
    have := (Nat.prime_dvd_prime_iff_eq Nat.prime_two hp).mp hd
    omega
  · intro p hp
    rw [hfalse]
    have e : ((p : Int) * p).toNat = p * p := by
      rw [← Nat.cast_mul]
      exact Int.toNat_natCast _
    rw [e]
    exact prime_sq_not_prime p hp.two_le

/-- C26: for `q > 0`, a matrix `M` with `n` rows of length `m` and an integer vector
`v` of length `m` with any entries, `matrix_vector_mod(M, v)` returns a vector of length
`n` whose `i`-th entry is the canonical residue in `[0, q)` of `sum_j M[i][j] * v_j`;
the result is the same for two vectors congruent modulo `q`, and the result for
`v + w` is the sum in `Z_q` of the results for `v` and `w`. -/
theorem matrix_vector_mod_spec (q : Int) (hq : 0 < q) (M : List (List Int)) (m : Nat)
    (hM : ∀ row ∈ M, row.length = m) (v : List Int) (hv : v.length = m) :
    (∃ r, matrix_vector_mod q M v = .ok r ∧ r.length = M.length ∧
      ∀ i, i < M.length →
        entry r i = row_dot M v m i % q ∧ 0 ≤ entry r i ∧ entry r i < q) ∧
    (∀ w : List Int, w.length = m → (∀ j, j < m → entry v j % q = entry w j % q) →
      matrix_vector_mod q M w = matrix_vector_mod q M v) ∧
    (∀ w : List Int, w.length = m →
      ∃ rv rw rs, matrix_vector_mod q M v = .ok rv ∧ matrix_vector_mod q M w = .ok rw ∧
        matrix_vector_mod q M (List.zipWith (fun a b => a + b) v w) = .ok rs ∧
        rs.length = M.length ∧
        ∀ i, i < M.length → entry rs i = ZZ_p_add q (entry rv i) (entry rw i)) := by
  have hok : ∀ x : List Int, x.length = m → matrix_vector_mod q M x =
      .ok (M.map (fun row => InnerProduct q row (x.map (conv_ZZ_p q)))) := by
    intro x hx
    exact matrix_vector_mod_ok q M x (fun row hrow => by rw [hM row hrow, hx])
  have hentry : ∀ x : List Int, ∀ i, i < M.length →
      entry (M.map (fun row => InnerProduct q row (x.map (conv_ZZ_p q)))) i =
        row_dot M x m i % q := by
    intro x i hi
    exact entry_matvec q hq M x m i hi (hM _ (getD_mem _ _ _ hi))
  refine ⟨?_, ?_, ?_⟩
  · refine ⟨_, hok v hv, by simp, ?_⟩
    intro i hi
    rw [hentry v i hi]
    exact ⟨rfl, Int.emod_nonneg _ (ne_of_gt hq), Int.emod_lt_of_pos _ hq⟩
  · intro w hw hcong
    rw [hok v hv, hok w hw]
    congr 1
    rw [map_eq_range_map, map_eq_range_map M]
    apply List.map_congr_left
    intro i hi
    rw [List.mem_range] at hi
    rw [InnerProduct_conv q hq, InnerProduct_conv q hq, hM _ (getD_mem _ _ _ hi)]
    apply sum_emod_congr
    intro j hj
    rw [Int.mul_emod, ← hcong j hj, ← Int.mul_emod]
  · intro w hw
    have hz : (List.zipWith (fun a b => a + b) v w).length = m := by simp [hv, hw]
    refine ⟨_, _, _, hok v hv, hok w hw, hok _ hz, by simp, ?_⟩
    intro i hi
    rw [hentry _ i hi, hentry v i hi, hentry w i hi, ZZ_p_add, ZZ_rem_of_pos _ hq,
      ← Int.add_emod, row_dot_eq, row_dot_eq, row_dot_eq, ← Finset.sum_add_distrib]
    congr 1
    apply Finset.sum_congr rfl
    intro j _
    rw [entry_zipWith_add v w (by rw [hv, hw])]
    ring

theorem matrix_vector_mod_spec_witness :
    (∃ r, matrix_vector_mod 97 [[1, 2, 3], [96, 0, 50]] [-5, 200, 7] = .ok r ∧
      r.length = ([[1, 2, 3], [96, 0, 50]] : List (List Int)).length ∧
      ∀ i, i < ([[1, 2, 3], [96, 0, 50]] : List (List Int)).length →
        entry r i = row_dot [[1, 2, 3], [96, 0, 50]] [-5, 200, 7] 3 i % 97 ∧
        0 ≤ entry r i ∧ entry r i < 97) ∧
    (∀ w : List Int, w.length = 3 →
      (∀ j, j < 3 → entry [-5, 200, 7] j % 97 = entry w j % 97) →
      matrix_vector_mod 97 [[1, 2, 3], [96, 0, 50]] w =
        matrix_vector_mod 97 [[1, 2, 3], [96, 0, 50]] [-5, 200, 7]) ∧
    (∀ w : List Int, w.length = 3 →
      ∃ rv rw rs, matrix_vector_mod 97 [[1, 2, 3], [96, 0, 50]] [-5, 200, 7] = .ok rv ∧
        matrix_vector_mod 97 [[1, 2, 3], [96, 0, 50]] w = .ok rw ∧
        matrix_vector_mod 97 [[1, 2, 3], [96, 0, 50]]
          (List.zipWith (fun a b => a + b) [-5, 200, 7] w) = .ok rs ∧
        rs.length = ([[1, 2, 3], [96, 0, 50]] : List (List Int)).length ∧
        ∀ i, i < ([[1, 2, 3], [96, 0, 50]] : List (List Int)).length →
          entry rs i = ZZ_p_add 97 (entry rv i) (entry rw i)) :=
  matrix_vector_mod_spec 97 (by decide) [[1, 2, 3], [96, 0, 50]] 3 (by decide) [-5, 200, 7] rfl

/-- C28: for `q > 0` and vectors `y`, `c`, `s` of length `m`, the response
`z = respond(c)` satisfies `compute_norm_squared(z, q) <= sum_i (y_i + c_i * s_i)^2`,
with equality when every `y_i + c_i * s_i` lies in `(-q/2, q/2]`. -/
theorem lift_norm_le (S : LatticeProof) (hq : 0 < S.params_.q)
    (hy : (S.y_.length : Int) = S.params_.m) (hs : (S.s_.length : Int) = S.params_.m)
    (challenge : List Int) (hc : (challenge.length : Int) = S.params_.m) :
    ∃ z, (S.respond challenge).1 = .ok z ∧
      compute_norm_squared z S.params_.q ≤
        ∑ i in Finset.range S.params_.m.toNat,
          (entry S.y_ i + entry challenge i * entry S.s_ i) ^ 2 ∧
      ((∀ i, i < S.params_.m.toNat →
          -S.params_.q < 2 * (entry S.y_ i + entry challenge i * entry S.s_ i) ∧
          2 * (entry S.y_ i + entry challenge i * entry S.s_ i) ≤ S.params_.q) →
        compute_norm_squared z S.params_.q =
          ∑ i in Finset.range S.params_.m.toNat,
            (entry S.y_ i + entry challenge i * entry S.s_ i) ^ 2) := by
  refine ⟨_, congrArg Prod.fst (respond_ok S challenge hq hc hy hs), ?_, ?_⟩
  · simp only [pow_two]
    exact norm_map_emod_le S.params_.q hq _ _
  · intro h
    simp only [pow_two]
    exact norm_map_emod_eq S.params_.q hq _ _ h

theorem lift_norm_le_witness :
    ∃ z, ((⟨P_small, [[0, 0, 0], [0, 0, 0]], [1, -1, 0], [4, -7, 1], [0, 0]⟩ :
        LatticeProof).respond [1, 1, -1]).1 = .ok z ∧
      compute_norm_squared z 3 ≤
        ∑ i in Finset.range 3, (entry [4, -7, 1] i + entry [1, 1, -1] i * entry [1, -1, 0] i) ^ 2 ∧
      ((∀ i, i < 3 →
          -3 < 2 * (entry [4, -7, 1] i + entry [1, 1, -1] i * entry [1, -1, 0] i) ∧
          2 * (entry [4, -7, 1] i + entry [1, 1, -1] i * entry [1, -1, 0] i) ≤ 3) →
        compute_norm_squared z 3 =
          ∑ i in Finset.range 3,
            (entry [4, -7, 1] i + entry [1, 1, -1] i * entry [1, -1, 0] i) ^ 2) :=
  lift_norm_le ⟨P_small, [[0, 0, 0], [0, 0, 0]], [1, -1, 0], [4, -7, 1], [0, 0]⟩ (by decide)
    rfl rfl [1, 1, -1] rfl

/-- C29: for every session over the `default` preset and every honest round
(`u = commit()`, a ternary challenge `c`, `z = respond(c)`), `verify(u, c, z')` with
`z'_0 = (z_0 + 1) mod 97` and the other entries those of `z` returns true exactly when
every entry of column 0 of `A` is `0` in `Z_97`, and false otherwise. -/
theorem tampered_response_iff (S : LatticeProof) (hS : S.Inv)
    (hP : S.params_ = ⟨4, 4, 97, 10, 1, 10, 3 / 2⟩) (g : RandomStream)
    (challenge : List Int) (hc : challenge.length = 4) (hct : Ternary challenge) :
    ∃ u z, (S.commit g).1 = .ok u ∧ ((S.commit g).2.1.respond challenge).1 = .ok z ∧
      ((S.commit g).2.1.verify u challenge (tamper_response 97 z) = .ok true ↔
        ∀ i, i < 4 → entry (S.A_.getD i []) 0 = 0) ∧
      ((S.commit g).2.1.verify u challenge (tamper_response 97 z) = .ok false ↔
        ∃ i, i < 4 ∧ entry (S.A_.getD i []) 0 ≠ 0) := by
  have hq : 0 < S.params_.q := by rw [hP]; decide
  have hm : 0 < S.params_.m := by rw [hP]; decide
  have hq97 : (S.commit g).2.1.params_.q = 97 := by show S.params_.q = 97; rw [hP]
  have hn4 : (S.commit g).2.1.params_.n.toNat = 4 := by
    show S.params_.n.toNat = 4; rw [hP]; rfl
  have hm4 : S.params_.m.toNat = 4 := by rw [hP]; rfl
  have hc1 : (challenge.length : Int) = S.params_.m := by rw [hP, hc]; rfl
  obtain ⟨u, z, hu, hz, hzdef, -⟩ := honest_round S hS hq (le_of_lt hm) g challenge hc1
  refine ⟨u, z, hu, hz, ?_⟩
  have hC := commit_committed S (le_of_lt hm) (by rw [hP]; decide) g
  have hyw : Within 10 (S.commit g).2.1.y_ := by
    have := hC.2
    have h10 : (S.commit g).2.1.params_.y_range = 10 := by
      show S.params_.y_range = 10; rw [hP]
    rw [h10] at this
    exact this
  have hnorm : compute_norm_squared (tamper_response 97 z) 97 ≤
      calculate_norm_bound (S.commit g).2.1.params_.m (S.commit g).2.1.params_.y_range
        (S.commit g).2.1.params_.s_range (S.commit g).2.1.params_.safety_factor := by
    have hb : calculate_norm_bound (S.commit g).2.1.params_.m
        (S.commit g).2.1.params_.y_range (S.commit g).2.1.params_.s_range
        (S.commit g).2.1.params_.safety_factor = 1360 := by
      show calculate_norm_bound S.params_.m S.params_.y_range S.params_.s_range
        S.params_.safety_factor = 1360
      rw [hP]
      show calculate_norm_bound 4 10 1 10 = 1360
      rw [norm_bound_preset]
      rfl
    rw [hb, hzdef, hm4]
    have h97 : S.params_.q = 97 := by rw [hP]
    rw [h97]
    exact tampered_norm_default _ challenge S.s_
      (by have := length_eq_toNat _ hC.1; rw [this]; exact hm4) hc
      (by have := length_eq_toNat _ hS.s_len; rw [this]; exact hm4) hyw hct hS.s_ternary
  have h := verify_tampered_iff (S.commit g).2.1 (commit_inv S hS g) hq hm hC.1 challenge hc1
    u z hu hz
  rw [hq97, hn4] at h
  constructor
  · rw [h.1]
    exact ⟨fun hh => hh.2, fun hh => ⟨hnorm, hh⟩⟩
  · rw [h.2]
    constructor
    · intro hh
      by_contra hne
      push_neg at hne
      exact hh ⟨hnorm, hne⟩
    · rintro ⟨i, hi, hne⟩ ⟨-, hall⟩
      exact hne (hall i hi)

theorem tampered_response_iff_witness :
    ∃ u z, (S_fresh.commit zeroStream).1 = .ok u ∧
      ((S_fresh.commit zeroStream).2.1.respond [1, 0, -1, 1]).1 = .ok z ∧
      ((S_fresh.commit zeroStream).2.1.verify u [1, 0, -1, 1] (tamper_response 97 z) =
          .ok true ↔
        ∀ i, i < 4 → entry (S_fresh.A_.getD i []) 0 = 0) ∧
      ((S_fresh.commit zeroStream).2.1.verify u [1, 0, -1, 1] (tamper_response 97 z) =
          .ok false ↔
        ∃ i, i < 4 ∧ entry (S_fresh.A_.getD i []) 0 ≠ 0) :=
  tampered_response_iff S_fresh
    (ctor_inv P_default (by decide) (by decide) (by decide) zeroStream zeroStream S_fresh
      rfl).1 rfl zeroStream [1, 0, -1, 1] rfl (by simp [Ternary])

/-- C30: for every session and every `(u, c, z)`, replacing an entry `z_i` with
`q/2 < z_i < q` (integer division) by `z_i - q` leaves the result of `verify` as it
is, be it a boolean or an error; so does replacing every such entry at once. -/
theorem verify_balanced (S : LatticeProof) (u challenge z : List Int) :
    (∀ i, i < z.length → ZZ_div S.params_.q 2 < entry z i → entry z i < S.params_.q →
      S.verify u challenge (z.set i (entry z i - S.params_.q)) = S.verify u challenge z) ∧
    S.verify u challenge (z.map (balanced S.params_.q)) = S.verify u challenge z := by
  constructor
  · intro i hi h1 h2
    have hb : balanced S.params_.q (entry z i) = entry z i - S.params_.q := by
      unfold balanced
      rw [if_pos ⟨h1, h2⟩]
    rw [← hb]
    apply verify_of_same_image
    · simp
    · exact map_set_same _ z i _ hi (lift_balanced _ _)
    · exact map_set_same _ z i _ hi (conv_balanced _ _)
  · apply verify_of_same_image
    · simp
    · rw [List.map_map]
      apply List.map_congr_left
      intro x _
      exact lift_balanced _ x
    · rw [List.map_map]
      apply List.map_congr_left
      intro x _
      exact conv_balanced _ x

theorem verify_balanced_witness :
    (S_fresh.commit zeroStream).2.1.verify [0, 0, 0, 0] [1, 0, -1, 1]
        (([86, 87, 88, 86] : List Int).set 0 (entry [86, 87, 88, 86] 0 -
          (S_fresh.commit zeroStream).2.1.params_.q)) =
      (S_fresh.commit zeroStream).2.1.verify [0, 0, 0, 0] [1, 0, -1, 1] [86, 87, 88, 86] :=
  (verify_balanced (S_fresh.commit zeroStream).2.1 [0, 0, 0, 0] [1, 0, -1, 1]
    [86, 87, 88, 86]).1 0 (by decide) (by decide) (by decide)

end protocol
